import Mathlib

/-!
# Symbolic state comparison and merge (`libpharos/state.cpp`)

A shallow embedding of the register-state and memory-state comparison
(`equals`, `diff`, `mem_compare`, `inspect_register`), of the memory-state
merge, of the merge without a condition and of the memory chunker (the
constructor of `CellMapChunks` and its chunk iterator) of
`libpharos/state.cpp`, followed by theorems about them.

Conventions of the embedding.

* The expression engine is outside the unit.  A symbolic value is an element of
  a type parameter `SV`; the three queries the unit makes of a value
  (`is_incomplete`, `operator==`, `must_equal`) are the fields of `ValueOps`.
* `createOptionalMerge(other, merger(), solver)` is a parameter
  `createOptionalMerge : SV → Option SV → Option SV`: the receiver, the other
  operand (`none` is the null `BaseSValuePtr()` placeholder) and the optional
  result (`none` is `Sawyer::Nothing`, which `orDefault()` turns into a null
  pointer).
* The register layer's `read_register` is a parameter: a function of the state
  read and of the descriptor, whose result is either a value or the
  `RegisterNotPresent` exception (`none`).
* The cell container `cells` is an ordered map from `CellKey` to cells; it is a
  list of key/cell pairs kept in key order.  The two maps of the chunker are
  kept in the same way.
* An iterator into an ordered map is the list of the entries from its position
  on; the end iterator is the empty list.  The dereference of an end iterator
  makes the function that does it return `none`.
* `int64_t` offsets are integers; `++offset` wraps modulo `2 ^ 64`.
-/

namespace pharos

/-! ## Symbolic values and registers -/

/-- The queries made of symbolic values: `is_incomplete()`, `operator==` and
`must_equal(other, NULL)`. -/
structure ValueOps (SV : Type) where
  /-- The completeness flag, `value->is_incomplete()`. -/
  is_incomplete : SV → Bool
  /-- Expression equality, `*value == *ovalue`. -/
  eq : SV → SV → Bool
  /-- The solver-backed oracle, `value->must_equal(ovalue, NULL)`. -/
  must_equal : SV → SV → Bool

/-- A register descriptor: major and minor number, bit offset and width. -/
structure RegisterDescriptor where
  /-- Major number. -/
  major : Nat
  /-- Minor number. -/
  minor : Nat
  /-- Bit offset. -/
  offset : Nat
  /-- Width in bits. -/
  nbits : Nat
deriving DecidableEq, Repr

/-- One stored register slot, `RegisterStateGeneric::RegPair`. -/
structure RegPair (SV : Type) where
  /-- The descriptor of the slot. -/
  desc : RegisterDescriptor
  /-- The value stored in the slot. -/
  value : SV

/-- The register state: the sequence `registers_.values()` of slot vectors and
the `accessCreatesLocations` flag of the underlying generic register state. -/
structure SymbolicRegisterState (SV : Type) where
  /-- The slot vectors, in the order of `registers_.values()`. -/
  registers_ : List (List (RegPair SV))
  /-- Whether a read of a missing register creates it. -/
  accessCreatesLocations_ : Bool

/-- The type of the register layer's `read_register`: `none` stands for the
`RegisterNotPresent` exception. -/
abbrev RegisterReader (SV : Type) :=
  SymbolicRegisterState SV → RegisterDescriptor → Option SV

/-- The test made on one slot by `SymbolicRegisterState::equals` (lines 36-57):
`none` when the loop continues with the next slot, `some false` when the
function returns false there. -/
def equalsSlot {SV : Type} (ops : ValueOps SV) (value ovalue : SV) : Option Bool :=
  if ops.is_incomplete value && ops.is_incomplete ovalue then none
  else if ops.is_incomplete value || ops.is_incomplete ovalue then some false
  else if !(ops.eq value ovalue) then some false
  else none

/-- The inner loop of `SymbolicRegisterState::equals` over one slot vector
followed by the remaining work `rest`.  The result `none` is the
`RegisterNotPresent` exception leaving the function. -/
def equalsPairs {SV : Type} (ops : ValueOps SV) (read_register : RegisterReader SV)
    (other : SymbolicRegisterState SV) (rest : Option Bool) :
    List (RegPair SV) → Option Bool
  | [] => rest
  | rp :: rpl =>
    match read_register other rp.desc with
    | none => none
    | some ovalue =>
      match equalsSlot ops rp.value ovalue with
      | some b => some b
      | none => equalsPairs ops read_register other rest rpl

/-- The outer loop of `SymbolicRegisterState::equals`. -/
def equalsVectors {SV : Type} (ops : ValueOps SV) (read_register : RegisterReader SV)
    (other : SymbolicRegisterState SV) : List (List (RegPair SV)) → Option Bool
  | [] => some true
  | rpl :: rpls =>
    match equalsPairs ops read_register other (some true) rpl with
    | some true => equalsVectors ops read_register other rpls
    | r => r

/-- `SymbolicRegisterState::equals` (lines 28-64). -/
def SymbolicRegisterState.equals {SV : Type} (ops : ValueOps SV)
    (read_register : RegisterReader SV)
    (this other : SymbolicRegisterState SV) : Option Bool :=
  equalsVectors ops read_register other this.registers_

/-- The statement `RegisterStateGeneric::AccessCreatesLocationsGuard(this, false);`
(lines 67 and 79).  The guard object is an unnamed temporary: its constructor
saves the flag and sets the new value, and its destructor, run at the end of
the same statement, puts the saved value back. -/
def accessCreatesLocationsGuard {SV : Type} (this : SymbolicRegisterState SV)
    (newValue : Bool) : SymbolicRegisterState SV :=
  let savedValue := this.accessCreatesLocations_
  let constructed : SymbolicRegisterState SV := ⟨this.registers_, newValue⟩
  ⟨constructed.registers_, savedValue⟩

/-- `SymbolicRegisterState::inspect_register` (lines 66-74): the read, with the
`RegisterNotPresent` exception turned into the null pointer (`none`). -/
def SymbolicRegisterState.inspect_register {SV : Type}
    (read_register : RegisterReader SV)
    (this : SymbolicRegisterState SV) (rd : RegisterDescriptor) : Option SV :=
  let guarded := accessCreatesLocationsGuard this false
  match read_register guarded rd with
  | some v => some v
  | none => none

/-- The body of the loops of `SymbolicRegisterState::diff` for one slot
(lines 84-94): the set of changed registers after the slot. -/
def diffSlot {SV : Type} (ops : ValueOps SV) (read_register : RegisterReader SV)
    (ip_reg : RegisterDescriptor) (other : SymbolicRegisterState SV)
    (changed : List RegisterDescriptor) (rp : RegPair SV) : List RegisterDescriptor :=
  match SymbolicRegisterState.inspect_register read_register other rp.desc with
  | none => changed
  | some ovalue =>
    if rp.desc = ip_reg then changed
    else if !(ops.must_equal rp.value ovalue) then changed ++ [rp.desc]
    else changed

/-- `SymbolicRegisterState::diff` (lines 78-100).  The result set holds one
pointer per reported slot; it is the list of the descriptors of those slots. -/
def SymbolicRegisterState.diff {SV : Type} (ops : ValueOps SV)
    (read_register : RegisterReader SV) (ip_reg : RegisterDescriptor)
    (this other : SymbolicRegisterState SV) : List RegisterDescriptor :=
  let guarded := accessCreatesLocationsGuard this false
  guarded.registers_.foldl
    (fun changed rpl => rpl.foldl (diffSlot ops read_register ip_reg other) changed) []

/-! ## Memory cells and the cell map -/

/-- The key of the cell map, the result of `generateCellKey`. -/
abbrev CellKey := Nat

/-- A memory cell: address, value, writer set and I/O property set. -/
structure MemoryCell (SV : Type) where
  /-- The address of the cell. -/
  address : SV
  /-- The value held. -/
  value : SV
  /-- The writer set, `getWriters()`. -/
  writers : Finset Nat
  /-- The I/O property set, `ioProperties()`. -/
  ioProperties : Finset Nat
deriving DecidableEq

/-- The memory state: the ordered cell map `cells` and `latestWrittenCell_`,
which points at an entry of the map and is kept as the key of that entry. -/
structure SymbolicMemoryState (SV : Type) where
  /-- The cell map, in key order. -/
  cells : List (CellKey × MemoryCell SV)
  /-- The key of the cell written last, if any. -/
  latestWrittenCell_ : Option CellKey

/-- `cells.getOrDefault(key)`: the cell stored under `key`, or the null
pointer. -/
def getOrDefault {SV : Type} (key : CellKey) :
    List (CellKey × MemoryCell SV) → Option (MemoryCell SV)
  | [] => none
  | (k, c) :: rest => if k = key then some c else getOrDefault key rest

/-- `cells.insert(key, cell)` on the ordered map: the entry under `key` is
replaced, or a new entry is put at its place in key order. -/
def cellsInsert {SV : Type} (key : CellKey) (cell : MemoryCell SV) :
    List (CellKey × MemoryCell SV) → List (CellKey × MemoryCell SV)
  | [] => [(key, cell)]
  | (k, c) :: rest =>
    if key < k then (key, cell) :: (k, c) :: rest
    else if key = k then (key, cell) :: rest
    else (k, c) :: cellsInsert key cell rest

/-- The cell under `key` is replaced by its image under `f`: the effect of a
mutation made through a pointer to that cell. -/
def cellsModify {SV : Type} (key : CellKey) (f : MemoryCell SV → MemoryCell SV) :
    List (CellKey × MemoryCell SV) → List (CellKey × MemoryCell SV)
  | [] => []
  | (k, c) :: rest =>
    if k = key then (k, f c) :: rest else (k, c) :: cellsModify key f rest

/-- `allCells()`: a snapshot of the cells, in map order. -/
def SymbolicMemoryState.allCells {SV : Type} (this : SymbolicMemoryState SV) :
    List (MemoryCell SV) :=
  this.cells.map Prod.snd

/-- `findCell(address)`: the cell stored under the key of `address`. -/
def SymbolicMemoryState.findCell {SV : Type} (generateCellKey : SV → CellKey)
    (this : SymbolicMemoryState SV) (address : SV) : Option (MemoryCell SV) :=
  getOrDefault (generateCellKey address) this.cells

/-- Modelled from the spec: `writeMemory` of the cell-map base class, which is
not part of `state.cpp`.  A fresh cell for the address and the value is stored
under the key of the address, replacing the cell that was there, and becomes
the latest written cell.  The fresh cell has no writers; `initialProps` is the
property set the write gives it (a write or an initialisation mark, depending
on the operator context). -/
def SymbolicMemoryState.writeMemory {SV : Type} (generateCellKey : SV → CellKey)
    (initialProps : Finset Nat) (this : SymbolicMemoryState SV) (address value : SV) :
    SymbolicMemoryState SV :=
  let key := generateCellKey address
  ⟨cellsInsert key ⟨address, value, ∅, initialProps⟩ this.cells, some key⟩

/-- `latestWrittenCell_->setWriters(writers)`. -/
def SymbolicMemoryState.setLatestWriters {SV : Type} (this : SymbolicMemoryState SV)
    (writers : Finset Nat) : SymbolicMemoryState SV :=
  match this.latestWrittenCell_ with
  | none => this
  | some key =>
    ⟨cellsModify key (fun c => ⟨c.address, c.value, writers, c.ioProperties⟩) this.cells,
      some key⟩

/-- `latestWrittenCell_->ioProperties() = props`. -/
def SymbolicMemoryState.setLatestProps {SV : Type} (this : SymbolicMemoryState SV)
    (props : Finset Nat) : SymbolicMemoryState SV :=
  match this.latestWrittenCell_ with
  | none => this
  | some key =>
    ⟨cellsModify key (fun c => ⟨c.address, c.value, c.writers, props⟩) this.cells,
      some key⟩

/-- The three statements that store a merged cell (lines 416-418, 434-436 and
455-457): `writeMemory`, then the writers and the properties of the latest
written cell are set. -/
def SymbolicMemoryState.writeMerged {SV : Type} (generateCellKey : SV → CellKey)
    (initialProps : Finset Nat) (this : SymbolicMemoryState SV) (address value : SV)
    (writers props : Finset Nat) : SymbolicMemoryState SV :=
  ((this.writeMemory generateCellKey initialProps address value).setLatestWriters
    writers).setLatestProps props

/-! ## Memory-state equality -/

/-- `mem_compare` (lines 104-127). -/
def mem_compare {SV : Type} (ops : ValueOps SV) (_addr value ovalue : SV) : Bool :=
  if ops.is_incomplete value && ops.is_incomplete ovalue then true
  else if ops.is_incomplete value || ops.is_incomplete ovalue then false
  else if ops.eq value ovalue then true
  else false

/-- The first loop of `SymbolicMemoryState::equals` (lines 333-351): `true`
when the loop runs to its end, `false` when it returns false. -/
def equalsThisPass {SV : Type} (ops : ValueOps SV) (generateCellKey : SV → CellKey)
    (other : SymbolicMemoryState SV) : List (MemoryCell SV) → Bool
  | [] => true
  | cell :: rest =>
    let ma := cell.address
    let mv := cell.value
    match other.findCell generateCellKey ma with
    | some ocell =>
      let omv := ocell.value
      if !(mem_compare ops ma mv omv) then false
      else equalsThisPass ops generateCellKey other rest
    | none =>
      if ops.is_incomplete ma then equalsThisPass ops generateCellKey other rest
      else false

/-- The second loop of `SymbolicMemoryState::equals` (lines 352-370). -/
def equalsOtherPass {SV : Type} (ops : ValueOps SV) (generateCellKey : SV → CellKey)
    (this : SymbolicMemoryState SV) : List (MemoryCell SV) → Bool
  | [] => true
  | ocell :: rest =>
    let oma := ocell.address
    let omv := ocell.value
    match this.findCell generateCellKey oma with
    | some cell =>
      let mv := cell.value
      if !(mem_compare ops oma mv omv) then false
      else equalsOtherPass ops generateCellKey this rest
    | none =>
      if ops.is_incomplete oma then equalsOtherPass ops generateCellKey this rest
      else false

/-- `SymbolicMemoryState::equals` (lines 332-375). -/
def SymbolicMemoryState.equals {SV : Type} (ops : ValueOps SV)
    (generateCellKey : SV → CellKey) (this other : SymbolicMemoryState SV) : Bool :=
  if equalsThisPass ops generateCellKey other this.allCells then
    equalsOtherPass ops generateCellKey this other.allCells
  else false

/-! ## Memory-state merge -/

/-- The variables of `SymbolicMemoryState::merge` that live across its loops:
the state being merged into, the set `processed` and the flag `changed`. -/
structure MergeState (SV : Type) where
  /-- The receiving memory state. -/
  state : SymbolicMemoryState SV
  /-- The keys recorded as processed. -/
  processed : Finset CellKey
  /-- Whether a cell was written. -/
  changed : Bool

/-- The body of the first loop of `SymbolicMemoryState::merge` (lines 391-441),
for one cell of the other state.  The `continue` of line 432 leaves the
variables as they are and skips `processed.insert(key)`; `thisValue->copy()` is
the value itself. -/
def mergeOtherCell {SV : Type} (createOptionalMerge : SV → Option SV → Option SV)
    (generateCellKey : SV → CellKey) (initialProps : Finset Nat)
    (acc : MergeState SV) (otherCell : MemoryCell SV) : MergeState SV :=
  let key := generateCellKey otherCell.address
  match getOrDefault key acc.state.cells with
  | some thisCell =>
    let otherValue := otherCell.value
    let thisValue := thisCell.value
    let newValue := createOptionalMerge thisValue (some otherValue)
    let changed1 := newValue.isSome
    let otherWriters := otherCell.writers
    let thisWriters := thisCell.writers
    let newWriters := otherWriters ∪ thisWriters
    let changed2 := if newWriters ≠ thisWriters then true else changed1
    let otherProps := otherCell.ioProperties
    let thisProps := thisCell.ioProperties
    let newProps := otherProps ∪ thisProps
    let thisCellChanged := if newProps ≠ thisProps then true else changed2
    if thisCellChanged then
      let written := match newValue with
        | some v => v
        | none => thisValue
      ⟨acc.state.writeMerged generateCellKey initialProps thisCell.address written
          newWriters newProps,
        insert key acc.processed, true⟩
    else
      ⟨acc.state, insert key acc.processed, acc.changed⟩
  | none =>
    let otherValue := otherCell.value
    match createOptionalMerge otherValue none with
    | none => acc
    | some newValue =>
      ⟨acc.state.writeMerged generateCellKey initialProps otherCell.address newValue
          otherCell.writers otherCell.ioProperties,
        insert key acc.processed, true⟩

/-- The body of the second loop of `SymbolicMemoryState::merge` (lines 446-459),
for one cell of the snapshot of the receiving state. -/
def mergeThisCell {SV : Type} (createOptionalMerge : SV → Option SV → Option SV)
    (generateCellKey : SV → CellKey) (initialProps : Finset Nat)
    (acc : MergeState SV) (thisCell : MemoryCell SV) : MergeState SV :=
  let key := generateCellKey thisCell.address
  if key ∈ acc.processed then acc
  else
    let thisValue := thisCell.value
    match createOptionalMerge thisValue none with
    | none => acc
    | some newValue =>
      ⟨acc.state.writeMerged generateCellKey initialProps thisCell.address newValue
          thisCell.writers thisCell.ioProperties,
        acc.processed, true⟩

/-- The state of `merge` after its first loop. -/
def mergeFirstPass {SV : Type} (createOptionalMerge : SV → Option SV → Option SV)
    (generateCellKey : SV → CellKey) (initialProps : Finset Nat)
    (this other : SymbolicMemoryState SV) : MergeState SV :=
  other.allCells.foldl (mergeOtherCell createOptionalMerge generateCellKey initialProps)
    ⟨this, ∅, false⟩

/-- `SymbolicMemoryState::merge` (lines 379-462): the value returned and the
receiving state after the call. -/
def SymbolicMemoryState.merge {SV : Type}
    (createOptionalMerge : SV → Option SV → Option SV)
    (generateCellKey : SV → CellKey) (initialProps : Finset Nat)
    (this other : SymbolicMemoryState SV) : Bool × SymbolicMemoryState SV :=
  let first := mergeFirstPass createOptionalMerge generateCellKey initialProps this other
  let second := first.state.allCells.foldl
    (mergeThisCell createOptionalMerge generateCellKey initialProps) first
  (second.changed, second.state)

/-- The invariant of the cell map: the keys are in strictly increasing order
(so there is at most one cell per key) and every cell is stored under the key
of its own address. -/
def SymbolicMemoryState.wellFormed {SV : Type} (generateCellKey : SV → CellKey)
    (this : SymbolicMemoryState SV) : Prop :=
  (this.cells.map Prod.fst).Pairwise (fun a b => a < b) ∧
    ∀ kc ∈ this.cells, generateCellKey kc.2.address = kc.1

/-! ## The cell-wise description of the merge -/

/-- The cell that the first loop of `merge` leaves under a key present in both
states: the address of the receiving cell, the merged value when the merger
gives one and the receiving value otherwise, and the unions of the writer sets
and of the property sets. -/
def mergedBoth {SV : Type} (createOptionalMerge : SV → Option SV → Option SV)
    (thisCell otherCell : MemoryCell SV) : MemoryCell SV :=
  ⟨thisCell.address,
    (match createOptionalMerge thisCell.value (some otherCell.value) with
      | some v => v
      | none => thisCell.value),
    otherCell.writers ∪ thisCell.writers,
    otherCell.ioProperties ∪ thisCell.ioProperties⟩

/-- Whether the first loop writes the cell of a key present in both states:
the merger gives a value, or a writer or a property of the other cell is new. -/
def bothWrites {SV : Type} (createOptionalMerge : SV → Option SV → Option SV)
    (thisCell otherCell : MemoryCell SV) : Prop :=
  createOptionalMerge thisCell.value (some otherCell.value) ≠ none ∨
    ¬ otherCell.writers ⊆ thisCell.writers ∨
    ¬ otherCell.ioProperties ⊆ thisCell.ioProperties

/-- The cell written for a cell found in one state only: the result of merging
its value with the absent placeholder, with its own address, writers and
properties; `none` when the merger declines. -/
def mergedAbsent {SV : Type} (createOptionalMerge : SV → Option SV → Option SV)
    (cell : MemoryCell SV) : Option (MemoryCell SV) :=
  match createOptionalMerge cell.value none with
  | some newValue => some ⟨cell.address, newValue, cell.writers, cell.ioProperties⟩
  | none => none

/-- The cell under a key after the first loop has handled the cell `otherCell`
of that key, from the cell `found` that was there before. -/
def firstPassCell {SV : Type} (createOptionalMerge : SV → Option SV → Option SV)
    (found : Option (MemoryCell SV)) (otherCell : MemoryCell SV) :
    Option (MemoryCell SV) :=
  match found with
  | some thisCell => some (mergedBoth createOptionalMerge thisCell otherCell)
  | none => mergedAbsent createOptionalMerge otherCell

/-- Whether the first loop writes a cell when it handles `otherCell`. -/
def firstPassWrites {SV : Type} (createOptionalMerge : SV → Option SV → Option SV)
    (found : Option (MemoryCell SV)) (otherCell : MemoryCell SV) : Prop :=
  match found with
  | some thisCell => bothWrites createOptionalMerge thisCell otherCell
  | none => createOptionalMerge otherCell.value none ≠ none

/-- Whether the first loop records the key of `otherCell` as processed. -/
def firstPassRecords {SV : Type} (createOptionalMerge : SV → Option SV → Option SV)
    (found : Option (MemoryCell SV)) (otherCell : MemoryCell SV) : Prop :=
  found ≠ none ∨ createOptionalMerge otherCell.value none ≠ none

/-- The cell under a key after the whole merge, from the cells under that key
in the receiving state and in the other state before the call. -/
def mergedCell {SV : Type} (createOptionalMerge : SV → Option SV → Option SV)
    (thisCell otherCell : Option (MemoryCell SV)) : Option (MemoryCell SV) :=
  match thisCell, otherCell with
  | some tc, some oc => some (mergedBoth createOptionalMerge tc oc)
  | none, some oc => mergedAbsent createOptionalMerge oc
  | some tc, none =>
    (match mergedAbsent createOptionalMerge tc with
      | some c => some c
      | none => some tc)
  | none, none => none

/-! ## Sample data

Symbolic values are natural numbers here: a number below 100 is a complete
constant and a number from 100 on is an incomplete value.  The key of an
address is the address itself. -/

/-- Value queries of the sample: incompleteness from 100 on, equality of
numbers for both equality tests. -/
def sampleOps : ValueOps Nat :=
  ⟨fun v => decide (100 ≤ v), fun a b => decide (a = b), fun a b => decide (a = b)⟩

/-- A merger that weakens: no result for two equal values or for an incomplete
value met with the placeholder, an incomplete value otherwise. -/
def sampleMerger : Nat → Option Nat → Option Nat
  | v, none => if 100 ≤ v then none else some (v + 100)
  | v, some w => if v = w then none else some (v + w + 100)

/-- A merger that always declines. -/
def decliningMerger : Nat → Option Nat → Option Nat :=
  fun _ _ => none

/-- A receiving state with cells at the addresses 1 and 2. -/
def sampleThis : SymbolicMemoryState Nat :=
  ⟨[(1, ⟨1, 5, {10}, {0}⟩), (2, ⟨2, 6, {11}, {0}⟩)], none⟩

/-- Another state with cells at the addresses 1 and 3. -/
def sampleOther : SymbolicMemoryState Nat :=
  ⟨[(1, ⟨1, 7, {12}, {1}⟩), (3, ⟨3, 8, {13}, {1}⟩)], none⟩

/-- The state A of the one-sided example: the single cell a = 1 holding 5. -/
def sampleA : SymbolicMemoryState Nat :=
  ⟨[(1, ⟨1, 5, {10}, {0}⟩)], none⟩

/-- The state B of the one-sided example: no cell. -/
def sampleB : SymbolicMemoryState Nat :=
  ⟨[], none⟩

/-- The register layer of the sample: a read finds the first slot stored under
the descriptor; a register that is not stored reads as the incomplete value
100 when reads create locations, and raises `RegisterNotPresent` otherwise. -/
def sampleReader : RegisterReader Nat :=
  fun state rd =>
    match state.registers_.flatten.find? (fun rp => decide (rp.desc = rd)) with
    | some rp => some rp.value
    | none => if state.accessCreatesLocations_ then some 100 else none

/-- The descriptor of the sample register `eax`. -/
def sampleEax : RegisterDescriptor := ⟨0, 0, 0, 32⟩

/-- The descriptor of the sample register `ebx`. -/
def sampleEbx : RegisterDescriptor := ⟨0, 3, 0, 32⟩

/-- The descriptor of the sample instruction pointer. -/
def sampleEip : RegisterDescriptor := ⟨1, 0, 0, 32⟩

/-- A register state: `eax` holds the constant 5, `ebx` the incomplete value
101 and the instruction pointer the constant 64. -/
def sampleRegs1 : SymbolicRegisterState Nat :=
  ⟨[[⟨sampleEax, 5⟩, ⟨sampleEbx, 101⟩], [⟨sampleEip, 64⟩]], true⟩

/-- The same register state, except that `ebx` holds another incomplete value,
102. -/
def sampleRegs2 : SymbolicRegisterState Nat :=
  ⟨[[⟨sampleEax, 5⟩, ⟨sampleEbx, 102⟩], [⟨sampleEip, 64⟩]], true⟩

/-- A register state in which `ebx` holds the complete constant 7. -/
def sampleRegs3 : SymbolicRegisterState Nat :=
  ⟨[[⟨sampleEax, 5⟩, ⟨sampleEbx, 7⟩], [⟨sampleEip, 64⟩]], true⟩

/-! ## The symbolic state and the merge without a condition -/

/-- The symbolic state of one program point: its register state and its memory
state. -/
structure SymbolicState (SV : Type) where
  /-- The register state, `get_register_state()`. -/
  register_state : SymbolicRegisterState SV
  /-- The memory state, `get_memory_state()`. -/
  memory_state : SymbolicMemoryState SV

/-- The ways in which a call of `SymbolicState::merge` ends: it returns the flag
`changed`, leaving the receiving state `this`, or the process is aborted, with
the two states as they are at that moment. -/
inductive MergeOutcome (SV : Type) where
  /-- The call returns `changed`; `this` is the receiving state afterwards. -/
  | returned (changed : Bool) (this : SymbolicState SV) : MergeOutcome SV
  /-- The call ends in `abort()`; `this` and `other` are the states then. -/
  | aborted (this other : SymbolicState SV) : MergeOutcome SV

/-- `SymbolicState::merge(const BaseStatePtr &, BaseRiscOperators *)`
(lines 282-286), the merge without a condition: its body is `abort()`.  The
operator context is an argument of type `Ops`. -/
def SymbolicState.merge {SV Ops : Type} (this other : SymbolicState SV) (_ops : Ops) :
    MergeOutcome SV :=
  MergeOutcome.aborted this other

/-! ## Reads of the register state and their effect on the state -/

/-- The type of a read of the register layer together with its effect: the
value read (`none` is the `RegisterNotPresent` exception) and the state after
the read. -/
abbrev RegisterAccess (SV : Type) :=
  SymbolicRegisterState SV → RegisterDescriptor → Option SV × SymbolicRegisterState SV

/-- Modelled from the spec: the ordinary read `read_register` of the register
layer, which is declared outside `state.cpp`.  The read of a stored register
yields its value and leaves the state as it is.  The read of a register without
an entry creates the entry with the default incomplete value `dflt rd` and
yields that value when accesses create locations, and raises
`RegisterNotPresent` otherwise. -/
def SymbolicRegisterState.read_register {SV : Type} (dflt : RegisterDescriptor → SV) :
    RegisterAccess SV :=
  fun this rd =>
    match this.registers_.flatten.find? (fun rp => decide (rp.desc = rd)) with
    | some rp => (some rp.value, this)
    | none =>
      if this.accessCreatesLocations_ then
        (some (dflt rd), ⟨this.registers_ ++ [[⟨rd, dflt rd⟩]], this.accessCreatesLocations_⟩)
      else (none, this)

/-- `SymbolicRegisterState::inspect_register` (lines 66-74) with its effect on
the state: the value returned (`none` is the null pointer) and the register
state after the call.  The guard of line 67 is gone when the read of line 69
runs; the `catch` turns `RegisterNotPresent` into the null pointer. -/
def SymbolicRegisterState.inspect_register_effect {SV : Type}
    (read_register : RegisterAccess SV)
    (this : SymbolicRegisterState SV) (rd : RegisterDescriptor) :
    Option SV × SymbolicRegisterState SV :=
  let guarded := accessCreatesLocationsGuard this false
  match read_register guarded rd with
  | (some v, after) => (some v, after)
  | (none, after) => (none, after)

/-- The descriptor of the sample register `ecx`, which the sample register
states do not store. -/
def sampleEcx : RegisterDescriptor := ⟨0, 1, 0, 32⟩

/-- The default value of the sample register layer: the incomplete value 100. -/
def sampleDefault : RegisterDescriptor → Nat :=
  fun _ => 100

/-! ## The memory chunker: the two-level map and the chunk iterator -/

/-- `offset_map_t`, the ordered map from `int64_t` offsets to value expressions:
the list of its entries in key order. -/
abbrev offset_map_t (TN : Type) := List (Int × TN)

/-- `section_map_t`, the ordered map from bases to offset maps: the list of its
entries in key order. -/
abbrev section_map_t (B TN : Type) := List (B × offset_map_t TN)

/-- The largest `int64_t`. -/
def INT64_MAX : Int := 2 ^ 63 - 1

/-- The smallest `int64_t`. -/
def INT64_MIN : Int := -(2 ^ 63)

/-- The `int64_t` that an arithmetic step with the exact result `x` leaves:
`x` reduced modulo `2 ^ 64` into the range of `int64_t`. -/
def int64_wrap (x : Int) : Int :=
  (x + 2 ^ 63) % 2 ^ 64 - 2 ^ 63

/-- The loop of `update_iter` (lines 189-194), entered after `++i`: `offset` is
the counter and the list is the section from the cursor `i` on.  The first
component of the result is the cursor at the exit of the loop.  The second
component records, for every `++offset` executed, the value of `offset` before
it and the key `i->first` the cursor points to. -/
def scanLoop {TN : Type} (offset : Int) : offset_map_t TN → offset_map_t TN × List (Int × Int)
  | [] => ([], [])
  | (key, value) :: rest =>
    let next := int64_wrap (offset + 1)
    if key ≠ next then ((key, value) :: rest, [(offset, key)])
    else ((scanLoop next rest).1, (offset, key) :: (scanLoop next rest).2)

/-- A chunk: the cell iterators `b` and `e`, each the part of the offset map
from its position on, and the base `symbolic`. -/
structure Chunk (B TN : Type) where
  /-- The iterator at the first cell. -/
  b : offset_map_t TN
  /-- The iterator past the last cell. -/
  e : offset_map_t TN
  /-- The base of the chunk. -/
  symbolic : B

/-- `chunk.clear()`: default iterators and the null base. -/
def Chunk.clear {B TN : Type} [Inhabited B] : Chunk B TN :=
  ⟨[], [], default⟩

/-- The cells of a chunk: the entries from `b` up to `e`. -/
def Chunk.cells {B TN : Type} (chunk : Chunk B TN) : offset_map_t TN :=
  chunk.b.take (chunk.b.length - chunk.e.length)

/-- The chunk iterator.  `section_iter` is the section map from the position of
the iterator on (the empty list is `section_iter_end`); `offset_iter` and
`offset_iter_end` are the offset map of the current section from their
positions on (the empty list is `end()`, and also the default iterator). -/
structure chunk_iterator (B TN : Type) where
  /-- The position in the section map. -/
  section_iter : section_map_t B TN
  /-- The position of the first cell of the chunk. -/
  offset_iter : offset_map_t TN
  /-- The position past the last cell of the chunk. -/
  offset_iter_end : offset_map_t TN
  /-- The chunk the iterator stands for. -/
  chunk : Chunk B TN

/-- `CellMapChunks::chunk_iterator::update_iter` (lines 185-199).  The result
`none` is the dereference of an end iterator, at `offset_iter->first` or at
`section_iter->first`. -/
def chunk_iterator.update_iter {B TN : Type} (it : chunk_iterator B TN) :
    Option (chunk_iterator B TN) :=
  match it.offset_iter, it.section_iter with
  | (offset, _) :: rest, (base, _) :: _ =>
    let i := (scanLoop offset rest).1
    some ⟨it.section_iter, it.offset_iter, i, ⟨it.offset_iter, i, base⟩⟩
  | _, _ => none

/-- `CellMapChunks::chunk_iterator::increment` (lines 201-214).  The result
`none` is the dereference of an end iterator. -/
def chunk_iterator.increment {B TN : Type} [Inhabited B] (it : chunk_iterator B TN) :
    Option (chunk_iterator B TN) :=
  match it.section_iter with
  | [] => none
  | _ :: sections =>
    match it.offset_iter_end with
    | _ :: _ =>
      chunk_iterator.update_iter
        ⟨it.section_iter, it.offset_iter_end, it.offset_iter_end, it.chunk⟩
    | [] =>
      match sections with
      | [] => some ⟨[], [], it.offset_iter_end, Chunk.clear⟩
      | (base, offsets) :: more =>
        chunk_iterator.update_iter
          ⟨(base, offsets) :: more, offsets, it.offset_iter_end, it.chunk⟩

/-- Modelled from the spec: the iterator at the start of the walk, which is
built outside `state.cpp`.  It stands at the first offset of the first base and
`update_iter` gives it its chunk; for an empty section map it is the sentinel
with the cleared chunk. -/
def chunk_iterator.begin {B TN : Type} [Inhabited B] (section_map : section_map_t B TN) :
    Option (chunk_iterator B TN) :=
  match section_map with
  | [] => some ⟨[], [], [], Chunk.clear⟩
  | (_, offsets) :: _ =>
    chunk_iterator.update_iter ⟨section_map, offsets, [], Chunk.clear⟩

/-- The iterator after `n` calls of `increment`; `none` when one of the calls
dereferences an end iterator. -/
def chunk_iterator.advance {B TN : Type} [Inhabited B] :
    Nat → chunk_iterator B TN → Option (chunk_iterator B TN)
  | 0, it => some it
  | n + 1, it =>
    match it.increment with
    | none => none
    | some next => chunk_iterator.advance n next

/-- The chunks the iterator stands for before each of its first `n` calls of
`increment`, in order. -/
def chunk_iterator.produced {B TN : Type} [Inhabited B] :
    Nat → chunk_iterator B TN → List (Chunk B TN)
  | 0, _ => []
  | n + 1, it =>
    it.chunk ::
      (match it.increment with
        | none => []
        | some next => chunk_iterator.produced n next)

/-- The number of slots of a section map. -/
def slotCount {B TN : Type} (section_map : section_map_t B TN) : Nat :=
  (section_map.map (fun s => s.2.length)).sum

/-- The slots of a section map in map order, each with its base. -/
def allSlots {B TN : Type} (section_map : section_map_t B TN) : List (B × Int × TN) :=
  section_map.flatMap (fun s => s.2.map (fun cell => (s.1, cell)))

/-- The cells of a chunk, each with the base of the chunk. -/
def Chunk.slots {B TN : Type} (chunk : Chunk B TN) : List (B × Int × TN) :=
  chunk.cells.map (fun cell => (chunk.symbolic, cell))

/-- The sample section map with the offsets 0, 1, 2, 3 of the base 7. -/
def sampleSections1 : section_map_t Nat Nat :=
  [(7, [(0, 50), (1, 51), (2, 52), (3, 53)])]

/-- The sample section map with the offsets 0, 1, 3, 4 of the base 7. -/
def sampleSections2 : section_map_t Nat Nat :=
  [(7, [(0, 50), (1, 51), (3, 53), (4, 54)])]

/-- The invariant of an offset map: its keys are strictly increasing and each
key is an `int64_t`. -/
def offsetsWellFormed {TN : Type} (offsets : offset_map_t TN) : Prop :=
  (offsets.map Prod.fst).Pairwise (fun a b => a < b) ∧
    ∀ cell ∈ offsets, INT64_MIN ≤ cell.1 ∧ cell.1 ≤ INT64_MAX

/-- An offset map whose last key is the largest `int64_t`. -/
def sampleOffsetsMax : offset_map_t Nat :=
  [(INT64_MAX - 2, 50), (INT64_MAX - 1, 51), (INT64_MAX, 52)]

/-- The sentinel of the chunk iteration: no section left, default offset
iterators and the cleared chunk. -/
def chunk_iterator.sentinel {B TN : Type} [Inhabited B] : chunk_iterator B TN :=
  ⟨[], [], [], Chunk.clear⟩

/-- The iterator that stands at the cell `first` of the section of `base` after
`update_iter`: `pre` are the cells of the section before `first`, `rest` the
cells after it, and `after` the sections that follow. -/
def chunk_iterator.standingAt {B TN : Type} (base : B) (pre : offset_map_t TN)
    (first : Int × TN) (rest : offset_map_t TN) (after : section_map_t B TN) :
    chunk_iterator B TN :=
  ⟨(base, pre ++ first :: rest) :: after, first :: rest, (scanLoop first.1 rest).1,
    ⟨first :: rest, (scanLoop first.1 rest).1, base⟩⟩

/-! ## The memory chunker: the constructor -/

/-- `find` on an ordered map kept as the list of its entries: the value under
`key`, if there is one. -/
def mapFind {K V : Type} [LinearOrder K] (key : K) : List (K × V) → Option V
  | [] => none
  | (k, v) :: rest => if k = key then some v else mapFind key rest

/-- The assignment `map[key] = value` on an ordered map kept as the list of its
entries in key order: the entry under `key` is replaced or a new entry is put
at its place. -/
def mapInsert {K V : Type} [LinearOrder K] (key : K) (value : V) :
    List (K × V) → List (K × V)
  | [] => [(key, value)]
  | (k, v) :: rest =>
    if key < k then (key, value) :: (k, v) :: rest
    else if key = k then (key, value) :: rest
    else (k, v) :: mapInsert key value rest

/-- The value of the slot of the base `var` and the offset `offset` in a section
map, if the slot is there. -/
def slotValue {B TN : Type} [LinearOrder B] (section_map : section_map_t B TN)
    (var : B) (offset : Int) : Option TN :=
  match mapFind var section_map with
  | some offsets => mapFind offset offsets
  | none => none

/-- The operations of the expression engine that the constructor of
`CellMapChunks` uses. -/
structure ExprEngine (SV TN B : Type) where
  /-- The expression of a symbolic value, `get_expression()`. -/
  get_expression : SV → TN
  /-- The substitution `expr->substitute(from, to)`. -/
  substitute : TN → TN → TN → TN
  /-- The constant `LeafNode::createBoolean(flag)`. -/
  createBoolean : Bool → TN
  /-- The data of `AddConstantExtractor(expr)`: for each variable portion, the
  set of its offsets in increasing order. -/
  get_data : TN → List (B × List Int)
  /-- The variable `LeafNode::createVariable(nbits, "", INCOMPLETE)`; the second
  argument is the number of variables created before, which names the new
  one. -/
  createVariable : Nat → Nat → TN
  /-- The node `InternalNode::create(nbits, OP_ITE, cond, a, b)`. -/
  create_ite : Nat → TN → TN → TN → TN
  /-- The width `nBits()` of an expression. -/
  nBits : TN → Nat

/-- The analysis a chunker is built from: the input state and the output state,
each of which may be missing. -/
structure DUAnalysis (SV : Type) where
  /-- The input state, `get_input_state()`. -/
  input_state : Option (SymbolicState SV)
  /-- The output state, `get_output_state()`. -/
  output_state : Option (SymbolicState SV)

/-- The state of the constructor of `CellMapChunks` across its loops: the
section map and the number of variables created so far. -/
structure CellMapChunks (B TN : Type) where
  /-- The two-level map from bases and offsets to value expressions. -/
  section_map : section_map_t B TN
  /-- The number of variables created so far. -/
  created : Nat

/-- The body of the inner loop of the constructor from the lookup of the
variable portion on (lines 160-180): `value` is stored in the slot of `var` and
`offset`.  A section for `var` is added if there is none; an existing value
`last_value` of the slot is kept as the third operand of a new conditional
expression. -/
def storeSlot {SV TN B : Type} [LinearOrder B] (eng : ExprEngine SV TN B)
    (acc : CellMapChunks B TN) (var : B) (offset : Int) (value : TN) :
    CellMapChunks B TN :=
  let offsets := match mapFind var acc.section_map with
    | some found => found
    | none => []
  match mapFind offset offsets with
  | some last_value =>
    let tcond := eng.createVariable 1 acc.created
    let ite := eng.create_ite (max (eng.nBits last_value) (eng.nBits value)) tcond value
      last_value
    ⟨mapInsert var (mapInsert offset ite offsets) acc.section_map, acc.created + 1⟩
  | none =>
    ⟨mapInsert var (mapInsert offset value offsets) acc.section_map, acc.created⟩

/-- The inner loop of the constructor (lines 154-181) over the data of one
cell.  The result `none` is the dereference of `begin()` of an empty offset
set at line 158. -/
def storeCell {SV TN B : Type} [LinearOrder B] (eng : ExprEngine SV TN B) (value : TN) :
    CellMapChunks B TN → List (B × List Int) → Option (CellMapChunks B TN)
  | acc, [] => some acc
  | acc, (var, offsets) :: more =>
    match offsets with
    | [] => none
    | offset :: _ => storeCell eng value (storeSlot eng acc var offset value) more

/-- The address expression of a cell as the constructor decomposes it
(lines 146-151): references to the direction flag are replaced by its
value. -/
def chunkAddress {SV TN B : Type} (eng : ExprEngine SV TN B) (df_tn : Option TN)
    (df_value : TN) (cell : MemoryCell SV) : TN :=
  match df_tn with
  | some df => eng.substitute (eng.get_expression cell.address) df df_value
  | none => eng.get_expression cell.address

/-- The outer loop of the constructor (lines 145-182) over the cells of the
output memory. -/
def storeCells {SV TN B : Type} [LinearOrder B] (eng : ExprEngine SV TN B)
    (df_tn : Option TN) (df_value : TN) :
    CellMapChunks B TN → List (MemoryCell SV) → Option (CellMapChunks B TN)
  | acc, [] => some acc
  | acc, cell :: cells =>
    match storeCell eng (eng.get_expression cell.value) acc
        (eng.get_data (chunkAddress eng df_tn df_value cell)) with
    | none => none
    | some next => storeCells eng df_tn df_value next cells

/-- The expression `df_tn` of the direction flag (lines 139-140): `read_df` is
the read of the register `df` from the input state, and `none` is the null
pointer. -/
def chunkFlag {SV TN B : Type} (eng : ExprEngine SV TN B)
    (read_df : SymbolicState SV → Option SV) (input_state : SymbolicState SV) :
    Option TN :=
  match read_df input_state with
  | some df_sym => some (eng.get_expression df_sym)
  | none => none

/-- `CellMapChunks::CellMapChunks` (lines 129-183).  `read_df` is the read of
the direction flag from the input state and `created` the number of variables
created before the call.  The result `none` is the dereference of `begin()` of
an empty offset set. -/
def CellMapChunks.create {SV TN B : Type} [LinearOrder B] (eng : ExprEngine SV TN B)
    (read_df : SymbolicState SV → Option SV) (created : Nat)
    (usedef : DUAnalysis SV) (df_flag : Bool) : Option (CellMapChunks B TN) :=
  match usedef.input_state, usedef.output_state with
  | some input_state, some output_state =>
    let df_tn := chunkFlag eng read_df input_state
    let df_value := eng.createBoolean df_flag
    storeCells eng df_tn df_value ⟨[], created⟩ output_state.memory_state.allCells
  | _, _ => some ⟨[], created⟩

/-- The values that the constructor stores in the slot of `var` and `offset`,
in the order of its loops, for the data of one cell. -/
def cellStores {B TN : Type} [LinearOrder B] (var : B) (offset : Int) (value : TN) :
    List (B × List Int) → List TN
  | [] => []
  | (v, offsets) :: more =>
    if v = var ∧ offsets.head? = some offset then
      value :: cellStores var offset value more
    else cellStores var offset value more

/-- The values that the constructor stores in the slot of `var` and `offset`,
in the order of its loops, for a list of cells. -/
def slotStores {SV TN B : Type} [LinearOrder B] (eng : ExprEngine SV TN B)
    (df_tn : Option TN) (df_value : TN) (var : B) (offset : Int) :
    List (MemoryCell SV) → List TN
  | [] => []
  | cell :: cells =>
    cellStores var offset (eng.get_expression cell.value)
        (eng.get_data (chunkAddress eng df_tn df_value cell)) ++
      slotStores eng df_tn df_value var offset cells

/-- The nested conditional expression of a slot: from the value `prior`, each
further value stored, with the number of its condition variable, becomes the
second operand of a new conditional whose third operand is the expression so
far. -/
def multiplexed {SV TN B : Type} (eng : ExprEngine SV TN B) : TN → List (Nat × TN) → TN
  | prior, [] => prior
  | prior, (id, value) :: more =>
    multiplexed eng
      (eng.create_ite (max (eng.nBits prior) (eng.nBits value)) (eng.createVariable 1 id)
        value prior) more

/-- A sample of expressions: plain leaves, condition variables and
conditionals. -/
inductive SampleNode where
  /-- An expression of the given width. -/
  | leaf (nbits : Nat) (name : Nat) : SampleNode
  /-- A variable of the given width. -/
  | var (nbits : Nat) (id : Nat) : SampleNode
  /-- A conditional of the given width. -/
  | ite (nbits : Nat) (cond a b : SampleNode) : SampleNode
deriving DecidableEq

/-- The width of a sample expression. -/
def SampleNode.nBits : SampleNode → Nat
  | SampleNode.leaf nbits _ => nbits
  | SampleNode.var nbits _ => nbits
  | SampleNode.ite nbits _ _ _ => nbits

/-- The sample expression engine.  A symbolic value `v` has the expression
`leaf 8 v`; the address `a` decomposes into the base `a / 100` and the offset
`a % 10`, so that the addresses 700 and 710 decompose to the same slot. -/
def sampleEngine : ExprEngine Nat SampleNode Nat :=
  ⟨fun v => SampleNode.leaf 8 v, fun expr _ _ => expr,
    fun flag => SampleNode.leaf 1 (if flag then 1 else 0),
    fun expr => match expr with
      | SampleNode.leaf _ a => [(a / 100, [((a % 10 : Nat) : Int)])]
      | _ => [],
    SampleNode.var, SampleNode.ite, SampleNode.nBits⟩

/-- A sample analysis: the output memory has the cells of the addresses 700,
701 and 710, holding 5, 6 and 9. -/
def sampleUsedef : DUAnalysis Nat :=
  ⟨some ⟨sampleRegs1, sampleB⟩,
    some ⟨sampleRegs1,
      ⟨[(700, ⟨700, 5, ∅, ∅⟩), (701, ⟨701, 6, ∅, ∅⟩), (710, ⟨710, 9, ∅, ∅⟩)], none⟩⟩⟩

/-- `SlotBuilt eng lo hi before stored after`: the slot value `after` comes from
the slot value `before` by storing the values `stored` in this order, the
condition variables of the conditionals being numbered increasingly from `lo`
on and below `hi`. -/
def SlotBuilt {SV TN B : Type} (eng : ExprEngine SV TN B) (lo hi : Nat)
    (before : Option TN) (stored : List TN) (after : Option TN) : Prop :=
  match before, stored with
  | none, [] => after = none
  | none, v :: more =>
    ∃ ids : List Nat, ids.length = more.length ∧ ids.Pairwise (fun a b => a < b) ∧
      (∀ id ∈ ids, lo ≤ id ∧ id < hi) ∧
      after = some (multiplexed eng v (ids.zip more))
  | some prior, vs =>
    ∃ ids : List Nat, ids.length = vs.length ∧ ids.Pairwise (fun a b => a < b) ∧
      (∀ id ∈ ids, lo ≤ id ∧ id < hi) ∧
      after = some (multiplexed eng prior (ids.zip vs))

/-- A register state that stores `eax`, `ecx` and the instruction pointer:
`ecx` holds the constant 9. -/
def sampleRegs4 : SymbolicRegisterState Nat :=
  ⟨[[⟨sampleEax, 5⟩, ⟨sampleEcx, 9⟩], [⟨sampleEip, 64⟩]], true⟩

/-! ## Register-state comparison: lemmas -/

theorem equalsSlot_eq_none_iff {SV : Type} (ops : ValueOps SV) (v ov : SV) :
    equalsSlot ops v ov = none ↔
      ((ops.is_incomplete v = true ∧ ops.is_incomplete ov = true) ∨
        (ops.is_incomplete v = false ∧ ops.is_incomplete ov = false ∧ ops.eq v ov = true)) := by
  unfold equalsSlot
  cases hv : ops.is_incomplete v <;> cases ho : ops.is_incomplete ov <;>
    cases he : ops.eq v ov <;> simp

theorem equalsSlot_ne_some_true {SV : Type} (ops : ValueOps SV) (v ov : SV) :
    equalsSlot ops v ov ≠ some true := by
  unfold equalsSlot
  cases hv : ops.is_incomplete v <;> cases ho : ops.is_incomplete ov <;>
    cases he : ops.eq v ov <;> simp

theorem equalsPairs_eq_some_true_iff {SV : Type} (ops : ValueOps SV)
    (read_register : RegisterReader SV) (other : SymbolicRegisterState SV)
    (rest : Option Bool) (rpl : List (RegPair SV)) :
    equalsPairs ops read_register other rest rpl = some true ↔
      (∀ rp ∈ rpl, ∃ ov, read_register other rp.desc = some ov ∧
        equalsSlot ops rp.value ov = none) ∧ rest = some true := by
  induction rpl with
  | nil => simp [equalsPairs]
  | cons rp rpl ih =>
    simp only [equalsPairs, List.mem_cons, forall_eq_or_imp]
    cases hr : read_register other rp.desc with
    | none => simp
    | some ov =>
      cases hs : equalsSlot ops rp.value ov with
      | none => simp [hs, ih, and_assoc]
      | some b =>
        have hb : b ≠ true := by
          intro hb
          exact equalsSlot_ne_some_true ops rp.value ov (hb ▸ hs)
        simp [hs, hb]

theorem equalsVectors_eq_some_true_iff {SV : Type} (ops : ValueOps SV)
    (read_register : RegisterReader SV) (other : SymbolicRegisterState SV)
    (rpls : List (List (RegPair SV))) :
    equalsVectors ops read_register other rpls = some true ↔
      ∀ rpl ∈ rpls, ∀ rp ∈ rpl, ∃ ov, read_register other rp.desc = some ov ∧
        equalsSlot ops rp.value ov = none := by
  induction rpls with
  | nil => simp [equalsVectors]
  | cons rpl rpls ih =>
    simp only [equalsVectors, List.mem_cons, forall_eq_or_imp]
    cases hp : equalsPairs ops read_register other (some true) rpl with
    | none =>
      have := (equalsPairs_eq_some_true_iff ops read_register other (some true) rpl).not.mp
        (by simp [hp])
      simp only [and_true] at this
      simp [this]
    | some b =>
      cases b with
      | true =>
        have := (equalsPairs_eq_some_true_iff ops read_register other (some true) rpl).mp hp
        simp only [ih]
        exact ⟨fun h => ⟨this.1, h⟩, fun h => h.2⟩
      | false =>
        have := (equalsPairs_eq_some_true_iff ops read_register other (some true) rpl).not.mp
          (by simp [hp])
        simp only [and_true] at this
        simp [this]

theorem equalsPairs_ne_none {SV : Type} (ops : ValueOps SV)
    (read_register : RegisterReader SV) (other : SymbolicRegisterState SV)
    (rest : Option Bool) (rpl : List (RegPair SV)) (hrest : rest ≠ none)
    (hread : ∀ rp ∈ rpl, read_register other rp.desc ≠ none) :
    equalsPairs ops read_register other rest rpl ≠ none := by
  induction rpl with
  | nil => simpa [equalsPairs] using hrest
  | cons rp rpl ih =>
    simp only [List.mem_cons, forall_eq_or_imp] at hread
    simp only [equalsPairs]
    cases hr : read_register other rp.desc with
    | none => exact absurd hr hread.1
    | some ov =>
      cases hs : equalsSlot ops rp.value ov with
      | none => simpa [hs] using ih hread.2
      | some b => simp [hs]

theorem equalsVectors_ne_none {SV : Type} (ops : ValueOps SV)
    (read_register : RegisterReader SV) (other : SymbolicRegisterState SV)
    (rpls : List (List (RegPair SV)))
    (hread : ∀ rpl ∈ rpls, ∀ rp ∈ rpl, read_register other rp.desc ≠ none) :
    equalsVectors ops read_register other rpls ≠ none := by
  induction rpls with
  | nil => simp [equalsVectors]
  | cons rpl rpls ih =>
    simp only [List.mem_cons, forall_eq_or_imp] at hread
    simp only [equalsVectors]
    have hp := equalsPairs_ne_none ops read_register other (some true) rpl (by simp) hread.1
    cases hq : equalsPairs ops read_register other (some true) rpl with
    | none => exact absurd hq hp
    | some b =>
      cases b with
      | true => simpa using ih hread.2
      | false => simp

/-! ## The cell map: lemmas -/

theorem getOrDefault_cellsInsert_self {SV : Type} (key : CellKey) (cell : MemoryCell SV)
    (m : List (CellKey × MemoryCell SV)) :
    getOrDefault key (cellsInsert key cell m) = some cell := by
  induction m with
  | nil => simp [cellsInsert, getOrDefault]
  | cons kc rest ih =>
    obtain ⟨k, c⟩ := kc
    unfold cellsInsert
    by_cases h1 : key < k
    · simp [h1, getOrDefault]
    · by_cases h2 : key = k
      · simp [h1, h2, getOrDefault]
      · have h3 : k ≠ key := fun h => h2 h.symm
        simp [h1, h2, h3, getOrDefault, ih]

theorem getOrDefault_cellsInsert_ne {SV : Type} (key j : CellKey) (cell : MemoryCell SV)
    (m : List (CellKey × MemoryCell SV)) (hj : j ≠ key) :
    getOrDefault j (cellsInsert key cell m) = getOrDefault j m := by
  have hj2 : key ≠ j := fun h => hj h.symm
  induction m with
  | nil => simp [cellsInsert, getOrDefault, hj2]
  | cons kc rest ih =>
    obtain ⟨k, c⟩ := kc
    unfold cellsInsert
    by_cases h1 : key < k
    · simp [h1, getOrDefault, hj2]
    · by_cases h2 : key = k
      · subst h2
        simp [getOrDefault, hj2]
      · simp [h1, h2, getOrDefault, ih]

theorem getOrDefault_cellsInsert {SV : Type} (key j : CellKey) (cell : MemoryCell SV)
    (m : List (CellKey × MemoryCell SV)) :
    getOrDefault j (cellsInsert key cell m) =
      if j = key then some cell else getOrDefault j m := by
  by_cases h : j = key
  · subst h
    simp [getOrDefault_cellsInsert_self]
  · simp [h, getOrDefault_cellsInsert_ne]

theorem cellsModify_cellsInsert {SV : Type} (key : CellKey) (cell : MemoryCell SV)
    (f : MemoryCell SV → MemoryCell SV) (m : List (CellKey × MemoryCell SV)) :
    cellsModify key f (cellsInsert key cell m) = cellsInsert key (f cell) m := by
  induction m with
  | nil => simp [cellsInsert, cellsModify]
  | cons kc rest ih =>
    obtain ⟨k, c⟩ := kc
    unfold cellsInsert
    by_cases h1 : key < k
    · simp [h1, cellsModify]
    · by_cases h2 : key = k
      · simp [h1, h2, cellsModify]
      · have h3 : k ≠ key := fun h => h2 h.symm
        simp [h1, h2, h3, cellsModify, ih]

theorem writeMerged_cells {SV : Type} (generateCellKey : SV → CellKey)
    (initialProps : Finset Nat) (this : SymbolicMemoryState SV) (address value : SV)
    (writers props : Finset Nat) :
    (this.writeMerged generateCellKey initialProps address value writers props).cells =
      cellsInsert (generateCellKey address) ⟨address, value, writers, props⟩ this.cells := by
  simp [SymbolicMemoryState.writeMerged, SymbolicMemoryState.writeMemory,
    SymbolicMemoryState.setLatestWriters, SymbolicMemoryState.setLatestProps,
    cellsModify_cellsInsert]

theorem mem_cellsInsert {SV : Type} (key : CellKey) (cell : MemoryCell SV)
    (m : List (CellKey × MemoryCell SV)) (kc : CellKey × MemoryCell SV)
    (h : kc ∈ cellsInsert key cell m) : kc = (key, cell) ∨ kc ∈ m := by
  induction m with
  | nil => simpa [cellsInsert] using h
  | cons kc0 rest ih =>
    obtain ⟨k, c⟩ := kc0
    unfold cellsInsert at h
    by_cases h1 : key < k
    · simp only [h1, if_true, List.mem_cons] at h
      rcases h with h | h | h
      · exact Or.inl h
      · exact Or.inr (by simp [h])
      · exact Or.inr (by simp [h])
    · by_cases h2 : key = k
      · subst h2
        simp only [h1, if_true, if_false, List.mem_cons] at h
        rcases h with h | h
        · exact Or.inl h
        · exact Or.inr (by simp [h])
      · simp only [h1, h2, if_false, List.mem_cons] at h
        rcases h with h | h
        · exact Or.inr (by simp [h])
        · rcases ih h with h | h
          · exact Or.inl h
          · exact Or.inr (by simp [h])

theorem cellsInsert_keys_pairwise {SV : Type} (key : CellKey) (cell : MemoryCell SV)
    (m : List (CellKey × MemoryCell SV))
    (h : (m.map Prod.fst).Pairwise (fun a b => a < b)) :
    ((cellsInsert key cell m).map Prod.fst).Pairwise (fun a b => a < b) := by
  induction m with
  | nil => simp [cellsInsert]
  | cons kc0 rest ih =>
    obtain ⟨k, c⟩ := kc0
    simp only [List.map_cons, List.pairwise_cons] at h
    unfold cellsInsert
    by_cases h1 : key < k
    · simp only [h1, if_true, List.map_cons, List.pairwise_cons]
      refine ⟨?_, h.1, h.2⟩
      intro a ha
      simp only [List.mem_cons] at ha
      rcases ha with ha | ha
      · exact ha ▸ h1
      · exact lt_trans h1 (h.1 a ha)
    · by_cases h2 : key = k
      · subst h2
        simp only [h1, if_true, if_false, List.map_cons, List.pairwise_cons]
        exact ⟨h.1, h.2⟩
      · simp only [h1, h2, if_false, List.map_cons, List.pairwise_cons]
        refine ⟨?_, ih h.2⟩
        intro a ha
        simp only [List.mem_map] at ha
        obtain ⟨kc, hkc, rfl⟩ := ha
        rcases mem_cellsInsert key cell rest kc hkc with hx | hx
        · subst hx
          exact lt_of_le_of_ne (not_lt.mp h1) (Ne.symm h2)
        · exact h.1 kc.1 (List.mem_map_of_mem Prod.fst hx)

theorem getOrDefault_eq_some_mem {SV : Type} (key : CellKey) (cell : MemoryCell SV)
    (m : List (CellKey × MemoryCell SV)) (h : getOrDefault key m = some cell) :
    (key, cell) ∈ m := by
  induction m with
  | nil => simp [getOrDefault] at h
  | cons kc0 rest ih =>
    obtain ⟨k, c⟩ := kc0
    unfold getOrDefault at h
    by_cases h1 : k = key
    · simp only [h1, if_true, Option.some.injEq] at h
      simp [h1, h]
    · simp only [h1, if_false] at h
      exact List.mem_cons_of_mem _ (ih h)

theorem getOrDefault_of_mem {SV : Type} (key : CellKey) (cell : MemoryCell SV)
    (m : List (CellKey × MemoryCell SV))
    (hs : (m.map Prod.fst).Pairwise (fun a b => a < b)) (h : (key, cell) ∈ m) :
    getOrDefault key m = some cell := by
  induction m with
  | nil => simp at h
  | cons kc0 rest ih =>
    obtain ⟨k, c⟩ := kc0
    simp only [List.map_cons, List.pairwise_cons] at hs
    simp only [List.mem_cons, Prod.mk.injEq] at h
    unfold getOrDefault
    rcases h with h | h
    · simp [h.1, h.2]
    · have hlt : k < key := hs.1 key (List.mem_map_of_mem Prod.fst h)
      have hne : k ≠ key := ne_of_lt hlt
      simp only [hne, if_false]
      exact ih hs.2 h

theorem getOrDefault_eq_none_iff {SV : Type} (key : CellKey)
    (m : List (CellKey × MemoryCell SV)) :
    getOrDefault key m = none ↔ key ∉ m.map Prod.fst := by
  induction m with
  | nil => simp [getOrDefault]
  | cons kc0 rest ih =>
    obtain ⟨k, c⟩ := kc0
    unfold getOrDefault
    by_cases h1 : k = key
    · simp [h1]
    · have h2 : key ≠ k := fun h => h1 h.symm
      simp only [h1, if_false, ih, List.map_cons, List.mem_cons, h2, false_or]

theorem writeMerged_wellFormed {SV : Type} (generateCellKey : SV → CellKey)
    (initialProps : Finset Nat) (this : SymbolicMemoryState SV) (address value : SV)
    (writers props : Finset Nat) (h : this.wellFormed generateCellKey) :
    (this.writeMerged generateCellKey initialProps address value writers
      props).wellFormed generateCellKey := by
  unfold SymbolicMemoryState.wellFormed
  rw [writeMerged_cells]
  refine ⟨cellsInsert_keys_pairwise _ _ _ h.1, ?_⟩
  intro kc hkc
  rcases mem_cellsInsert _ _ _ kc hkc with hx | hx
  · subst hx
    rfl
  · exact h.2 kc hx

/-! ## The first loop of the merge: lemmas -/

theorem union_ne_right_iff (a b : Finset Nat) : a ∪ b ≠ b ↔ ¬ a ⊆ b := by
  rw [Ne, Finset.union_eq_right]

theorem mergeOtherCell_found_unchanged {SV : Type}
    (createOptionalMerge : SV → Option SV → Option SV) (generateCellKey : SV → CellKey)
    (initialProps : Finset Nat) (acc : MergeState SV) (otherCell thisCell : MemoryCell SV)
    (hf : getOrDefault (generateCellKey otherCell.address) acc.state.cells = some thisCell)
    (hw : ¬ bothWrites createOptionalMerge thisCell otherCell) :
    mergeOtherCell createOptionalMerge generateCellKey initialProps acc otherCell =
      ⟨acc.state, insert (generateCellKey otherCell.address) acc.processed, acc.changed⟩ ∧
    mergedBoth createOptionalMerge thisCell otherCell = thisCell := by
  unfold bothWrites at hw
  simp only [not_or, not_not, ne_eq] at hw
  obtain ⟨h1, h2, h3⟩ := hw
  have e2 : otherCell.writers ∪ thisCell.writers = thisCell.writers :=
    Finset.union_eq_right.mpr h2
  have e3 : otherCell.ioProperties ∪ thisCell.ioProperties = thisCell.ioProperties :=
    Finset.union_eq_right.mpr h3
  constructor
  · simp [mergeOtherCell, hf, h1, e2, e3]
  · simp [mergedBoth, h1, e2, e3]

theorem mergeOtherCell_found_changed {SV : Type}
    (createOptionalMerge : SV → Option SV → Option SV) (generateCellKey : SV → CellKey)
    (initialProps : Finset Nat) (acc : MergeState SV) (otherCell thisCell : MemoryCell SV)
    (hf : getOrDefault (generateCellKey otherCell.address) acc.state.cells = some thisCell)
    (hw : bothWrites createOptionalMerge thisCell otherCell) :
    mergeOtherCell createOptionalMerge generateCellKey initialProps acc otherCell =
      ⟨acc.state.writeMerged generateCellKey initialProps thisCell.address
          (mergedBoth createOptionalMerge thisCell otherCell).value
          (otherCell.writers ∪ thisCell.writers)
          (otherCell.ioProperties ∪ thisCell.ioProperties),
        insert (generateCellKey otherCell.address) acc.processed, true⟩ := by
  unfold bothWrites at hw
  have hc : (if otherCell.ioProperties ∪ thisCell.ioProperties ≠ thisCell.ioProperties
      then true
      else if otherCell.writers ∪ thisCell.writers ≠ thisCell.writers then true
      else (createOptionalMerge thisCell.value (some otherCell.value)).isSome) = true := by
    rcases hw with h | h | h
    · have : (createOptionalMerge thisCell.value (some otherCell.value)).isSome = true :=
        Option.isSome_iff_ne_none.mpr h
      simp [this]
    · have h2 := (union_ne_right_iff _ _).mpr h
      simp [h2]
    · have h3 := (union_ne_right_iff _ _).mpr h
      simp [h3]
  simp only [mergeOtherCell, hf, hc, if_true, mergedBoth]

theorem mergeOtherCell_absent {SV : Type}
    (createOptionalMerge : SV → Option SV → Option SV) (generateCellKey : SV → CellKey)
    (initialProps : Finset Nat) (acc : MergeState SV) (otherCell : MemoryCell SV)
    (hf : getOrDefault (generateCellKey otherCell.address) acc.state.cells = none) :
    mergeOtherCell createOptionalMerge generateCellKey initialProps acc otherCell =
      match createOptionalMerge otherCell.value none with
      | none => acc
      | some newValue =>
        ⟨acc.state.writeMerged generateCellKey initialProps otherCell.address newValue
            otherCell.writers otherCell.ioProperties,
          insert (generateCellKey otherCell.address) acc.processed, true⟩ := by
  simp only [mergeOtherCell, hf]

theorem mergeOtherCell_spec {SV : Type}
    (createOptionalMerge : SV → Option SV → Option SV) (generateCellKey : SV → CellKey)
    (initialProps : Finset Nat) (acc : MergeState SV) (otherCell : MemoryCell SV)
    (hwf : acc.state.wellFormed generateCellKey) :
    (∀ j, getOrDefault j
        (mergeOtherCell createOptionalMerge generateCellKey initialProps acc
          otherCell).state.cells =
        if j = generateCellKey otherCell.address then
          firstPassCell createOptionalMerge
            (getOrDefault (generateCellKey otherCell.address) acc.state.cells) otherCell
        else getOrDefault j acc.state.cells) ∧
    (mergeOtherCell createOptionalMerge generateCellKey initialProps acc
        otherCell).state.wellFormed generateCellKey ∧
    (∀ j, j ∈ (mergeOtherCell createOptionalMerge generateCellKey initialProps acc
          otherCell).processed ↔
        (j ∈ acc.processed ∨ (j = generateCellKey otherCell.address ∧
          firstPassRecords createOptionalMerge
            (getOrDefault (generateCellKey otherCell.address) acc.state.cells)
            otherCell))) ∧
    ((mergeOtherCell createOptionalMerge generateCellKey initialProps acc
          otherCell).changed = true ↔
        (acc.changed = true ∨
          firstPassWrites createOptionalMerge
            (getOrDefault (generateCellKey otherCell.address) acc.state.cells)
            otherCell)) := by
  cases hf : getOrDefault (generateCellKey otherCell.address) acc.state.cells with
  | none =>
    rw [mergeOtherCell_absent _ _ _ _ _ hf]
    cases hm : createOptionalMerge otherCell.value none with
    | none =>
      refine ⟨?_, hwf, ?_, ?_⟩
      · intro j
        by_cases hj : j = generateCellKey otherCell.address
        · subst hj
          simp [firstPassCell, mergedAbsent, hm, hf]
        · simp [hj]
      · intro j
        simp [firstPassRecords, hm]
      · simp [firstPassWrites, hm]
    | some newValue =>
      refine ⟨?_, writeMerged_wellFormed _ _ _ _ _ _ _ hwf, ?_, ?_⟩
      · intro j
        simp only [writeMerged_cells, getOrDefault_cellsInsert, firstPassCell, mergedAbsent,
          hm]
      · intro j
        simp [firstPassRecords, hm, or_comm]
      · simp [firstPassWrites, hm]
  | some thisCell =>
    have hk : generateCellKey thisCell.address = generateCellKey otherCell.address :=
      hwf.2 _ (getOrDefault_eq_some_mem _ _ _ hf)
    by_cases hw : bothWrites createOptionalMerge thisCell otherCell
    · rw [mergeOtherCell_found_changed _ _ _ _ _ _ hf hw]
      refine ⟨?_, writeMerged_wellFormed _ _ _ _ _ _ _ hwf, ?_, ?_⟩
      · intro j
        simp only [writeMerged_cells, getOrDefault_cellsInsert, firstPassCell, hk]
        rfl
      · intro j
        simp [firstPassRecords, or_comm]
      · simp [firstPassWrites, hw]
    · obtain ⟨e1, e2⟩ := mergeOtherCell_found_unchanged _ _ _ _ _ _ hf hw
      rw [e1]
      refine ⟨?_, hwf, ?_, ?_⟩
      · intro j
        by_cases hj : j = generateCellKey otherCell.address
        · subst hj
          simp [firstPassCell, e2, hf]
        · simp [hj]
      · intro j
        simp [firstPassRecords, or_comm]
      · simp [firstPassWrites, hw]

theorem mergeOtherCell_frame {SV : Type}
    (createOptionalMerge : SV → Option SV → Option SV) (generateCellKey : SV → CellKey)
    (initialProps : Finset Nat) (acc : MergeState SV) (otherCell : MemoryCell SV)
    (h : (mergeOtherCell createOptionalMerge generateCellKey initialProps acc
      otherCell).changed = false) :
    (mergeOtherCell createOptionalMerge generateCellKey initialProps acc
      otherCell).state = acc.state ∧ acc.changed = false := by
  cases hf : getOrDefault (generateCellKey otherCell.address) acc.state.cells with
  | none =>
    rw [mergeOtherCell_absent _ _ _ _ _ hf] at h ⊢
    cases hm : createOptionalMerge otherCell.value none with
    | none =>
      rw [hm] at h
      exact ⟨rfl, h⟩
    | some newValue =>
      rw [hm] at h
      simp at h
  | some thisCell =>
    by_cases hw : bothWrites createOptionalMerge thisCell otherCell
    · rw [mergeOtherCell_found_changed _ _ _ _ _ _ hf hw] at h
      simp at h
    · obtain ⟨e1, _⟩ := mergeOtherCell_found_unchanged _ _ _ _ _ _ hf hw
      rw [e1] at h ⊢
      exact ⟨rfl, h⟩

theorem firstLoop_spec {SV : Type}
    (createOptionalMerge : SV → Option SV → Option SV) (generateCellKey : SV → CellKey)
    (initialProps : Finset Nat) (L : List (MemoryCell SV)) :
    ∀ acc : MergeState SV, acc.state.wellFormed generateCellKey →
      (L.map (fun c => generateCellKey c.address)).Nodup →
      (L.foldl (mergeOtherCell createOptionalMerge generateCellKey initialProps)
          acc).state.wellFormed generateCellKey ∧
      (∀ j, j ∉ L.map (fun c => generateCellKey c.address) →
        getOrDefault j (L.foldl (mergeOtherCell createOptionalMerge generateCellKey
          initialProps) acc).state.cells = getOrDefault j acc.state.cells) ∧
      (∀ oc ∈ L, getOrDefault (generateCellKey oc.address)
          (L.foldl (mergeOtherCell createOptionalMerge generateCellKey
            initialProps) acc).state.cells =
          firstPassCell createOptionalMerge
            (getOrDefault (generateCellKey oc.address) acc.state.cells) oc) ∧
      (∀ j, j ∈ (L.foldl (mergeOtherCell createOptionalMerge generateCellKey
            initialProps) acc).processed ↔
          (j ∈ acc.processed ∨ ∃ oc ∈ L, generateCellKey oc.address = j ∧
            firstPassRecords createOptionalMerge (getOrDefault j acc.state.cells) oc)) ∧
      ((L.foldl (mergeOtherCell createOptionalMerge generateCellKey
            initialProps) acc).changed = true ↔
          (acc.changed = true ∨ ∃ oc ∈ L, firstPassWrites createOptionalMerge
            (getOrDefault (generateCellKey oc.address) acc.state.cells) oc)) := by
  induction L with
  | nil =>
    intro acc hwf _
    simp [hwf]
  | cons oc L ih =>
    intro acc hwf hnd
    simp only [List.map_cons, List.nodup_cons] at hnd
    obtain ⟨hnot, hnd⟩ := hnd
    obtain ⟨hA, hB, hC, hD⟩ :=
      mergeOtherCell_spec createOptionalMerge generateCellKey initialProps acc oc hwf
    obtain ⟨i1, i2, i3, i4, i5⟩ :=
      ih (mergeOtherCell createOptionalMerge generateCellKey initialProps acc oc) hB hnd
    have hne : ∀ oc2 ∈ L, generateCellKey oc2.address ≠ generateCellKey oc.address := by
      intro oc2 h2 he
      apply hnot
      rw [← he]
      exact List.mem_map_of_mem (fun c => generateCellKey c.address) h2
    simp only [List.foldl_cons]
    refine ⟨i1, ?_, ?_, ?_, ?_⟩
    · intro j hj
      simp only [List.map_cons, List.mem_cons, not_or] at hj
      rw [i2 j hj.2, hA j, if_neg hj.1]
    · intro oc2 h2
      simp only [List.mem_cons] at h2
      rcases h2 with h2 | h2
      · subst h2
        rw [i2 _ hnot, hA, if_pos rfl]
      · rw [i3 oc2 h2, hA, if_neg (hne oc2 h2)]
    · intro j
      rw [i4 j, hC j]
      constructor
      · rintro ((h | ⟨h1, h2⟩) | ⟨oc2, h2, h3, h4⟩)
        · exact Or.inl h
        · subst h1
          exact Or.inr ⟨oc, List.mem_cons_self _ _, rfl, h2⟩
        · refine Or.inr ⟨oc2, List.mem_cons_of_mem _ h2, h3, ?_⟩
          rw [hA j, if_neg (h3 ▸ hne oc2 h2)] at h4
          exact h4
      · rintro (h | ⟨oc2, h2, h3, h4⟩)
        · exact Or.inl (Or.inl h)
        · simp only [List.mem_cons] at h2
          rcases h2 with h2 | h2
          · subst h2
            subst h3
            exact Or.inl (Or.inr ⟨rfl, h4⟩)
          · refine Or.inr ⟨oc2, h2, h3, ?_⟩
            rw [hA j, if_neg (h3 ▸ hne oc2 h2)]
            exact h4
    · rw [i5, hD]
      constructor
      · rintro ((h | h) | ⟨oc2, h2, h3⟩)
        · exact Or.inl h
        · exact Or.inr ⟨oc, List.mem_cons_self _ _, h⟩
        · refine Or.inr ⟨oc2, List.mem_cons_of_mem _ h2, ?_⟩
          rw [hA, if_neg (hne oc2 h2)] at h3
          exact h3
      · rintro (h | ⟨oc2, h2, h3⟩)
        · exact Or.inl (Or.inl h)
        · simp only [List.mem_cons] at h2
          rcases h2 with h2 | h2
          · subst h2
            exact Or.inl (Or.inr h3)
          · refine Or.inr ⟨oc2, h2, ?_⟩
            rw [hA, if_neg (hne oc2 h2)]
            exact h3

theorem firstLoop_frame {SV : Type}
    (createOptionalMerge : SV → Option SV → Option SV) (generateCellKey : SV → CellKey)
    (initialProps : Finset Nat) (L : List (MemoryCell SV)) :
    ∀ acc : MergeState SV,
      (L.foldl (mergeOtherCell createOptionalMerge generateCellKey initialProps)
        acc).changed = false →
      (L.foldl (mergeOtherCell createOptionalMerge generateCellKey initialProps)
        acc).state = acc.state ∧ acc.changed = false := by
  induction L with
  | nil =>
    intro acc h
    exact ⟨rfl, h⟩
  | cons oc L ih =>
    intro acc h
    simp only [List.foldl_cons] at h ⊢
    obtain ⟨h1, h2⟩ := ih _ h
    obtain ⟨h3, h4⟩ := mergeOtherCell_frame _ _ _ _ _ h2
    exact ⟨h1.trans h3, h4⟩

/-! ## The second loop of the merge: lemmas -/

theorem mergeThisCell_spec {SV : Type}
    (createOptionalMerge : SV → Option SV → Option SV) (generateCellKey : SV → CellKey)
    (initialProps : Finset Nat) (acc : MergeState SV) (thisCell : MemoryCell SV) :
    (∀ j, getOrDefault j
        (mergeThisCell createOptionalMerge generateCellKey initialProps acc
          thisCell).state.cells =
        if j = generateCellKey thisCell.address ∧
            generateCellKey thisCell.address ∉ acc.processed then
          (match mergedAbsent createOptionalMerge thisCell with
            | some c => some c
            | none => getOrDefault j acc.state.cells)
        else getOrDefault j acc.state.cells) ∧
    (mergeThisCell createOptionalMerge generateCellKey initialProps acc
        thisCell).processed = acc.processed ∧
    ((mergeThisCell createOptionalMerge generateCellKey initialProps acc
          thisCell).changed = true ↔
        (acc.changed = true ∨ (generateCellKey thisCell.address ∉ acc.processed ∧
          createOptionalMerge thisCell.value none ≠ none))) := by
  unfold mergeThisCell
  by_cases hp : generateCellKey thisCell.address ∈ acc.processed
  · simp [hp]
  · cases hm : createOptionalMerge thisCell.value none with
    | none => simp [hp, hm, mergedAbsent]
    | some newValue =>
      refine ⟨?_, ?_, ?_⟩
      · intro j
        simp only [hp, if_false, writeMerged_cells, getOrDefault_cellsInsert, mergedAbsent,
          hm, not_false_eq_true, and_true]
      · simp [hp, hm]
      · simp [hp, hm]

theorem mergeThisCell_frame {SV : Type}
    (createOptionalMerge : SV → Option SV → Option SV) (generateCellKey : SV → CellKey)
    (initialProps : Finset Nat) (acc : MergeState SV) (thisCell : MemoryCell SV)
    (h : (mergeThisCell createOptionalMerge generateCellKey initialProps acc
      thisCell).changed = false) :
    (mergeThisCell createOptionalMerge generateCellKey initialProps acc
      thisCell).state = acc.state ∧ acc.changed = false := by
  unfold mergeThisCell at h ⊢
  by_cases hp : generateCellKey thisCell.address ∈ acc.processed
  · simp only [hp, if_true] at h ⊢
    exact ⟨trivial, h⟩
  · cases hm : createOptionalMerge thisCell.value none with
    | none =>
      simp only [hp, if_false, hm] at h ⊢
      exact ⟨trivial, h⟩
    | some newValue =>
      simp [hp, hm] at h

theorem secondLoop_spec {SV : Type}
    (createOptionalMerge : SV → Option SV → Option SV) (generateCellKey : SV → CellKey)
    (initialProps : Finset Nat) (L : List (MemoryCell SV)) :
    ∀ acc : MergeState SV,
      (L.map (fun c => generateCellKey c.address)).Nodup →
      (L.foldl (mergeThisCell createOptionalMerge generateCellKey initialProps)
          acc).processed = acc.processed ∧
      (∀ j, j ∉ L.map (fun c => generateCellKey c.address) →
        getOrDefault j (L.foldl (mergeThisCell createOptionalMerge generateCellKey
          initialProps) acc).state.cells = getOrDefault j acc.state.cells) ∧
      (∀ tc ∈ L, getOrDefault (generateCellKey tc.address)
          (L.foldl (mergeThisCell createOptionalMerge generateCellKey
            initialProps) acc).state.cells =
          if generateCellKey tc.address ∉ acc.processed then
            (match mergedAbsent createOptionalMerge tc with
              | some c => some c
              | none => getOrDefault (generateCellKey tc.address) acc.state.cells)
          else getOrDefault (generateCellKey tc.address) acc.state.cells) ∧
      ((L.foldl (mergeThisCell createOptionalMerge generateCellKey
            initialProps) acc).changed = true ↔
          (acc.changed = true ∨ ∃ tc ∈ L, generateCellKey tc.address ∉ acc.processed ∧
            createOptionalMerge tc.value none ≠ none)) := by
  induction L with
  | nil =>
    intro acc _
    simp
  | cons tc L ih =>
    intro acc hnd
    simp only [List.map_cons, List.nodup_cons] at hnd
    obtain ⟨hnot, hnd⟩ := hnd
    obtain ⟨hA, hP, hD⟩ :=
      mergeThisCell_spec createOptionalMerge generateCellKey initialProps acc tc
    obtain ⟨i1, i2, i3, i4⟩ :=
      ih (mergeThisCell createOptionalMerge generateCellKey initialProps acc tc) hnd
    have hne : ∀ tc2 ∈ L, generateCellKey tc2.address ≠ generateCellKey tc.address := by
      intro tc2 h2 he
      apply hnot
      rw [← he]
      exact List.mem_map_of_mem (fun c => generateCellKey c.address) h2
    simp only [List.foldl_cons]
    refine ⟨i1.trans hP, ?_, ?_, ?_⟩
    · intro j hj
      simp only [List.map_cons, List.mem_cons, not_or] at hj
      rw [i2 j hj.2, hA j]
      simp [hj.1]
    · intro tc2 h2
      simp only [List.mem_cons] at h2
      rcases h2 with h2 | h2
      · subst h2
        rw [i2 _ hnot, hA]
        simp
      · rw [i3 tc2 h2, hP, hA]
        simp [hne tc2 h2]
    · rw [i4, hD, hP]
      constructor
      · rintro ((h | h) | ⟨tc2, h2, h3⟩)
        · exact Or.inl h
        · exact Or.inr ⟨tc, List.mem_cons_self _ _, h⟩
        · exact Or.inr ⟨tc2, List.mem_cons_of_mem _ h2, h3⟩
      · rintro (h | ⟨tc2, h2, h3⟩)
        · exact Or.inl (Or.inl h)
        · simp only [List.mem_cons] at h2
          rcases h2 with h2 | h2
          · subst h2
            exact Or.inl (Or.inr h3)
          · exact Or.inr ⟨tc2, h2, h3⟩

theorem secondLoop_frame {SV : Type}
    (createOptionalMerge : SV → Option SV → Option SV) (generateCellKey : SV → CellKey)
    (initialProps : Finset Nat) (L : List (MemoryCell SV)) :
    ∀ acc : MergeState SV,
      (L.foldl (mergeThisCell createOptionalMerge generateCellKey initialProps)
        acc).changed = false →
      (L.foldl (mergeThisCell createOptionalMerge generateCellKey initialProps)
        acc).state = acc.state ∧ acc.changed = false := by
  induction L with
  | nil =>
    intro acc h
    exact ⟨rfl, h⟩
  | cons tc L ih =>
    intro acc h
    simp only [List.foldl_cons] at h ⊢
    obtain ⟨h1, h2⟩ := ih _ h
    obtain ⟨h3, h4⟩ := mergeThisCell_frame _ _ _ _ _ h2
    exact ⟨h1.trans h3, h4⟩

/-! ## The whole merge, key by key -/

theorem allCells_keys {SV : Type} (generateCellKey : SV → CellKey)
    (this : SymbolicMemoryState SV) (hwf : this.wellFormed generateCellKey) :
    this.allCells.map (fun c => generateCellKey c.address) = this.cells.map Prod.fst := by
  unfold SymbolicMemoryState.allCells
  rw [List.map_map]
  apply List.map_congr_left
  intro kc hkc
  exact hwf.2 kc hkc

theorem allCells_keys_nodup {SV : Type} (generateCellKey : SV → CellKey)
    (this : SymbolicMemoryState SV) (hwf : this.wellFormed generateCellKey) :
    (this.allCells.map (fun c => generateCellKey c.address)).Nodup := by
  rw [allCells_keys generateCellKey this hwf]
  exact hwf.1.imp (fun h => ne_of_lt h)

theorem getOrDefault_eq_some_iff {SV : Type} (generateCellKey : SV → CellKey)
    (this : SymbolicMemoryState SV) (hwf : this.wellFormed generateCellKey)
    (j : CellKey) (c : MemoryCell SV) :
    getOrDefault j this.cells = some c ↔
      (c ∈ this.allCells ∧ generateCellKey c.address = j) := by
  constructor
  · intro h
    have hm := getOrDefault_eq_some_mem _ _ _ h
    refine ⟨?_, hwf.2 _ hm⟩
    unfold SymbolicMemoryState.allCells
    exact List.mem_map_of_mem Prod.snd hm
  · rintro ⟨h1, h2⟩
    unfold SymbolicMemoryState.allCells at h1
    obtain ⟨kc, hkc, rfl⟩ := List.mem_map.mp h1
    have hk := hwf.2 kc hkc
    rw [h2] at hk
    apply getOrDefault_of_mem _ _ _ hwf.1
    rw [hk]
    exact hkc

theorem getOrDefault_eq_none_of_keys {SV : Type} (generateCellKey : SV → CellKey)
    (this : SymbolicMemoryState SV) (hwf : this.wellFormed generateCellKey)
    (j : CellKey) :
    getOrDefault j this.cells = none ↔
      j ∉ this.allCells.map (fun c => generateCellKey c.address) := by
  rw [allCells_keys generateCellKey this hwf]
  exact getOrDefault_eq_none_iff j this.cells

theorem firstPass_processed_iff {SV : Type}
    (createOptionalMerge : SV → Option SV → Option SV) (generateCellKey : SV → CellKey)
    (initialProps : Finset Nat) (this other : SymbolicMemoryState SV)
    (hthis : this.wellFormed generateCellKey) (hother : other.wellFormed generateCellKey)
    (j : CellKey) :
    j ∈ (mergeFirstPass createOptionalMerge generateCellKey initialProps this
        other).processed ↔
      ∃ oc, getOrDefault j other.cells = some oc ∧
        firstPassRecords createOptionalMerge (getOrDefault j this.cells) oc := by
  obtain ⟨_, _, _, f4, _⟩ := firstLoop_spec createOptionalMerge generateCellKey initialProps
    other.allCells ⟨this, ∅, false⟩ hthis (allCells_keys_nodup generateCellKey other hother)
  unfold mergeFirstPass
  rw [f4 j]
  simp only [Finset.not_mem_empty, false_or]
  constructor
  · rintro ⟨oc, h1, h2, h3⟩
    exact ⟨oc, (getOrDefault_eq_some_iff generateCellKey other hother j oc).mpr ⟨h1, h2⟩, h3⟩
  · rintro ⟨oc, h1, h3⟩
    obtain ⟨h1, h2⟩ := (getOrDefault_eq_some_iff generateCellKey other hother j oc).mp h1
    exact ⟨oc, h1, h2, h3⟩

theorem firstPass_lookup {SV : Type}
    (createOptionalMerge : SV → Option SV → Option SV) (generateCellKey : SV → CellKey)
    (initialProps : Finset Nat) (this other : SymbolicMemoryState SV)
    (hthis : this.wellFormed generateCellKey) (hother : other.wellFormed generateCellKey)
    (j : CellKey) :
    getOrDefault j (mergeFirstPass createOptionalMerge generateCellKey initialProps this
        other).state.cells =
      match getOrDefault j other.cells with
      | some oc => firstPassCell createOptionalMerge (getOrDefault j this.cells) oc
      | none => getOrDefault j this.cells := by
  obtain ⟨_, f2, f3, _, _⟩ := firstLoop_spec createOptionalMerge generateCellKey initialProps
    other.allCells ⟨this, ∅, false⟩ hthis (allCells_keys_nodup generateCellKey other hother)
  unfold mergeFirstPass
  cases ho : getOrDefault j other.cells with
  | none =>
    exact f2 j ((getOrDefault_eq_none_of_keys generateCellKey other hother j).mp ho)
  | some oc =>
    obtain ⟨h1, h2⟩ := (getOrDefault_eq_some_iff generateCellKey other hother j oc).mp ho
    subst h2
    exact f3 oc h1

theorem firstPass_wellFormed {SV : Type}
    (createOptionalMerge : SV → Option SV → Option SV) (generateCellKey : SV → CellKey)
    (initialProps : Finset Nat) (this other : SymbolicMemoryState SV)
    (hthis : this.wellFormed generateCellKey) (hother : other.wellFormed generateCellKey) :
    (mergeFirstPass createOptionalMerge generateCellKey initialProps this
        other).state.wellFormed generateCellKey :=
  (firstLoop_spec createOptionalMerge generateCellKey initialProps
    other.allCells ⟨this, ∅, false⟩ hthis
    (allCells_keys_nodup generateCellKey other hother)).1

theorem merge_lookup {SV : Type}
    (createOptionalMerge : SV → Option SV → Option SV) (generateCellKey : SV → CellKey)
    (initialProps : Finset Nat) (this other : SymbolicMemoryState SV)
    (hthis : this.wellFormed generateCellKey) (hother : other.wellFormed generateCellKey)
    (j : CellKey) :
    getOrDefault j (SymbolicMemoryState.merge createOptionalMerge generateCellKey
        initialProps this other).2.cells =
      mergedCell createOptionalMerge (getOrDefault j this.cells)
        (getOrDefault j other.cells) := by
  have hwf1 := firstPass_wellFormed createOptionalMerge generateCellKey initialProps this
    other hthis hother
  have hl1 := firstPass_lookup createOptionalMerge generateCellKey initialProps this
    other hthis hother j
  have hp1 := firstPass_processed_iff createOptionalMerge generateCellKey initialProps this
    other hthis hother j
  obtain ⟨_, s2, s3, _⟩ := secondLoop_spec createOptionalMerge generateCellKey initialProps
    (mergeFirstPass createOptionalMerge generateCellKey initialProps this
      other).state.allCells
    (mergeFirstPass createOptionalMerge generateCellKey initialProps this other)
    (allCells_keys_nodup generateCellKey _ hwf1)
  simp only [SymbolicMemoryState.merge]
  cases h1 : getOrDefault j (mergeFirstPass createOptionalMerge generateCellKey initialProps
      this other).state.cells with
  | none =>
    rw [s2 j ((getOrDefault_eq_none_of_keys generateCellKey _ hwf1 j).mp h1), h1]
    rw [h1] at hl1
    cases ho : getOrDefault j other.cells with
    | none =>
      rw [ho] at hl1
      simp only at hl1
      rw [← hl1]
      rfl
    | some oc =>
      rw [ho] at hl1
      simp only at hl1
      cases ht : getOrDefault j this.cells with
      | none =>
        rw [ht] at hl1
        simpa [mergedCell, firstPassCell] using hl1
      | some tc =>
        rw [ht] at hl1
        simp [firstPassCell] at hl1
  | some c1 =>
    obtain ⟨m1, m2⟩ := (getOrDefault_eq_some_iff generateCellKey _ hwf1 j c1).mp h1
    have h3 := s3 c1 m1
    rw [m2] at h3
    rw [h3, h1]
    rw [h1] at hl1
    cases ho : getOrDefault j other.cells with
    | none =>
      rw [ho] at hl1 hp1
      simp only at hl1
      have hnp : j ∉ (mergeFirstPass createOptionalMerge generateCellKey initialProps this
          other).processed := by
        rw [hp1]
        simp
      rw [← hl1]
      simp [hnp, mergedCell]
    | some oc =>
      rw [ho] at hl1 hp1
      simp only at hl1
      have hin : j ∈ (mergeFirstPass createOptionalMerge generateCellKey initialProps this
          other).processed := by
        rw [hp1]
        refine ⟨oc, rfl, ?_⟩
        unfold firstPassRecords
        cases ht : getOrDefault j this.cells with
        | none =>
          rw [ht] at hl1
          right
          intro hm
          simp [firstPassCell, mergedAbsent, hm] at hl1
        | some tc => simp
      simp only [hin, not_true_eq_false, if_false]
      rw [hl1]
      cases ht : getOrDefault j this.cells with
      | none => simp [mergedCell, firstPassCell]
      | some tc => simp [mergedCell, firstPassCell]

theorem merge_changed_iff {SV : Type}
    (createOptionalMerge : SV → Option SV → Option SV) (generateCellKey : SV → CellKey)
    (initialProps : Finset Nat) (this other : SymbolicMemoryState SV)
    (hthis : this.wellFormed generateCellKey) (hother : other.wellFormed generateCellKey) :
    (SymbolicMemoryState.merge createOptionalMerge generateCellKey
        initialProps this other).1 = true ↔
      ((∃ j oc, getOrDefault j other.cells = some oc ∧
          firstPassWrites createOptionalMerge (getOrDefault j this.cells) oc) ∨
        (∃ j tc, getOrDefault j this.cells = some tc ∧ getOrDefault j other.cells = none ∧
          createOptionalMerge tc.value none ≠ none)) := by
  have hwf1 := firstPass_wellFormed createOptionalMerge generateCellKey initialProps this
    other hthis hother
  have hl1 := firstPass_lookup createOptionalMerge generateCellKey initialProps this
    other hthis hother
  have hp1 := firstPass_processed_iff createOptionalMerge generateCellKey initialProps this
    other hthis hother
  obtain ⟨_, _, _, s4⟩ := secondLoop_spec createOptionalMerge generateCellKey initialProps
    (mergeFirstPass createOptionalMerge generateCellKey initialProps this
      other).state.allCells
    (mergeFirstPass createOptionalMerge generateCellKey initialProps this other)
    (allCells_keys_nodup generateCellKey _ hwf1)
  obtain ⟨_, _, _, _, f5⟩ := firstLoop_spec createOptionalMerge generateCellKey initialProps
    other.allCells ⟨this, ∅, false⟩ hthis (allCells_keys_nodup generateCellKey other hother)
  have hfirst : (mergeFirstPass createOptionalMerge generateCellKey initialProps this
      other).changed = true ↔
      ∃ j oc, getOrDefault j other.cells = some oc ∧
        firstPassWrites createOptionalMerge (getOrDefault j this.cells) oc := by
    unfold mergeFirstPass
    rw [f5]
    simp only [Bool.false_eq_true, false_or]
    constructor
    · rintro ⟨oc, h1, h2⟩
      exact ⟨_, oc,
        (getOrDefault_eq_some_iff generateCellKey other hother _ oc).mpr ⟨h1, rfl⟩, h2⟩
    · rintro ⟨j, oc, h1, h2⟩
      obtain ⟨h4, h3⟩ := (getOrDefault_eq_some_iff generateCellKey other hother j oc).mp h1
      subst h3
      exact ⟨oc, h4, h2⟩
  simp only [SymbolicMemoryState.merge]
  rw [s4, hfirst]
  apply or_congr_right
  constructor
  · rintro ⟨tc, h1, h2, h3⟩
    have hlk := (getOrDefault_eq_some_iff generateCellKey _ hwf1 _ tc).mpr ⟨h1, rfl⟩
    rw [hl1] at hlk
    rw [hp1] at h2
    cases ho : getOrDefault (generateCellKey tc.address) other.cells with
    | none =>
      rw [ho] at hlk
      exact ⟨_, tc, hlk, ho, h3⟩
    | some oc =>
      exfalso
      rw [ho] at hlk
      simp only at hlk
      apply h2
      refine ⟨oc, ho, ?_⟩
      unfold firstPassRecords
      cases ht : getOrDefault (generateCellKey tc.address) this.cells with
      | none =>
        rw [ht] at hlk
        right
        intro hm
        simp [firstPassCell, mergedAbsent, hm] at hlk
      | some tc2 => simp
  · rintro ⟨j, tc, h1, h2, h3⟩
    have hlk := hl1 j
    rw [h2, h1] at hlk
    simp only at hlk
    obtain ⟨m1, m2⟩ := (getOrDefault_eq_some_iff generateCellKey _ hwf1 j tc).mp hlk
    refine ⟨tc, m1, ?_, h3⟩
    rw [m2, hp1, h2]
    simp

theorem merge_frame {SV : Type}
    (createOptionalMerge : SV → Option SV → Option SV) (generateCellKey : SV → CellKey)
    (initialProps : Finset Nat) (this other : SymbolicMemoryState SV)
    (h : (SymbolicMemoryState.merge createOptionalMerge generateCellKey
        initialProps this other).1 = false) :
    (SymbolicMemoryState.merge createOptionalMerge generateCellKey
        initialProps this other).2 = this := by
  simp only [SymbolicMemoryState.merge] at h ⊢
  obtain ⟨h1, h2⟩ := secondLoop_frame _ _ _ _ _ h
  obtain ⟨h3, _⟩ := firstLoop_frame _ _ _ _ _ h2
  rw [h1]
  exact h3

theorem mergeThisCell_wellFormed {SV : Type}
    (createOptionalMerge : SV → Option SV → Option SV) (generateCellKey : SV → CellKey)
    (initialProps : Finset Nat) (acc : MergeState SV) (thisCell : MemoryCell SV)
    (hwf : acc.state.wellFormed generateCellKey) :
    (mergeThisCell createOptionalMerge generateCellKey initialProps acc
      thisCell).state.wellFormed generateCellKey := by
  unfold mergeThisCell
  by_cases hp : generateCellKey thisCell.address ∈ acc.processed
  · simpa [hp] using hwf
  · cases hm : createOptionalMerge thisCell.value none with
    | none => simpa [hp, hm] using hwf
    | some newValue =>
      simp only [hp, if_false, hm]
      exact writeMerged_wellFormed _ _ _ _ _ _ _ hwf

theorem secondLoop_wellFormed {SV : Type}
    (createOptionalMerge : SV → Option SV → Option SV) (generateCellKey : SV → CellKey)
    (initialProps : Finset Nat) (L : List (MemoryCell SV)) :
    ∀ acc : MergeState SV, acc.state.wellFormed generateCellKey →
      (L.foldl (mergeThisCell createOptionalMerge generateCellKey initialProps)
        acc).state.wellFormed generateCellKey := by
  induction L with
  | nil => intro acc h; exact h
  | cons tc L ih =>
    intro acc h
    simp only [List.foldl_cons]
    exact ih _ (mergeThisCell_wellFormed _ _ _ _ _ h)

theorem merge_wellFormed {SV : Type}
    (createOptionalMerge : SV → Option SV → Option SV) (generateCellKey : SV → CellKey)
    (initialProps : Finset Nat) (this other : SymbolicMemoryState SV)
    (hthis : this.wellFormed generateCellKey) (hother : other.wellFormed generateCellKey) :
    (SymbolicMemoryState.merge createOptionalMerge generateCellKey
      initialProps this other).2.wellFormed generateCellKey := by
  simp only [SymbolicMemoryState.merge]
  exact secondLoop_wellFormed _ _ _ _ _
    (firstPass_wellFormed createOptionalMerge generateCellKey initialProps this other hthis
      hother)

/-! ## Sample data: lemmas -/

theorem sampleThis_wellFormed : sampleThis.wellFormed id := by
  unfold SymbolicMemoryState.wellFormed sampleThis
  simp

theorem sampleOther_wellFormed : sampleOther.wellFormed id := by
  unfold SymbolicMemoryState.wellFormed sampleOther
  simp

theorem sampleA_wellFormed : sampleA.wellFormed id := by
  unfold SymbolicMemoryState.wellFormed sampleA
  simp

theorem sampleB_wellFormed : sampleB.wellFormed id := by
  unfold SymbolicMemoryState.wellFormed sampleB
  simp

/-! ## The merge of memory states: theorems -/

/-- C1: for well-formed memory states and a key `k` with a cell in both, after
`this.merge(other)` the cell at `k` holds the value combined by the merger when
it produces one and the original value of `this` otherwise, the union of the
two writer sets and the union of the two property sets. -/
theorem merge_cell_in_both {SV : Type}
    (createOptionalMerge : SV → Option SV → Option SV) (generateCellKey : SV → CellKey)
    (initialProps : Finset Nat) (this other : SymbolicMemoryState SV)
    (hthis : this.wellFormed generateCellKey) (hother : other.wellFormed generateCellKey)
    (k : CellKey) (thisCell otherCell : MemoryCell SV)
    (ht : getOrDefault k this.cells = some thisCell)
    (ho : getOrDefault k other.cells = some otherCell) :
    ∃ c, getOrDefault k (SymbolicMemoryState.merge createOptionalMerge generateCellKey
          initialProps this other).2.cells = some c ∧
      c.value = (match createOptionalMerge thisCell.value (some otherCell.value) with
        | some combined => combined
        | none => thisCell.value) ∧
      c.writers = thisCell.writers ∪ otherCell.writers ∧
      c.ioProperties = thisCell.ioProperties ∪ otherCell.ioProperties := by
  refine ⟨mergedBoth createOptionalMerge thisCell otherCell, ?_, rfl, ?_, ?_⟩
  · rw [merge_lookup createOptionalMerge generateCellKey initialProps this other hthis
      hother k, ht, ho]
    rfl
  · exact Finset.union_comm _ _
  · exact Finset.union_comm _ _

/-- Witness of C1: the key 1 of the sample states, which both hold. -/
theorem merge_cell_in_both_witness :
    sampleThis.wellFormed id ∧ sampleOther.wellFormed id ∧
    getOrDefault 1 sampleThis.cells = some ⟨1, 5, {10}, {0}⟩ ∧
    getOrDefault 1 sampleOther.cells = some ⟨1, 7, {12}, {1}⟩ ∧
    ∃ c, getOrDefault 1 (SymbolicMemoryState.merge sampleMerger id ∅ sampleThis
          sampleOther).2.cells = some c ∧
      c.value = (match sampleMerger 5 (some 7) with
        | some combined => combined
        | none => 5) ∧
      c.writers = {10} ∪ {12} ∧ c.ioProperties = {0} ∪ {1} :=
  ⟨sampleThis_wellFormed, sampleOther_wellFormed, rfl, rfl,
    merge_cell_in_both sampleMerger id ∅ sampleThis sampleOther sampleThis_wellFormed
      sampleOther_wellFormed 1 ⟨1, 5, {10}, {0}⟩ ⟨1, 7, {12}, {1}⟩ rfl rfl⟩

/-- C2, as written, fails: the state A with the single cell a = 1 holding 5 is
merged with the empty state B under a merger that declines.  The merger gives
no merge-with-absent result for 5, and yet A still has its cell at a after the
merge, holding 5: it is neither without a cell at a nor holding a
merge-with-absent result. -/
theorem merge_one_sided_cell_kept :
    sampleA.wellFormed id ∧ sampleB.wellFormed id ∧
    getOrDefault 1 sampleA.cells = some ⟨1, 5, {10}, {0}⟩ ∧
    getOrDefault 1 sampleB.cells = none ∧
    decliningMerger 5 none = none ∧
    getOrDefault 1 (SymbolicMemoryState.merge decliningMerger id ∅ sampleA
      sampleB).2.cells = some ⟨1, 5, {10}, {0}⟩ ∧
    ¬ (getOrDefault 1 (SymbolicMemoryState.merge decliningMerger id ∅ sampleA
          sampleB).2.cells = none ∨
        ∃ r c, decliningMerger 5 none = some r ∧
          getOrDefault 1 (SymbolicMemoryState.merge decliningMerger id ∅ sampleA
            sampleB).2.cells = some c ∧ c.value = r) := by
  have h : getOrDefault 1 (SymbolicMemoryState.merge decliningMerger id ∅ sampleA
      sampleB).2.cells = some ⟨1, 5, {10}, {0}⟩ := rfl
  refine ⟨sampleA_wellFormed, sampleB_wellFormed, rfl, rfl, rfl, h, ?_⟩
  rintro (h2 | ⟨r, c, h2, _⟩)
  · rw [h] at h2
    exact Option.noConfusion h2
  · exact Option.noConfusion h2

/-- C2, amended: for well-formed memory states and a key `k` with a cell in
exactly one of them.  When the cell is in `other` only, the receiving state
afterwards has no cell at `k` if the merger declines and otherwise a cell
holding the merge-with-absent result.  When the cell is in `this` only, the
cell holds the merge-with-absent result if the merger produces one, and is left
as it was, with its one-sided value, if the merger declines. -/
theorem merge_one_sided_cell {SV : Type}
    (createOptionalMerge : SV → Option SV → Option SV) (generateCellKey : SV → CellKey)
    (initialProps : Finset Nat) (this other : SymbolicMemoryState SV)
    (hthis : this.wellFormed generateCellKey) (hother : other.wellFormed generateCellKey)
    (k : CellKey) :
    (∀ otherCell, getOrDefault k this.cells = none →
      getOrDefault k other.cells = some otherCell →
      ((createOptionalMerge otherCell.value none = none ∧
          getOrDefault k (SymbolicMemoryState.merge createOptionalMerge generateCellKey
            initialProps this other).2.cells = none) ∨
        (∃ r c, createOptionalMerge otherCell.value none = some r ∧
          getOrDefault k (SymbolicMemoryState.merge createOptionalMerge generateCellKey
            initialProps this other).2.cells = some c ∧ c.value = r))) ∧
    (∀ thisCell, getOrDefault k this.cells = some thisCell →
      getOrDefault k other.cells = none →
      ((createOptionalMerge thisCell.value none = none ∧
          getOrDefault k (SymbolicMemoryState.merge createOptionalMerge generateCellKey
            initialProps this other).2.cells = some thisCell) ∨
        (∃ r c, createOptionalMerge thisCell.value none = some r ∧
          getOrDefault k (SymbolicMemoryState.merge createOptionalMerge generateCellKey
            initialProps this other).2.cells = some c ∧ c.value = r))) := by
  have hl := merge_lookup createOptionalMerge generateCellKey initialProps this other hthis
    hother k
  constructor
  · intro otherCell ht ho
    rw [ht, ho] at hl
    rw [hl]
    cases hm : createOptionalMerge otherCell.value none with
    | none => exact Or.inl ⟨rfl, by simp [mergedCell, mergedAbsent, hm]⟩
    | some r =>
      exact Or.inr ⟨r, ⟨otherCell.address, r, otherCell.writers, otherCell.ioProperties⟩,
        rfl, by simp [mergedCell, mergedAbsent, hm], rfl⟩
  · intro thisCell ht ho
    rw [ht, ho] at hl
    rw [hl]
    cases hm : createOptionalMerge thisCell.value none with
    | none => exact Or.inl ⟨rfl, by simp [mergedCell, mergedAbsent, hm]⟩
    | some r =>
      exact Or.inr ⟨r, ⟨thisCell.address, r, thisCell.writers, thisCell.ioProperties⟩,
        rfl, by simp [mergedCell, mergedAbsent, hm], rfl⟩

/-- Witness of the amended C2: the key 3 of the sample states is in the other
state only, and the key 2 is in the receiving state only. -/
theorem merge_one_sided_cell_witness :
    sampleThis.wellFormed id ∧ sampleOther.wellFormed id ∧
    (getOrDefault 3 sampleThis.cells = none ∧
      getOrDefault 3 sampleOther.cells = some ⟨3, 8, {13}, {1}⟩ ∧
      ((sampleMerger 8 none = none ∧
          getOrDefault 3 (SymbolicMemoryState.merge sampleMerger id ∅ sampleThis
            sampleOther).2.cells = none) ∨
        (∃ r c, sampleMerger 8 none = some r ∧
          getOrDefault 3 (SymbolicMemoryState.merge sampleMerger id ∅ sampleThis
            sampleOther).2.cells = some c ∧ c.value = r))) ∧
    (getOrDefault 2 sampleThis.cells = some ⟨2, 6, {11}, {0}⟩ ∧
      getOrDefault 2 sampleOther.cells = none ∧
      ((sampleMerger 6 none = none ∧
          getOrDefault 2 (SymbolicMemoryState.merge sampleMerger id ∅ sampleThis
            sampleOther).2.cells = some ⟨2, 6, {11}, {0}⟩) ∨
        (∃ r c, sampleMerger 6 none = some r ∧
          getOrDefault 2 (SymbolicMemoryState.merge sampleMerger id ∅ sampleThis
            sampleOther).2.cells = some c ∧ c.value = r))) :=
  ⟨sampleThis_wellFormed, sampleOther_wellFormed,
    ⟨rfl, rfl,
      (merge_one_sided_cell sampleMerger id ∅ sampleThis sampleOther sampleThis_wellFormed
        sampleOther_wellFormed 3).1 ⟨3, 8, {13}, {1}⟩ rfl rfl⟩,
    ⟨rfl, rfl,
      (merge_one_sided_cell sampleMerger id ∅ sampleThis sampleOther sampleThis_wellFormed
        sampleOther_wellFormed 2).2 ⟨2, 6, {11}, {0}⟩ rfl rfl⟩⟩

/-- C3: for well-formed memory states and a key `k` with a cell in `other` and
none in `this`, after `this.merge(other)` the receiving state has a cell at `k`
if and only if the merger produces a result for the other value and the absent
placeholder; when it does the new cell holds that result with the writers and
the properties of the other cell and merge returns true; when it declines
there is no cell at `k`. -/
theorem merge_cell_only_in_other {SV : Type}
    (createOptionalMerge : SV → Option SV → Option SV) (generateCellKey : SV → CellKey)
    (initialProps : Finset Nat) (this other : SymbolicMemoryState SV)
    (hthis : this.wellFormed generateCellKey) (hother : other.wellFormed generateCellKey)
    (k : CellKey) (otherCell : MemoryCell SV)
    (ht : getOrDefault k this.cells = none)
    (ho : getOrDefault k other.cells = some otherCell) :
    (getOrDefault k (SymbolicMemoryState.merge createOptionalMerge generateCellKey
        initialProps this other).2.cells ≠ none ↔
      createOptionalMerge otherCell.value none ≠ none) ∧
    (∀ r, createOptionalMerge otherCell.value none = some r →
      getOrDefault k (SymbolicMemoryState.merge createOptionalMerge generateCellKey
          initialProps this other).2.cells =
        some ⟨otherCell.address, r, otherCell.writers, otherCell.ioProperties⟩ ∧
      (SymbolicMemoryState.merge createOptionalMerge generateCellKey
          initialProps this other).1 = true) ∧
    (createOptionalMerge otherCell.value none = none →
      getOrDefault k (SymbolicMemoryState.merge createOptionalMerge generateCellKey
          initialProps this other).2.cells = none) := by
  have hl := merge_lookup createOptionalMerge generateCellKey initialProps this other hthis
    hother k
  rw [ht, ho] at hl
  rw [hl]
  refine ⟨?_, ?_, ?_⟩
  · cases hm : createOptionalMerge otherCell.value none <;>
      simp [mergedCell, mergedAbsent, hm]
  · intro r hm
    refine ⟨by simp [mergedCell, mergedAbsent, hm], ?_⟩
    rw [merge_changed_iff createOptionalMerge generateCellKey initialProps this other hthis
      hother]
    refine Or.inl ⟨k, otherCell, ho, ?_⟩
    rw [ht]
    simp [firstPassWrites, hm]
  · intro hm
    simp [mergedCell, mergedAbsent, hm]

/-- Witness of C3: the key 3 of the sample states. -/
theorem merge_cell_only_in_other_witness :
    sampleThis.wellFormed id ∧ sampleOther.wellFormed id ∧
    getOrDefault 3 sampleThis.cells = none ∧
    getOrDefault 3 sampleOther.cells = some ⟨3, 8, {13}, {1}⟩ ∧
    sampleMerger 8 none = some 108 ∧
    getOrDefault 3 (SymbolicMemoryState.merge sampleMerger id ∅ sampleThis
      sampleOther).2.cells = some ⟨3, 108, {13}, {1}⟩ ∧
    (SymbolicMemoryState.merge sampleMerger id ∅ sampleThis sampleOther).1 = true :=
  ⟨sampleThis_wellFormed, sampleOther_wellFormed, rfl, rfl, rfl,
    (merge_cell_only_in_other sampleMerger id ∅ sampleThis sampleOther
      sampleThis_wellFormed sampleOther_wellFormed 3 ⟨3, 8, {13}, {1}⟩ rfl rfl).2.1 108
      rfl⟩

/-- C4: for well-formed memory states, `merge` returns true if and only if a
cell of `this` is created or overwritten during the merge: some key holds a
cell in both states, the merger combines the two values or a writer or a
property of the other cell is new, and the receiving state afterwards holds
under that key the cell written for it (the cell is overwritten); or some key
holds a cell in `other` only, the merger produces a merge-with-absent result,
and the receiving state, which had no cell under that key, afterwards holds the
cell written for it (a cell is created); or some key holds a cell in `this`
only, the merger produces a merge-with-absent result, and the receiving state
afterwards holds the cell written for it (the cell is overwritten).  Each of
the three conditions on the two states puts the written cell into the receiving
state.  When `merge` returns false the receiving state, and so its cell map,
is what it was before the call. -/
theorem merge_returns_changed {SV : Type}
    (createOptionalMerge : SV → Option SV → Option SV) (generateCellKey : SV → CellKey)
    (initialProps : Finset Nat) (this other : SymbolicMemoryState SV)
    (hthis : this.wellFormed generateCellKey) (hother : other.wellFormed generateCellKey) :
    ((SymbolicMemoryState.merge createOptionalMerge generateCellKey
        initialProps this other).1 = true ↔
      ((∃ k thisCell otherCell, getOrDefault k this.cells = some thisCell ∧
          getOrDefault k other.cells = some otherCell ∧
          (createOptionalMerge thisCell.value (some otherCell.value) ≠ none ∨
            ¬ otherCell.writers ⊆ thisCell.writers ∨
            ¬ otherCell.ioProperties ⊆ thisCell.ioProperties) ∧
          getOrDefault k (SymbolicMemoryState.merge createOptionalMerge generateCellKey
              initialProps this other).2.cells =
            some ⟨thisCell.address,
              (match createOptionalMerge thisCell.value (some otherCell.value) with
                | some combined => combined
                | none => thisCell.value),
              otherCell.writers ∪ thisCell.writers,
              otherCell.ioProperties ∪ thisCell.ioProperties⟩) ∨
        (∃ k otherCell r, getOrDefault k this.cells = none ∧
          getOrDefault k other.cells = some otherCell ∧
          createOptionalMerge otherCell.value none = some r ∧
          getOrDefault k (SymbolicMemoryState.merge createOptionalMerge generateCellKey
              initialProps this other).2.cells =
            some ⟨otherCell.address, r, otherCell.writers, otherCell.ioProperties⟩) ∨
        (∃ k thisCell r, getOrDefault k this.cells = some thisCell ∧
          getOrDefault k other.cells = none ∧
          createOptionalMerge thisCell.value none = some r ∧
          getOrDefault k (SymbolicMemoryState.merge createOptionalMerge generateCellKey
              initialProps this other).2.cells =
            some ⟨thisCell.address, r, thisCell.writers, thisCell.ioProperties⟩))) ∧
    (∀ k thisCell otherCell, getOrDefault k this.cells = some thisCell →
      getOrDefault k other.cells = some otherCell →
      (createOptionalMerge thisCell.value (some otherCell.value) ≠ none ∨
        ¬ otherCell.writers ⊆ thisCell.writers ∨
        ¬ otherCell.ioProperties ⊆ thisCell.ioProperties) →
      (SymbolicMemoryState.merge createOptionalMerge generateCellKey
          initialProps this other).1 = true ∧
      getOrDefault k (SymbolicMemoryState.merge createOptionalMerge generateCellKey
          initialProps this other).2.cells =
        some ⟨thisCell.address,
          (match createOptionalMerge thisCell.value (some otherCell.value) with
            | some combined => combined
            | none => thisCell.value),
          otherCell.writers ∪ thisCell.writers,
          otherCell.ioProperties ∪ thisCell.ioProperties⟩) ∧
    (∀ k otherCell r, getOrDefault k this.cells = none →
      getOrDefault k other.cells = some otherCell →
      createOptionalMerge otherCell.value none = some r →
      (SymbolicMemoryState.merge createOptionalMerge generateCellKey
          initialProps this other).1 = true ∧
      getOrDefault k (SymbolicMemoryState.merge createOptionalMerge generateCellKey
          initialProps this other).2.cells =
        some ⟨otherCell.address, r, otherCell.writers, otherCell.ioProperties⟩) ∧
    (∀ k thisCell r, getOrDefault k this.cells = some thisCell →
      getOrDefault k other.cells = none →
      createOptionalMerge thisCell.value none = some r →
      (SymbolicMemoryState.merge createOptionalMerge generateCellKey
          initialProps this other).1 = true ∧
      getOrDefault k (SymbolicMemoryState.merge createOptionalMerge generateCellKey
          initialProps this other).2.cells =
        some ⟨thisCell.address, r, thisCell.writers, thisCell.ioProperties⟩) ∧
    ((SymbolicMemoryState.merge createOptionalMerge generateCellKey
        initialProps this other).1 = false →
      (SymbolicMemoryState.merge createOptionalMerge generateCellKey
        initialProps this other).2 = this) := by
  have hl := merge_lookup createOptionalMerge generateCellKey initialProps this other hthis
    hother
  have hc := merge_changed_iff createOptionalMerge generateCellKey initialProps this other
    hthis hother
  have hboth : ∀ k tc oc, getOrDefault k this.cells = some tc →
      getOrDefault k other.cells = some oc →
      getOrDefault k (SymbolicMemoryState.merge createOptionalMerge generateCellKey
          initialProps this other).2.cells =
        some ⟨tc.address,
          (match createOptionalMerge tc.value (some oc.value) with
            | some combined => combined
            | none => tc.value),
          oc.writers ∪ tc.writers, oc.ioProperties ∪ tc.ioProperties⟩ := by
    intro k tc oc ht ho
    rw [hl k, ht, ho]
    rfl
  have hcreated : ∀ k oc r, getOrDefault k this.cells = none →
      getOrDefault k other.cells = some oc →
      createOptionalMerge oc.value none = some r →
      getOrDefault k (SymbolicMemoryState.merge createOptionalMerge generateCellKey
          initialProps this other).2.cells =
        some ⟨oc.address, r, oc.writers, oc.ioProperties⟩ := by
    intro k oc r ht ho hm
    rw [hl k, ht, ho]
    simp [mergedCell, mergedAbsent, hm]
  have hthisonly : ∀ k tc r, getOrDefault k this.cells = some tc →
      getOrDefault k other.cells = none →
      createOptionalMerge tc.value none = some r →
      getOrDefault k (SymbolicMemoryState.merge createOptionalMerge generateCellKey
          initialProps this other).2.cells =
        some ⟨tc.address, r, tc.writers, tc.ioProperties⟩ := by
    intro k tc r ht ho hm
    rw [hl k, ht, ho]
    simp [mergedCell, mergedAbsent, hm]
  refine ⟨?_, ?_, ?_, ?_, ?_⟩
  · rw [hc]
    constructor
    · rintro (⟨j, oc, h1, h2⟩ | ⟨j, tc, h1, h2, h3⟩)
      · cases ht : getOrDefault j this.cells with
        | none =>
          rw [ht] at h2
          obtain ⟨r, hr⟩ := Option.ne_none_iff_exists'.mp h2
          exact Or.inr (Or.inl ⟨j, oc, r, ht, h1, hr, hcreated j oc r ht h1 hr⟩)
        | some tc =>
          rw [ht] at h2
          exact Or.inl ⟨j, tc, oc, ht, h1, h2, hboth j tc oc ht h1⟩
      · obtain ⟨r, hr⟩ := Option.ne_none_iff_exists'.mp h3
        exact Or.inr (Or.inr ⟨j, tc, r, h1, h2, hr, hthisonly j tc r h1 h2 hr⟩)
    · rintro (⟨j, tc, oc, h1, h2, h3, _⟩ | ⟨j, oc, r, h1, h2, h3, _⟩ |
        ⟨j, tc, r, h1, h2, h3, _⟩)
      · refine Or.inl ⟨j, oc, h2, ?_⟩
        rw [h1]
        exact h3
      · refine Or.inl ⟨j, oc, h2, ?_⟩
        rw [h1]
        show createOptionalMerge oc.value none ≠ none
        rw [h3]
        exact Option.noConfusion
      · refine Or.inr ⟨j, tc, h1, h2, ?_⟩
        rw [h3]
        exact Option.noConfusion
  · intro k tc oc ht ho hcond
    refine ⟨?_, hboth k tc oc ht ho⟩
    rw [hc]
    refine Or.inl ⟨k, oc, ho, ?_⟩
    rw [ht]
    exact hcond
  · intro k oc r ht ho hm
    refine ⟨?_, hcreated k oc r ht ho hm⟩
    rw [hc]
    refine Or.inl ⟨k, oc, ho, ?_⟩
    rw [ht]
    show createOptionalMerge oc.value none ≠ none
    rw [hm]
    exact Option.noConfusion
  · intro k tc r ht ho hm
    refine ⟨?_, hthisonly k tc r ht ho hm⟩
    rw [hc]
    refine Or.inr ⟨k, tc, ht, ho, ?_⟩
    rw [hm]
    exact Option.noConfusion
  · intro h
    exact merge_frame createOptionalMerge generateCellKey initialProps this other h

/-- Witness of C4: merging the sample states creates the cell at the key 3,
which the receiving state did not have and holds afterwards with the value
108, so the merge returns true; merging the empty state B into itself returns
false and leaves it as it was. -/
theorem merge_returns_changed_witness :
    sampleThis.wellFormed id ∧ sampleOther.wellFormed id ∧ sampleB.wellFormed id ∧
    getOrDefault 3 sampleThis.cells = none ∧
    getOrDefault 3 sampleOther.cells = some ⟨3, 8, {13}, {1}⟩ ∧
    sampleMerger 8 none = some 108 ∧
    ((SymbolicMemoryState.merge sampleMerger id ∅ sampleThis sampleOther).1 = true ∧
      getOrDefault 3 (SymbolicMemoryState.merge sampleMerger id ∅ sampleThis
        sampleOther).2.cells = some ⟨3, 108, {13}, {1}⟩) ∧
    (SymbolicMemoryState.merge sampleMerger id ∅ sampleB sampleB).1 = false ∧
    (SymbolicMemoryState.merge sampleMerger id ∅ sampleB sampleB).2 = sampleB :=
  ⟨sampleThis_wellFormed, sampleOther_wellFormed, sampleB_wellFormed, rfl, rfl, rfl,
    (merge_returns_changed sampleMerger id ∅ sampleThis sampleOther sampleThis_wellFormed
      sampleOther_wellFormed).2.2.1 3 ⟨3, 8, {13}, {1}⟩ 108 rfl rfl rfl,
    rfl,
    (merge_returns_changed sampleMerger id ∅ sampleB sampleB sampleB_wellFormed
      sampleB_wellFormed).2.2.2.2 rfl⟩

/-- C5: for well-formed memory states, the writer set of every cell of `this`
after `this.merge(other)` contains the writer set of the cell of the same key
in `this` before the merge, if there is one, and that of the cell of the same
key in `other`, if there is one; and likewise for the property sets. -/
theorem merge_writers_props_monotone {SV : Type}
    (createOptionalMerge : SV → Option SV → Option SV) (generateCellKey : SV → CellKey)
    (initialProps : Finset Nat) (this other : SymbolicMemoryState SV)
    (hthis : this.wellFormed generateCellKey) (hother : other.wellFormed generateCellKey)
    (k : CellKey) (c : MemoryCell SV)
    (hc : getOrDefault k (SymbolicMemoryState.merge createOptionalMerge generateCellKey
      initialProps this other).2.cells = some c) :
    (∀ thisCell, getOrDefault k this.cells = some thisCell →
      thisCell.writers ⊆ c.writers ∧ thisCell.ioProperties ⊆ c.ioProperties) ∧
    (∀ otherCell, getOrDefault k other.cells = some otherCell →
      otherCell.writers ⊆ c.writers ∧ otherCell.ioProperties ⊆ c.ioProperties) := by
  rw [merge_lookup createOptionalMerge generateCellKey initialProps this other hthis
    hother k] at hc
  cases ht : getOrDefault k this.cells with
  | none =>
    cases ho : getOrDefault k other.cells with
    | none =>
      rw [ht, ho] at hc
      simp [mergedCell] at hc
    | some oc =>
      rw [ht, ho] at hc
      refine ⟨fun _ h => Option.noConfusion h, ?_⟩
      intro oc2 h2
      cases h2
      simp only [mergedCell, mergedAbsent] at hc
      cases hm : createOptionalMerge oc.value none with
      | none =>
        rw [hm] at hc
        exact Option.noConfusion hc
      | some r =>
        rw [hm] at hc
        cases hc
        exact ⟨Finset.Subset.refl _, Finset.Subset.refl _⟩
  | some tc =>
    cases ho : getOrDefault k other.cells with
    | none =>
      rw [ht, ho] at hc
      refine ⟨?_, fun _ h => Option.noConfusion h⟩
      intro tc2 h2
      cases h2
      simp only [mergedCell, mergedAbsent] at hc
      cases hm : createOptionalMerge tc.value none with
      | none =>
        rw [hm] at hc
        cases hc
        exact ⟨Finset.Subset.refl _, Finset.Subset.refl _⟩
      | some r =>
        rw [hm] at hc
        cases hc
        exact ⟨Finset.Subset.refl _, Finset.Subset.refl _⟩
    | some oc =>
      rw [ht, ho] at hc
      simp only [mergedCell, Option.some.injEq] at hc
      subst hc
      constructor
      · intro tc2 h2
        cases h2
        exact ⟨Finset.subset_union_right, Finset.subset_union_right⟩
      · intro oc2 h2
        cases h2
        exact ⟨Finset.subset_union_left, Finset.subset_union_left⟩

/-- Witness of C5: the cell at the key 1 of the merged sample states. -/
theorem merge_writers_props_monotone_witness :
    sampleThis.wellFormed id ∧ sampleOther.wellFormed id ∧
    getOrDefault 1 (SymbolicMemoryState.merge sampleMerger id ∅ sampleThis
      sampleOther).2.cells = some ⟨1, 112, {12} ∪ {10}, {1} ∪ {0}⟩ ∧
    (({10} : Finset Nat) ⊆ {12} ∪ {10} ∧ ({0} : Finset Nat) ⊆ {1} ∪ {0}) ∧
    (({12} : Finset Nat) ⊆ {12} ∪ {10} ∧ ({1} : Finset Nat) ⊆ {1} ∪ {0}) :=
  ⟨sampleThis_wellFormed, sampleOther_wellFormed, rfl,
    (merge_writers_props_monotone sampleMerger id ∅ sampleThis sampleOther
      sampleThis_wellFormed sampleOther_wellFormed 1 ⟨1, 112, {12} ∪ {10}, {1} ∪ {0}⟩
      rfl).1 ⟨1, 5, {10}, {0}⟩ rfl,
    (merge_writers_props_monotone sampleMerger id ∅ sampleThis sampleOther
      sampleThis_wellFormed sampleOther_wellFormed 1 ⟨1, 112, {12} ∪ {10}, {1} ∪ {0}⟩
      rfl).2 ⟨1, 7, {12}, {1}⟩ rfl⟩

/-- C6: for a well-formed memory state `this` and a state `other` with the same
cells, under a merger that gives no combined value for two operands that are
the same value, `this.merge(other)` returns false and leaves the cells of
`this` (keys, values, writers, properties) unchanged. -/
theorem merge_self_idempotent {SV : Type}
    (createOptionalMerge : SV → Option SV → Option SV) (generateCellKey : SV → CellKey)
    (initialProps : Finset Nat) (this other : SymbolicMemoryState SV)
    (hthis : this.wellFormed generateCellKey)
    (hsame : other.cells = this.cells)
    (hmerger : ∀ v, createOptionalMerge v (some v) = none) :
    (SymbolicMemoryState.merge createOptionalMerge generateCellKey
        initialProps this other).1 = false ∧
    (SymbolicMemoryState.merge createOptionalMerge generateCellKey
        initialProps this other).2.cells = this.cells := by
  have hother : other.wellFormed generateCellKey := by
    unfold SymbolicMemoryState.wellFormed
    rw [hsame]
    exact hthis
  have hf : (SymbolicMemoryState.merge createOptionalMerge generateCellKey
      initialProps this other).1 = false := by
    rw [← Bool.not_eq_true, merge_changed_iff createOptionalMerge generateCellKey
      initialProps this other hthis hother]
    rintro (⟨j, oc, h1, h2⟩ | ⟨j, tc, h1, h2, _⟩)
    · rw [hsame] at h1
      rw [h1] at h2
      simp only [firstPassWrites, bothWrites, hmerger, ne_eq, not_true_eq_false,
        Finset.Subset.refl, or_self] at h2
    · rw [hsame, h1] at h2
      exact Option.noConfusion h2
  refine ⟨hf, ?_⟩
  rw [merge_frame createOptionalMerge generateCellKey initialProps this other hf]

/-- Witness of C6: the sample state merged with itself. -/
theorem merge_self_idempotent_witness :
    sampleThis.wellFormed id ∧ (∀ v, sampleMerger v (some v) = none) ∧
    (SymbolicMemoryState.merge sampleMerger id ∅ sampleThis sampleThis).1 = false ∧
    (SymbolicMemoryState.merge sampleMerger id ∅ sampleThis sampleThis).2.cells =
      sampleThis.cells :=
  ⟨sampleThis_wellFormed, fun v => by simp [sampleMerger],
    merge_self_idempotent sampleMerger id ∅ sampleThis sampleThis sampleThis_wellFormed rfl
      (fun v => by simp [sampleMerger])⟩

/-! ## Equality of states: theorems -/

theorem mem_compare_iff {SV : Type} (ops : ValueOps SV) (addr v ov : SV) :
    mem_compare ops addr v ov = true ↔
      ((ops.is_incomplete v = true ∧ ops.is_incomplete ov = true) ∨
        (ops.is_incomplete v = false ∧ ops.is_incomplete ov = false ∧ ops.eq v ov = true)) := by
  unfold mem_compare
  cases hv : ops.is_incomplete v <;> cases ho : ops.is_incomplete ov <;>
    cases he : ops.eq v ov <;> simp

/-- C7: `SymbolicRegisterState::equals` returns true if and only if for every
slot stored in `this`, with `v` the stored value, the read of `other` yields a
value `ov` such that `v` and `ov` are both incomplete, or both complete and
equal by expression equality.  Consequently, when the reads of `other` yield
values and some slot has exactly one of `v`, `ov` incomplete, it returns
false. -/
theorem register_equals_iff {SV : Type} (ops : ValueOps SV)
    (read_register : RegisterReader SV) (this other : SymbolicRegisterState SV) :
    (this.equals ops read_register other = some true ↔
      ∀ rpl ∈ this.registers_, ∀ rp ∈ rpl, ∃ ov, read_register other rp.desc = some ov ∧
        ((ops.is_incomplete rp.value = true ∧ ops.is_incomplete ov = true) ∨
          (ops.is_incomplete rp.value = false ∧ ops.is_incomplete ov = false ∧
            ops.eq rp.value ov = true))) ∧
    ((∀ rpl ∈ this.registers_, ∀ rp ∈ rpl, read_register other rp.desc ≠ none) →
      (∃ rpl ∈ this.registers_, ∃ rp ∈ rpl, ∃ ov, read_register other rp.desc = some ov ∧
        ops.is_incomplete rp.value ≠ ops.is_incomplete ov) →
      this.equals ops read_register other = some false) := by
  have hiff : this.equals ops read_register other = some true ↔
      ∀ rpl ∈ this.registers_, ∀ rp ∈ rpl, ∃ ov, read_register other rp.desc = some ov ∧
        ((ops.is_incomplete rp.value = true ∧ ops.is_incomplete ov = true) ∨
          (ops.is_incomplete rp.value = false ∧ ops.is_incomplete ov = false ∧
            ops.eq rp.value ov = true)) := by
    unfold SymbolicRegisterState.equals
    rw [equalsVectors_eq_some_true_iff]
    simp only [equalsSlot_eq_none_iff]
  refine ⟨hiff, ?_⟩
  intro hread ⟨rpl, hrpl, rp, hrp, ov, hov, hne⟩
  have hnn : this.equals ops read_register other ≠ none :=
    equalsVectors_ne_none ops read_register other this.registers_ hread
  have hnt : this.equals ops read_register other ≠ some true := by
    intro ht
    obtain ⟨ov2, h2, h3⟩ := hiff.mp ht rpl hrpl rp hrp
    rw [hov] at h2
    cases h2
    rcases h3 with ⟨h4, h5⟩ | ⟨h4, h5, _⟩
    · exact hne (h4.trans h5.symm)
    · exact hne (h4.trans h5.symm)
  cases he : this.equals ops read_register other with
  | none => exact absurd he hnn
  | some b =>
    cases b with
    | true => exact absurd he hnt
    | false => rfl

/-- Witness of C7: the states whose register `ebx` is incomplete in the one and
complete in the other are not equal. -/
theorem register_equals_iff_witness :
    (∀ rpl ∈ sampleRegs1.registers_, ∀ rp ∈ rpl,
      sampleReader sampleRegs3 rp.desc ≠ none) ∧
    sampleReader sampleRegs3 sampleEbx = some 7 ∧
    sampleOps.is_incomplete 101 ≠ sampleOps.is_incomplete 7 ∧
    sampleRegs1.equals sampleOps sampleReader sampleRegs3 = some false :=
  ⟨by decide, rfl, by decide,
    (register_equals_iff sampleOps sampleReader sampleRegs1 sampleRegs3).2 (by decide)
      ⟨[⟨sampleEax, 5⟩, ⟨sampleEbx, 101⟩], by simp [sampleRegs1], ⟨sampleEbx, 101⟩,
        by simp, 7, rfl, by decide⟩⟩

theorem equalsThisPass_iff {SV : Type} (ops : ValueOps SV) (generateCellKey : SV → CellKey)
    (other : SymbolicMemoryState SV) (L : List (MemoryCell SV)) :
    equalsThisPass ops generateCellKey other L = true ↔
      ∀ cell ∈ L,
        (∀ ocell, other.findCell generateCellKey cell.address = some ocell →
          mem_compare ops cell.address cell.value ocell.value = true) ∧
        (other.findCell generateCellKey cell.address = none →
          ops.is_incomplete cell.address = true) := by
  induction L with
  | nil => simp [equalsThisPass]
  | cons cell rest ih =>
    simp only [equalsThisPass, List.mem_cons, forall_eq_or_imp]
    cases hf : other.findCell generateCellKey cell.address with
    | none =>
      cases hi : ops.is_incomplete cell.address <;> simp [hi, ih]
    | some ocell =>
      cases hc : mem_compare ops cell.address cell.value ocell.value <;> simp [hc, ih]

theorem equalsOtherPass_iff {SV : Type} (ops : ValueOps SV) (generateCellKey : SV → CellKey)
    (this : SymbolicMemoryState SV) (L : List (MemoryCell SV)) :
    equalsOtherPass ops generateCellKey this L = true ↔
      ∀ ocell ∈ L,
        (∀ cell, this.findCell generateCellKey ocell.address = some cell →
          mem_compare ops ocell.address cell.value ocell.value = true) ∧
        (this.findCell generateCellKey ocell.address = none →
          ops.is_incomplete ocell.address = true) := by
  induction L with
  | nil => simp [equalsOtherPass]
  | cons ocell rest ih =>
    simp only [equalsOtherPass, List.mem_cons, forall_eq_or_imp]
    cases hf : this.findCell generateCellKey ocell.address with
    | none =>
      cases hi : ops.is_incomplete ocell.address <;> simp [hi, ih]
    | some cell =>
      cases hc : mem_compare ops ocell.address cell.value ocell.value <;> simp [hc, ih]

theorem memory_equals_iff_aux {SV : Type} (ops : ValueOps SV)
    (generateCellKey : SV → CellKey) (this other : SymbolicMemoryState SV)
    (hthis : this.wellFormed generateCellKey) (hother : other.wellFormed generateCellKey) :
    this.equals ops generateCellKey other = true ↔
      ((∀ k thisCell otherCell, getOrDefault k this.cells = some thisCell →
          getOrDefault k other.cells = some otherCell →
          mem_compare ops thisCell.address thisCell.value otherCell.value = true) ∧
        (∀ k thisCell, getOrDefault k this.cells = some thisCell →
          getOrDefault k other.cells = none → ops.is_incomplete thisCell.address = true) ∧
        (∀ k otherCell, getOrDefault k other.cells = some otherCell →
          getOrDefault k this.cells = none →
          ops.is_incomplete otherCell.address = true)) := by
  unfold SymbolicMemoryState.equals
  have h1 := equalsThisPass_iff ops generateCellKey other this.allCells
  have h2 := equalsOtherPass_iff ops generateCellKey this other.allCells
  constructor
  · intro h
    have ha : equalsThisPass ops generateCellKey other this.allCells = true := by
      by_contra hn
      simp [hn] at h
    have hb : equalsOtherPass ops generateCellKey this other.allCells = true := by
      simpa [ha] using h
    rw [h1] at ha
    rw [h2] at hb
    refine ⟨?_, ?_, ?_⟩
    · intro k tc oc ht ho
      obtain ⟨m1, m2⟩ := (getOrDefault_eq_some_iff generateCellKey this hthis k tc).mp ht
      apply (ha tc m1).1 oc
      unfold SymbolicMemoryState.findCell
      rw [m2]
      exact ho
    · intro k tc ht ho
      obtain ⟨m1, m2⟩ := (getOrDefault_eq_some_iff generateCellKey this hthis k tc).mp ht
      apply (ha tc m1).2
      unfold SymbolicMemoryState.findCell
      rw [m2]
      exact ho
    · intro k oc ho ht
      obtain ⟨m1, m2⟩ := (getOrDefault_eq_some_iff generateCellKey other hother k oc).mp ho
      apply (hb oc m1).2
      unfold SymbolicMemoryState.findCell
      rw [m2]
      exact ht
  · rintro ⟨c1, c2, c3⟩
    have ha : equalsThisPass ops generateCellKey other this.allCells = true := by
      rw [h1]
      intro tc m1
      have ht := (getOrDefault_eq_some_iff generateCellKey this hthis _ tc).mpr ⟨m1, rfl⟩
      exact ⟨fun oc ho => c1 _ tc oc ht ho, fun ho => c2 _ tc ht ho⟩
    have hb : equalsOtherPass ops generateCellKey this other.allCells = true := by
      rw [h2]
      intro oc m1
      have ho := (getOrDefault_eq_some_iff generateCellKey other hother _ oc).mpr ⟨m1, rfl⟩
      refine ⟨fun tc ht => ?_, fun ht => c3 _ oc ho ht⟩
      have := c1 _ tc oc ht ho
      rw [mem_compare_iff] at this ⊢
      exact this
    simp [ha, hb]

/-- C8: for well-formed memory states, `SymbolicMemoryState::equals` returns
true if and only if (1) for every key with a cell in both states the two values
are both incomplete, or both complete and equal by expression equality, and
(2) every cell found in only one of the two states, in either direction, has an
incomplete address.  A cell with a complete address that is missing from the
opposite state makes the result false. -/
theorem memory_equals_iff {SV : Type} (ops : ValueOps SV)
    (generateCellKey : SV → CellKey) (this other : SymbolicMemoryState SV)
    (hthis : this.wellFormed generateCellKey) (hother : other.wellFormed generateCellKey) :
    (this.equals ops generateCellKey other = true ↔
      ((∀ k thisCell otherCell, getOrDefault k this.cells = some thisCell →
          getOrDefault k other.cells = some otherCell →
          ((ops.is_incomplete thisCell.value = true ∧
              ops.is_incomplete otherCell.value = true) ∨
            (ops.is_incomplete thisCell.value = false ∧
              ops.is_incomplete otherCell.value = false ∧
              ops.eq thisCell.value otherCell.value = true))) ∧
        (∀ k thisCell, getOrDefault k this.cells = some thisCell →
          getOrDefault k other.cells = none → ops.is_incomplete thisCell.address = true) ∧
        (∀ k otherCell, getOrDefault k other.cells = some otherCell →
          getOrDefault k this.cells = none →
          ops.is_incomplete otherCell.address = true))) ∧
    (((∃ k thisCell, getOrDefault k this.cells = some thisCell ∧
          getOrDefault k other.cells = none ∧
          ops.is_incomplete thisCell.address = false) ∨
        (∃ k otherCell, getOrDefault k other.cells = some otherCell ∧
          getOrDefault k this.cells = none ∧
          ops.is_incomplete otherCell.address = false)) →
      this.equals ops generateCellKey other = false) := by
  have h := memory_equals_iff_aux ops generateCellKey this other hthis hother
  simp only [mem_compare_iff] at h
  refine ⟨h, ?_⟩
  intro hex
  rw [← Bool.not_eq_true, h]
  rintro ⟨_, c2, c3⟩
  rcases hex with ⟨k, tc, h1, h2, h3⟩ | ⟨k, oc, h1, h2, h3⟩
  · rw [c2 k tc h1 h2] at h3
    exact Bool.noConfusion h3
  · rw [c3 k oc h1 h2] at h3
    exact Bool.noConfusion h3

/-- Witness of C8: the sample states are not equal, because the cell at the
complete address 2 of the one is missing from the other. -/
theorem memory_equals_iff_witness :
    sampleThis.wellFormed id ∧ sampleOther.wellFormed id ∧
    getOrDefault 2 sampleThis.cells = some ⟨2, 6, {11}, {0}⟩ ∧
    getOrDefault 2 sampleOther.cells = none ∧
    sampleOps.is_incomplete 2 = false ∧
    sampleThis.equals sampleOps id sampleOther = false :=
  ⟨sampleThis_wellFormed, sampleOther_wellFormed, rfl, rfl, rfl,
    (memory_equals_iff sampleOps id sampleThis sampleOther sampleThis_wellFormed
      sampleOther_wellFormed).2 (Or.inl ⟨2, ⟨2, 6, {11}, {0}⟩, rfl, rfl, rfl⟩)⟩

theorem accessCreatesLocationsGuard_eq {SV : Type} (this : SymbolicRegisterState SV)
    (newValue : Bool) : accessCreatesLocationsGuard this newValue = this := rfl

theorem diffSlot_of_must_equal {SV : Type} (ops : ValueOps SV)
    (read_register : RegisterReader SV) (ip_reg : RegisterDescriptor)
    (other : SymbolicRegisterState SV) (changed : List RegisterDescriptor) (rp : RegPair SV)
    (ov : SV) (hread : read_register other rp.desc = some ov)
    (hmust : ops.must_equal rp.value ov = true) :
    diffSlot ops read_register ip_reg other changed rp = changed := by
  simp [diffSlot, SymbolicRegisterState.inspect_register, accessCreatesLocationsGuard_eq,
    hread, hmust]

theorem diffPairs_of_must_equal {SV : Type} (ops : ValueOps SV)
    (read_register : RegisterReader SV) (ip_reg : RegisterDescriptor)
    (other : SymbolicRegisterState SV) (rpl : List (RegPair SV))
    (h : ∀ rp ∈ rpl, ∃ ov, read_register other rp.desc = some ov ∧
      ops.must_equal rp.value ov = true) :
    ∀ changed, rpl.foldl (diffSlot ops read_register ip_reg other) changed = changed := by
  induction rpl with
  | nil => intro changed; rfl
  | cons rp rest ih =>
    intro changed
    simp only [List.mem_cons, forall_eq_or_imp] at h
    obtain ⟨⟨ov, h1, h2⟩, h3⟩ := h
    simp only [List.foldl_cons]
    rw [diffSlot_of_must_equal ops read_register ip_reg other changed rp ov h1 h2]
    exact ih h3 changed

theorem diffVectors_of_must_equal {SV : Type} (ops : ValueOps SV)
    (read_register : RegisterReader SV) (ip_reg : RegisterDescriptor)
    (other : SymbolicRegisterState SV) (rpls : List (List (RegPair SV)))
    (h : ∀ rpl ∈ rpls, ∀ rp ∈ rpl, ∃ ov, read_register other rp.desc = some ov ∧
      ops.must_equal rp.value ov = true) :
    ∀ changed, rpls.foldl
      (fun changed rpl => rpl.foldl (diffSlot ops read_register ip_reg other) changed)
      changed = changed := by
  induction rpls with
  | nil => intro changed; rfl
  | cons rpl rest ih =>
    intro changed
    simp only [List.mem_cons, forall_eq_or_imp] at h
    simp only [List.foldl_cons]
    rw [diffPairs_of_must_equal ops read_register ip_reg other rpl h.1 changed]
    exact ih h.2 changed

/-- C9: reflexivity.  With expression equality and the must-equal oracle
reflexive, a read of the register state at the descriptor of a stored slot
yielding the value of that slot, and the lookup of a memory cell by its address
finding that cell: `S.equals(S)` is true, `M.equals(M)` is true and `S.diff(S)`
is empty. -/
theorem equals_diff_reflexive {SV : Type} (ops : ValueOps SV)
    (read_register : RegisterReader SV) (ip_reg : RegisterDescriptor)
    (generateCellKey : SV → CellKey)
    (S : SymbolicRegisterState SV) (M : SymbolicMemoryState SV)
    (heq : ∀ v, ops.eq v v = true) (hmust : ∀ v, ops.must_equal v v = true)
    (hread : ∀ rpl ∈ S.registers_, ∀ rp ∈ rpl, read_register S rp.desc = some rp.value)
    (hfind : ∀ cell ∈ M.allCells, M.findCell generateCellKey cell.address = some cell) :
    S.equals ops read_register S = some true ∧
    M.equals ops generateCellKey M = true ∧
    S.diff ops read_register ip_reg S = [] := by
  have hcmp : ∀ a v : SV, mem_compare ops a v v = true := by
    intro a v
    rw [mem_compare_iff]
    cases hi : ops.is_incomplete v
    · exact Or.inr ⟨rfl, rfl, heq v⟩
    · exact Or.inl ⟨rfl, rfl⟩
  refine ⟨?_, ?_, ?_⟩
  · unfold SymbolicRegisterState.equals
    rw [equalsVectors_eq_some_true_iff]
    intro rpl hrpl rp hrp
    refine ⟨rp.value, hread rpl hrpl rp hrp, ?_⟩
    rw [equalsSlot_eq_none_iff]
    cases hi : ops.is_incomplete rp.value
    · exact Or.inr ⟨rfl, rfl, heq rp.value⟩
    · exact Or.inl ⟨rfl, rfl⟩
  · have ha : equalsThisPass ops generateCellKey M M.allCells = true := by
      rw [equalsThisPass_iff]
      intro cell hcell
      rw [hfind cell hcell]
      refine ⟨?_, fun h => Option.noConfusion h⟩
      intro ocell ho
      cases ho
      exact hcmp _ _
    have hb : equalsOtherPass ops generateCellKey M M.allCells = true := by
      rw [equalsOtherPass_iff]
      intro cell hcell
      rw [hfind cell hcell]
      refine ⟨?_, fun h => Option.noConfusion h⟩
      intro ocell ho
      cases ho
      exact hcmp _ _
    simp [SymbolicMemoryState.equals, ha, hb]
  · unfold SymbolicRegisterState.diff
    rw [accessCreatesLocationsGuard_eq]
    apply diffVectors_of_must_equal
    intro rpl hrpl rp hrp
    exact ⟨rp.value, hread rpl hrpl rp hrp, hmust rp.value⟩

/-- Witness of C9: the sample register state and the sample memory state. -/
theorem equals_diff_reflexive_witness :
    (∀ v, sampleOps.eq v v = true) ∧ (∀ v, sampleOps.must_equal v v = true) ∧
    (∀ rpl ∈ sampleRegs1.registers_, ∀ rp ∈ rpl,
      sampleReader sampleRegs1 rp.desc = some rp.value) ∧
    (∀ cell ∈ sampleThis.allCells, sampleThis.findCell id cell.address = some cell) ∧
    sampleRegs1.equals sampleOps sampleReader sampleRegs1 = some true ∧
    sampleThis.equals sampleOps id sampleThis = true ∧
    sampleRegs1.diff sampleOps sampleReader sampleEip sampleRegs1 = [] :=
  ⟨fun v => by simp [sampleOps], fun v => by simp [sampleOps], by decide,
    by simp [sampleThis, SymbolicMemoryState.allCells, SymbolicMemoryState.findCell,
      getOrDefault],
    equals_diff_reflexive sampleOps sampleReader sampleEip id sampleRegs1 sampleThis
      (fun v => by simp [sampleOps]) (fun v => by simp [sampleOps]) (by decide)
      (by simp [sampleThis, SymbolicMemoryState.allCells, SymbolicMemoryState.findCell,
        getOrDefault])⟩

/-- C10: two register states that hold the same value in every register except
one register `R` that is incomplete in both are equal, whatever the two
incomplete values held in `R` are (expression equality being reflexive); and a
slot whose two values are both incomplete passes the test of `equals` whatever
the two values are. -/
theorem register_equals_symmetric_incompleteness {SV : Type} (ops : ValueOps SV)
    (read_register : RegisterReader SV) (S1 S2 : SymbolicRegisterState SV)
    (R : RegisterDescriptor)
    (heq : ∀ v, ops.eq v v = true)
    (hsame : ∀ rpl ∈ S1.registers_, ∀ rp ∈ rpl, rp.desc ≠ R →
      read_register S2 rp.desc = some rp.value)
    (hR : ∀ rpl ∈ S1.registers_, ∀ rp ∈ rpl, rp.desc = R →
      ops.is_incomplete rp.value = true ∧
        ∃ ov, read_register S2 R = some ov ∧ ops.is_incomplete ov = true) :
    S1.equals ops read_register S2 = some true ∧
    (∀ v ov, ops.is_incomplete v = true → ops.is_incomplete ov = true →
      equalsSlot ops v ov = none) := by
  constructor
  · unfold SymbolicRegisterState.equals
    rw [equalsVectors_eq_some_true_iff]
    intro rpl hrpl rp hrp
    by_cases hd : rp.desc = R
    · obtain ⟨h1, ov, h2, h3⟩ := hR rpl hrpl rp hrp hd
      refine ⟨ov, hd ▸ h2, ?_⟩
      rw [equalsSlot_eq_none_iff]
      exact Or.inl ⟨h1, h3⟩
    · refine ⟨rp.value, hsame rpl hrpl rp hrp hd, ?_⟩
      rw [equalsSlot_eq_none_iff]
      cases hi : ops.is_incomplete rp.value
      · exact Or.inr ⟨rfl, rfl, heq rp.value⟩
      · exact Or.inl ⟨rfl, rfl⟩
  · intro v ov hv ho
    rw [equalsSlot_eq_none_iff]
    exact Or.inl ⟨hv, ho⟩

/-- Witness of C10: the two sample register states differ in `ebx` only, which
holds the incomplete value 101 in the one and 102 in the other; the two values
are not equal as expressions, and the states are equal. -/
theorem register_equals_symmetric_incompleteness_witness :
    sampleOps.eq 101 102 = false ∧
    sampleOps.is_incomplete 101 = true ∧ sampleOps.is_incomplete 102 = true ∧
    sampleReader sampleRegs2 sampleEbx = some 102 ∧
    sampleRegs1.equals sampleOps sampleReader sampleRegs2 = some true :=
  ⟨rfl, rfl, rfl, rfl,
    (register_equals_symmetric_incompleteness sampleOps sampleReader sampleRegs1
      sampleRegs2 sampleEbx (fun v => by simp [sampleOps]) (by decide) (by decide)).1⟩

/-! ## The difference of register states: theorems -/

theorem diffPairs_mem_iff {SV : Type} (ops : ValueOps SV)
    (read_register : RegisterReader SV) (ip_reg : RegisterDescriptor)
    (other : SymbolicRegisterState SV) (r : RegisterDescriptor) (rpl : List (RegPair SV)) :
    ∀ changed, r ∈ rpl.foldl (diffSlot ops read_register ip_reg other) changed ↔
      (r ∈ changed ∨ ∃ rp ∈ rpl, rp.desc = r ∧
        ∃ ov, other.inspect_register read_register r = some ov ∧ r ≠ ip_reg ∧
          ops.must_equal rp.value ov = false) := by
  induction rpl with
  | nil => intro changed; simp
  | cons rp rest ih =>
    intro changed
    simp only [List.foldl_cons, ih, List.mem_cons, exists_eq_or_imp]
    have hstep : r ∈ diffSlot ops read_register ip_reg other changed rp ↔
        (r ∈ changed ∨ (rp.desc = r ∧
          ∃ ov, other.inspect_register read_register r = some ov ∧ r ≠ ip_reg ∧
            ops.must_equal rp.value ov = false)) := by
      unfold diffSlot
      cases hi : other.inspect_register read_register rp.desc with
      | none =>
        simp only
        constructor
        · exact Or.inl
        · rintro (h | ⟨h1, ov, h2, _⟩)
          · exact h
          · rw [← h1, hi] at h2
            exact Option.noConfusion h2
      | some ov =>
        simp only
        by_cases hip : rp.desc = ip_reg
        · simp only [hip, if_true]
          constructor
          · exact Or.inl
          · rintro (h | ⟨h1, _, _, h3, _⟩)
            · exact h
            · exact absurd h1.symm h3
        · simp only [hip, if_false]
          cases hm : ops.must_equal rp.value ov with
          | true =>
            simp only [Bool.not_true, Bool.false_eq_true, if_false]
            constructor
            · exact Or.inl
            · rintro (h | ⟨h1, ov2, h2, _, h4⟩)
              · exact h
              · rw [← h1, hi] at h2
                cases h2
                rw [hm] at h4
                exact Bool.noConfusion h4
          | false =>
            simp only [Bool.not_false, if_true, List.mem_append, List.mem_singleton]
            constructor
            · rintro (h | h)
              · exact Or.inl h
              · refine Or.inr ⟨h.symm, ov, ?_, ?_, hm⟩
                · rw [h]
                  exact hi
                · rw [h]
                  exact hip
            · rintro (h | ⟨h1, _⟩)
              · exact Or.inl h
              · exact Or.inr h1.symm
    rw [hstep]
    exact or_assoc

theorem diffVectors_mem_iff {SV : Type} (ops : ValueOps SV)
    (read_register : RegisterReader SV) (ip_reg : RegisterDescriptor)
    (other : SymbolicRegisterState SV) (r : RegisterDescriptor)
    (rpls : List (List (RegPair SV))) :
    ∀ changed, r ∈ rpls.foldl
        (fun changed rpl => rpl.foldl (diffSlot ops read_register ip_reg other) changed)
        changed ↔
      (r ∈ changed ∨ ∃ rpl ∈ rpls, ∃ rp ∈ rpl, rp.desc = r ∧
        ∃ ov, other.inspect_register read_register r = some ov ∧ r ≠ ip_reg ∧
          ops.must_equal rp.value ov = false) := by
  induction rpls with
  | nil => intro changed; simp
  | cons rpl rest ih =>
    intro changed
    simp only [List.foldl_cons, ih, List.mem_cons, exists_eq_or_imp, diffPairs_mem_iff]
    exact or_assoc

/-- The result of `diff` in terms of the values that `inspect_register` returns
for `other`: a register `r` is in `this.diff(other)` if and only if `r` is the
descriptor of a slot of `this`, `other->inspect_register(r)` returns a value,
`r` is not the instruction-pointer register, and the must-equal oracle does not
hold between the value of the slot and the value returned.  So the
instruction-pointer register is never in the result, and neither is a register
for which `inspect_register` returns the null pointer. -/
theorem register_diff_iff {SV : Type} (ops : ValueOps SV)
    (read_register : RegisterReader SV) (ip_reg : RegisterDescriptor)
    (this other : SymbolicRegisterState SV) :
    (∀ r, r ∈ this.diff ops read_register ip_reg other ↔
      ∃ rpl ∈ this.registers_, ∃ rp ∈ rpl, rp.desc = r ∧
        ∃ ov, other.inspect_register read_register r = some ov ∧ r ≠ ip_reg ∧
          ops.must_equal rp.value ov = false) ∧
    ip_reg ∉ this.diff ops read_register ip_reg other ∧
    (∀ r, other.inspect_register read_register r = none →
      r ∉ this.diff ops read_register ip_reg other) := by
  have h : ∀ r, r ∈ this.diff ops read_register ip_reg other ↔
      ∃ rpl ∈ this.registers_, ∃ rp ∈ rpl, rp.desc = r ∧
        ∃ ov, other.inspect_register read_register r = some ov ∧ r ≠ ip_reg ∧
          ops.must_equal rp.value ov = false := by
    intro r
    unfold SymbolicRegisterState.diff
    rw [accessCreatesLocationsGuard_eq]
    simp only [diffVectors_mem_iff, List.not_mem_nil, false_or]
  refine ⟨h, ?_, ?_⟩
  · rw [h]
    rintro ⟨_, _, _, _, _, _, _, h3, _⟩
    exact h3 rfl
  · intro r hr
    rw [h]
    rintro ⟨_, _, _, _, _, ov, h2, _⟩
    rw [hr] at h2
    exact Option.noConfusion h2

/-- An instance of the characterisation of `diff`: between the sample states
that differ in `ebx`, the register `ebx` is reported, and the instruction
pointer is not. -/
theorem register_diff_iff_witness :
    sampleRegs1.diff sampleOps sampleReader sampleEip sampleRegs3 = [sampleEbx] ∧
    (sampleEbx ∈ sampleRegs1.diff sampleOps sampleReader sampleEip sampleRegs3 ↔
      ∃ rpl ∈ sampleRegs1.registers_, ∃ rp ∈ rpl, rp.desc = sampleEbx ∧
        ∃ ov, sampleRegs3.inspect_register sampleReader sampleEbx = some ov ∧
          sampleEbx ≠ sampleEip ∧ sampleOps.must_equal rp.value ov = false) ∧
    sampleEip ∉ sampleRegs1.diff sampleOps sampleReader sampleEip sampleRegs3 :=
  ⟨by decide,
    (register_diff_iff sampleOps sampleReader sampleEip sampleRegs1 sampleRegs3).1
      sampleEbx,
    (register_diff_iff sampleOps sampleReader sampleEip sampleRegs1 sampleRegs3).2.1⟩

/-! ## The second loop of the merge and the symmetry of equality: theorems -/

/-- C16: for well-formed memory states, the second loop of `merge` attempts the
merge with the absent placeholder for exactly those cells of its snapshot whose
key is not recorded as processed, and these are the cells of `this` whose key
has no cell in `other`.  A cell whose key occurs in `other`, created in the
first loop or not, is left by the second loop as the first loop left it, and a
key for which the merger declined in the first loop is not recorded as
processed.  For a cell of `this` whose key has no cell in `other`: if the
merger produces a result the value of the cell becomes that result, its writers
and properties are unchanged and `merge` returns true; otherwise the cell is
left as it was. -/
theorem merge_second_pass {SV : Type}
    (createOptionalMerge : SV → Option SV → Option SV) (generateCellKey : SV → CellKey)
    (initialProps : Finset Nat) (this other : SymbolicMemoryState SV)
    (hthis : this.wellFormed generateCellKey) (hother : other.wellFormed generateCellKey) :
    (∀ c ∈ (mergeFirstPass createOptionalMerge generateCellKey initialProps this
          other).state.allCells,
      (generateCellKey c.address ∉ (mergeFirstPass createOptionalMerge generateCellKey
          initialProps this other).processed ↔
        (getOrDefault (generateCellKey c.address) this.cells = some c ∧
          getOrDefault (generateCellKey c.address) other.cells = none))) ∧
    (∀ k, getOrDefault k other.cells ≠ none →
      getOrDefault k (SymbolicMemoryState.merge createOptionalMerge generateCellKey
          initialProps this other).2.cells =
        getOrDefault k (mergeFirstPass createOptionalMerge generateCellKey initialProps
          this other).state.cells) ∧
    (∀ k otherCell, getOrDefault k this.cells = none →
      getOrDefault k other.cells = some otherCell →
      createOptionalMerge otherCell.value none = none →
      k ∉ (mergeFirstPass createOptionalMerge generateCellKey initialProps this
          other).processed) ∧
    (∀ k thisCell, getOrDefault k this.cells = some thisCell →
      getOrDefault k other.cells = none →
      (∀ r, createOptionalMerge thisCell.value none = some r →
        getOrDefault k (SymbolicMemoryState.merge createOptionalMerge generateCellKey
            initialProps this other).2.cells =
          some ⟨thisCell.address, r, thisCell.writers, thisCell.ioProperties⟩ ∧
        (SymbolicMemoryState.merge createOptionalMerge generateCellKey
            initialProps this other).1 = true) ∧
      (createOptionalMerge thisCell.value none = none →
        getOrDefault k (SymbolicMemoryState.merge createOptionalMerge generateCellKey
            initialProps this other).2.cells = some thisCell)) := by
  have hwf1 := firstPass_wellFormed createOptionalMerge generateCellKey initialProps this
    other hthis hother
  have hl1 := firstPass_lookup createOptionalMerge generateCellKey initialProps this
    other hthis hother
  have hp1 := firstPass_processed_iff createOptionalMerge generateCellKey initialProps this
    other hthis hother
  have hl := merge_lookup createOptionalMerge generateCellKey initialProps this other hthis
    hother
  refine ⟨?_, ?_, ?_, ?_⟩
  · intro c hc
    have hlk := (getOrDefault_eq_some_iff generateCellKey _ hwf1 _ c).mpr ⟨hc, rfl⟩
    rw [hl1] at hlk
    rw [hp1]
    cases ho : getOrDefault (generateCellKey c.address) other.cells with
    | none =>
      rw [ho] at hlk
      simp only at hlk
      simp [hlk]
    | some oc =>
      rw [ho] at hlk
      simp only at hlk
      simp only [Option.some.injEq, exists_eq_left', reduceCtorEq, and_false, iff_false,
        not_not]
      unfold firstPassRecords
      cases ht : getOrDefault (generateCellKey c.address) this.cells with
      | none =>
        rw [ht] at hlk
        right
        intro hm
        simp [firstPassCell, mergedAbsent, hm] at hlk
      | some tc => simp
  · intro k hk
    rw [hl k, hl1 k]
    cases ho : getOrDefault k other.cells with
    | none => exact absurd ho hk
    | some oc =>
      cases ht : getOrDefault k this.cells <;> simp [mergedCell, firstPassCell]
  · intro k oc ht ho hm
    rw [hp1, ho, ht]
    simp [firstPassRecords, hm]
  · intro k tc ht ho
    constructor
    · intro r hm
      constructor
      · rw [hl k, ht, ho]
        simp [mergedCell, mergedAbsent, hm]
      · rw [merge_changed_iff createOptionalMerge generateCellKey initialProps this other
          hthis hother]
        refine Or.inr ⟨k, tc, ht, ho, ?_⟩
        rw [hm]
        exact Option.noConfusion
    · intro hm
      rw [hl k, ht, ho]
      simp [mergedCell, mergedAbsent, hm]

/-- Witness of C16: in the merge of the sample states the cell at the key 2, in
the receiving state only, takes the merge-with-absent value 106 and keeps its
writers and properties. -/
theorem merge_second_pass_witness :
    sampleThis.wellFormed id ∧ sampleOther.wellFormed id ∧
    getOrDefault 2 sampleThis.cells = some ⟨2, 6, {11}, {0}⟩ ∧
    getOrDefault 2 sampleOther.cells = none ∧
    sampleMerger 6 none = some 106 ∧
    getOrDefault 2 (SymbolicMemoryState.merge sampleMerger id ∅ sampleThis
      sampleOther).2.cells = some ⟨2, 106, {11}, {0}⟩ ∧
    (SymbolicMemoryState.merge sampleMerger id ∅ sampleThis sampleOther).1 = true :=
  ⟨sampleThis_wellFormed, sampleOther_wellFormed, rfl, rfl, rfl,
    ((merge_second_pass sampleMerger id ∅ sampleThis sampleOther sampleThis_wellFormed
      sampleOther_wellFormed).2.2.2 2 ⟨2, 6, {11}, {0}⟩ rfl rfl).1 106 rfl⟩

theorem mem_compare_comm {SV : Type} (ops : ValueOps SV)
    (hsymm : ∀ a b, ops.eq a b = ops.eq b a) (a1 a2 v ov : SV) :
    mem_compare ops a1 v ov = mem_compare ops a2 ov v := by
  unfold mem_compare
  rw [hsymm v ov]
  cases ops.is_incomplete v <;> cases ops.is_incomplete ov <;> rfl

/-- C18: for well-formed memory states A and B (cells looked up by the key of
their address) and a symmetric expression equality, `A.equals(B)` and
`B.equals(A)` are the same. -/
theorem memory_equals_symmetric {SV : Type} (ops : ValueOps SV)
    (generateCellKey : SV → CellKey) (A B : SymbolicMemoryState SV)
    (hA : A.wellFormed generateCellKey) (hB : B.wellFormed generateCellKey)
    (hsymm : ∀ a b, ops.eq a b = ops.eq b a) :
    A.equals ops generateCellKey B = B.equals ops generateCellKey A := by
  have h1 := memory_equals_iff_aux ops generateCellKey A B hA hB
  have h2 := memory_equals_iff_aux ops generateCellKey B A hB hA
  have hiff : A.equals ops generateCellKey B = true ↔
      B.equals ops generateCellKey A = true := by
    rw [h1, h2]
    constructor
    · rintro ⟨c1, c2, c3⟩
      refine ⟨?_, c3, c2⟩
      intro k bc ac hb ha
      rw [mem_compare_comm ops hsymm bc.address ac.address]
      exact c1 k ac bc ha hb
    · rintro ⟨c1, c2, c3⟩
      refine ⟨?_, c3, c2⟩
      intro k ac bc ha hb
      rw [mem_compare_comm ops hsymm ac.address bc.address]
      exact c1 k bc ac hb ha
  cases hab : A.equals ops generateCellKey B with
  | true => exact (hiff.mp hab).symm
  | false =>
    cases hba : B.equals ops generateCellKey A with
    | true =>
      rw [hiff.mpr hba] at hab
      exact Bool.noConfusion hab
    | false => rfl

/-- Witness of C18: the two sample memory states, compared in both orders. -/
theorem memory_equals_symmetric_witness :
    sampleThis.wellFormed id ∧ sampleOther.wellFormed id ∧
    (∀ a b, sampleOps.eq a b = sampleOps.eq b a) ∧
    sampleThis.equals sampleOps id sampleOther =
      sampleOther.equals sampleOps id sampleThis :=
  ⟨sampleThis_wellFormed, sampleOther_wellFormed,
    fun a b => by simp [sampleOps, eq_comm],
    memory_equals_symmetric sampleOps id sampleThis sampleOther sampleThis_wellFormed
      sampleOther_wellFormed (fun a b => by simp [sampleOps, eq_comm])⟩

/-! ## The merge without a condition and the guarded read: theorems -/

/-- C15: for every symbolic state, every other state and every operator
context, `SymbolicState::merge(other, ops)` called without a condition ends in
the abort with the two states as they were; it does not return a result. -/
theorem merge_without_condition_aborts {SV Ops : Type} (this other : SymbolicState SV)
    (ops : Ops) :
    SymbolicState.merge this other ops = MergeOutcome.aborted this other ∧
    ∀ changed after, SymbolicState.merge this other ops ≠
      MergeOutcome.returned changed after := by
  constructor
  · rfl
  · intro changed after h
    exact MergeOutcome.noConfusion h

theorem inspect_register_effect_eq {SV : Type} (read_register : RegisterAccess SV)
    (this : SymbolicRegisterState SV) (rd : RegisterDescriptor) :
    this.inspect_register_effect read_register rd = read_register this rd := by
  unfold SymbolicRegisterState.inspect_register_effect
  rw [accessCreatesLocationsGuard_eq]
  rcases h : read_register this rd with ⟨v, after⟩
  cases v <;> simp [h]

theorem inspect_register_effect_value {SV : Type} (read_register : RegisterAccess SV)
    (this : SymbolicRegisterState SV) (rd : RegisterDescriptor) :
    (this.inspect_register_effect read_register rd).1 =
      this.inspect_register (fun state d => (read_register state d).1) rd := by
  rw [inspect_register_effect_eq]
  unfold SymbolicRegisterState.inspect_register
  rw [accessCreatesLocationsGuard_eq]
  cases h : (read_register this rd).1 <;> simp [h]

theorem sampleReader_eq_read_register (state : SymbolicRegisterState Nat)
    (rd : RegisterDescriptor) :
    sampleReader state rd =
      (SymbolicRegisterState.read_register sampleDefault state rd).1 := by
  unfold sampleReader SymbolicRegisterState.read_register
  cases state.registers_.flatten.find? (fun rp => decide (rp.desc = rd)) with
  | some rp => rfl
  | none =>
    cases state.accessCreatesLocations_ <;> rfl

/-- C14 fails on the code: the sample register state stores `eax`, `ebx` and the
instruction pointer, and its accesses create locations.  The call
`inspect_register(ecx)` returns the default value 100, not the absent value,
and the state has a slot for `ecx` afterwards. -/
theorem inspect_register_creates_slot :
    sampleRegs1.accessCreatesLocations_ = true ∧
    sampleRegs1.registers_.flatten.find? (fun rp => decide (rp.desc = sampleEcx)) = none ∧
    sampleRegs1.inspect_register_effect
        (SymbolicRegisterState.read_register sampleDefault) sampleEcx =
      (some 100, ⟨sampleRegs1.registers_ ++ [[⟨sampleEcx, 100⟩]], true⟩) ∧
    (sampleRegs1.inspect_register_effect
        (SymbolicRegisterState.read_register sampleDefault) sampleEcx).1 ≠ none ∧
    (sampleRegs1.inspect_register_effect
        (SymbolicRegisterState.read_register sampleDefault) sampleEcx).2.registers_ ≠
      sampleRegs1.registers_ := by
  refine ⟨rfl, rfl, rfl, ?_, ?_⟩
  · intro h
    exact Option.noConfusion h
  · intro h
    have hlen := congrArg List.length h
    revert hlen
    decide

/-! ## The run scan of the chunk iterator: theorems -/

theorem int64_wrap_of_inRange (x : Int) (h1 : INT64_MIN ≤ x) (h2 : x ≤ INT64_MAX) :
    int64_wrap x = x := by
  unfold int64_wrap
  unfold INT64_MIN at h1
  unfold INT64_MAX at h2
  omega

theorem scanLoop_steps {TN : Type} (rest : offset_map_t TN) :
    ∀ offset : Int, INT64_MIN ≤ offset → (∀ cell ∈ rest, offset < cell.1) →
      offsetsWellFormed rest →
      ∀ step ∈ (scanLoop offset rest).2,
        step.1 < step.2 ∧ step.1 < INT64_MAX ∧ int64_wrap (step.1 + 1) = step.1 + 1 := by
  induction rest with
  | nil =>
    intro offset _ _ _ step hstep
    simp [scanLoop] at hstep
  | cons cell rest ih =>
    obtain ⟨key, value⟩ := cell
    intro offset hmin hlt hwf step hstep
    have hk : offset < key := hlt (key, value) (List.mem_cons_self _ _)
    have hkmax : key ≤ INT64_MAX := (hwf.2 (key, value) (List.mem_cons_self _ _)).2
    have hfirst : offset < key ∧ offset < INT64_MAX ∧
        int64_wrap (offset + 1) = offset + 1 := by
      refine ⟨hk, lt_of_lt_of_le hk hkmax, ?_⟩
      apply int64_wrap_of_inRange
      · exact le_trans hmin (by omega)
      · have := lt_of_lt_of_le hk hkmax
        omega
    unfold scanLoop at hstep
    by_cases hne : key ≠ int64_wrap (offset + 1)
    · rw [if_pos hne] at hstep
      simp only [List.mem_singleton] at hstep
      rw [hstep]
      exact hfirst
    · rw [if_neg hne] at hstep
      simp only [List.mem_cons] at hstep
      rcases hstep with hstep | hstep
      · rw [hstep]
        exact hfirst
      · have hkey : key = offset + 1 := by
          rw [← hfirst.2.2]
          exact not_not.mp hne
        have hwf2 : offsetsWellFormed rest := by
          refine ⟨?_, fun c hc => hwf.2 c (List.mem_cons_of_mem _ hc)⟩
          have := hwf.1
          simp only [List.map_cons, List.pairwise_cons] at this
          exact this.2
        have hlt2 : ∀ c ∈ rest, int64_wrap (offset + 1) < c.1 := by
          intro c hc
          rw [hfirst.2.2, ← hkey]
          have := hwf.1
          simp only [List.map_cons, List.pairwise_cons] at this
          exact this.1 c.1 (List.mem_map_of_mem Prod.fst hc)
        refine ih (int64_wrap (offset + 1)) ?_ hlt2 hwf2 step hstep
        rw [hfirst.2.2]
        omega

/-- C20: for an offset map with strictly increasing `int64_t` keys and the scan
of `update_iter` started at any of its cells, each time the counter `offset`
is incremented its value before the increment is less than the key the cursor
`i` points to, hence less than the largest `int64_t`, and `++offset` does not
overflow. -/
theorem scan_increment_no_overflow {TN : Type} (offset : Int) (value : TN)
    (rest : offset_map_t TN) (hwf : offsetsWellFormed ((offset, value) :: rest)) :
    ∀ step ∈ (scanLoop offset rest).2,
      step.1 < step.2 ∧ step.1 < INT64_MAX ∧ int64_wrap (step.1 + 1) = step.1 + 1 := by
  have h1 := hwf.1
  simp only [List.map_cons, List.pairwise_cons] at h1
  apply scanLoop_steps rest offset (hwf.2 (offset, value) (List.mem_cons_self _ _)).1
  · intro cell hcell
    exact h1.1 cell.1 (List.mem_map_of_mem Prod.fst hcell)
  · exact ⟨h1.2, fun c hc => hwf.2 c (List.mem_cons_of_mem _ hc)⟩

/-- Witness of C20: an offset map whose last key is the largest `int64_t`.  The
counter is incremented twice, from `INT64_MAX - 2` and from `INT64_MAX - 1`. -/
theorem scan_increment_no_overflow_witness :
    offsetsWellFormed sampleOffsetsMax ∧
    (scanLoop (INT64_MAX - 2) [(INT64_MAX - 1, 51), (INT64_MAX, 52)]).2 =
      [(INT64_MAX - 2, INT64_MAX - 1), (INT64_MAX - 1, INT64_MAX)] ∧
    ∀ step ∈ (scanLoop (INT64_MAX - 2) [(INT64_MAX - 1, 51), (INT64_MAX, 52)]).2,
      step.1 < step.2 ∧ step.1 < INT64_MAX ∧ int64_wrap (step.1 + 1) = step.1 + 1 :=
  have hwf : offsetsWellFormed sampleOffsetsMax := by
    unfold offsetsWellFormed sampleOffsetsMax
    constructor
    · decide
    · decide
  ⟨hwf, by decide, scan_increment_no_overflow (INT64_MAX - 2) 50
    [(INT64_MAX - 1, 51), (INT64_MAX, 52)] hwf⟩

/-! ## The chunk iteration: lemmas -/

theorem scanLoop_suffix {TN : Type} (rest : offset_map_t TN) :
    ∀ offset : Int, ∃ run, rest = run ++ (scanLoop offset rest).1 := by
  induction rest with
  | nil => intro offset; exact ⟨[], rfl⟩
  | cons cell rest ih =>
    obtain ⟨key, value⟩ := cell
    intro offset
    unfold scanLoop
    by_cases hne : key ≠ int64_wrap (offset + 1)
    · rw [if_pos hne]
      exact ⟨[], rfl⟩
    · rw [if_neg hne]
      obtain ⟨run, hrun⟩ := ih (int64_wrap (offset + 1))
      refine ⟨(key, value) :: run, ?_⟩
      simp only [List.cons_append]
      rw [← hrun]

theorem chunk_cells_eq {B TN : Type} (base : B) (cells exit : offset_map_t TN) :
    (Chunk.mk (cells ++ exit) exit base).cells = cells := by
  unfold Chunk.cells
  simp

theorem begin_nil {B TN : Type} [Inhabited B] :
    chunk_iterator.begin ([] : section_map_t B TN) = some chunk_iterator.sentinel := rfl

theorem begin_cons {B TN : Type} [Inhabited B] (base : B) (first : Int × TN)
    (rest : offset_map_t TN) (after : section_map_t B TN) :
    chunk_iterator.begin ((base, first :: rest) :: after) =
      some (chunk_iterator.standingAt base [] first rest after) := rfl

theorem increment_standingAt_inside {B TN : Type} [Inhabited B] (base : B)
    (pre : offset_map_t TN) (first : Int × TN) (rest run : offset_map_t TN)
    (next : Int × TN) (more : offset_map_t TN) (after : section_map_t B TN)
    (hexit : (scanLoop first.1 rest).1 = next :: more)
    (hrun : rest = run ++ next :: more) :
    (chunk_iterator.standingAt base pre first rest after).increment =
      some (chunk_iterator.standingAt base (pre ++ first :: run) next more after) := by
  unfold chunk_iterator.standingAt chunk_iterator.increment
  simp only [hexit, chunk_iterator.update_iter]
  rw [hrun]
  simp

theorem increment_standingAt_last {B TN : Type} [Inhabited B] (base : B)
    (pre : offset_map_t TN) (first : Int × TN) (rest : offset_map_t TN)
    (hexit : (scanLoop first.1 rest).1 = []) :
    (chunk_iterator.standingAt base pre first rest ([] : section_map_t B TN)).increment =
      some chunk_iterator.sentinel := by
  unfold chunk_iterator.standingAt chunk_iterator.increment
  simp only [hexit]
  rfl

theorem increment_standingAt_next {B TN : Type} [Inhabited B] (base : B)
    (pre : offset_map_t TN) (first : Int × TN) (rest : offset_map_t TN)
    (base2 : B) (first2 : Int × TN) (rest2 : offset_map_t TN) (after : section_map_t B TN)
    (hexit : (scanLoop first.1 rest).1 = []) :
    (chunk_iterator.standingAt base pre first rest
        ((base2, first2 :: rest2) :: after)).increment =
      some (chunk_iterator.standingAt base2 [] first2 rest2 after) := by
  unfold chunk_iterator.standingAt chunk_iterator.increment
  simp only [hexit]
  rfl

theorem increment_sentinel {B TN : Type} [Inhabited B] :
    (chunk_iterator.sentinel : chunk_iterator B TN).increment = none := rfl

theorem slotCount_cons {B TN : Type} (s : B × offset_map_t TN) (after : section_map_t B TN) :
    slotCount (s :: after) = s.2.length + slotCount after := by
  simp [slotCount]

theorem allSlots_cons {B TN : Type} (s : B × offset_map_t TN) (after : section_map_t B TN) :
    allSlots (s :: after) = s.2.map (fun cell => (s.1, cell)) ++ allSlots after := by
  simp [allSlots]

theorem standingAt_chunk_cells {B TN : Type} (base : B) (pre : offset_map_t TN)
    (first : Int × TN) (rest run : offset_map_t TN) (after : section_map_t B TN)
    (hrun : rest = run ++ (scanLoop first.1 rest).1) :
    (chunk_iterator.standingAt base pre first rest after).chunk.cells = first :: run ∧
    (chunk_iterator.standingAt base pre first rest after).chunk.symbolic = base := by
  unfold chunk_iterator.standingAt
  refine ⟨?_, rfl⟩
  simp only
  have h : first :: rest = (first :: run) ++ (scanLoop first.1 rest).1 := by
    rw [List.cons_append, ← hrun]
  rw [h]
  exact chunk_cells_eq base (first :: run) (scanLoop first.1 rest).1

theorem walk_partition {B TN : Type} [Inhabited B] :
    ∀ (N : Nat) (base : B) (pre : offset_map_t TN) (first : Int × TN)
      (rest : offset_map_t TN) (after : section_map_t B TN),
      (∀ s ∈ after, s.2 ≠ []) → rest.length + slotCount after < N →
      ∃ n, n ≤ 1 + rest.length + slotCount after ∧
        (chunk_iterator.standingAt base pre first rest after).advance n =
          some chunk_iterator.sentinel ∧
        (∀ c ∈ (chunk_iterator.standingAt base pre first rest after).produced n,
          c.cells ≠ []) ∧
        ((chunk_iterator.standingAt base pre first rest after).produced n).flatMap
            Chunk.slots =
          (first :: rest).map (fun cell => (base, cell)) ++ allSlots after := by
  intro N
  induction N with
  | zero => intro _ _ _ _ _ _ h; exact absurd h (Nat.not_lt_zero _)
  | succ N ih =>
    intro base pre first rest after hne hN
    obtain ⟨run, hrun⟩ := scanLoop_suffix rest first.1
    obtain ⟨hcells, hsym⟩ := standingAt_chunk_cells base pre first rest run after hrun
    have hslots : (chunk_iterator.standingAt base pre first rest after).chunk.slots =
        (first :: run).map (fun cell => (base, cell)) := by
      unfold Chunk.slots
      rw [hcells, hsym]
    cases hexit : (scanLoop first.1 rest).1 with
    | cons next more =>
      rw [hexit] at hrun
      have hlen : rest.length = run.length + (more.length + 1) := by
        rw [hrun]
        simp
      have hinc := increment_standingAt_inside base pre first rest run next more after
        hexit hrun
      obtain ⟨n, h1, h2, h3, h4⟩ := ih base (pre ++ first :: run) next more after hne
        (by omega)
      refine ⟨n + 1, by omega, ?_, ?_, ?_⟩
      · simp only [chunk_iterator.advance, hinc]
        exact h2
      · intro c hc
        simp only [chunk_iterator.produced, hinc, List.mem_cons] at hc
        rcases hc with hc | hc
        · rw [hc, hcells]
          exact List.cons_ne_nil _ _
        · exact h3 c hc
      · simp only [chunk_iterator.produced, hinc, List.flatMap_cons, hslots, h4]
        rw [hrun]
        simp
    | nil =>
      rw [hexit] at hrun
      simp only [List.append_nil] at hrun
      cases after with
      | nil =>
        have hinc := increment_standingAt_last (B := B) base pre first rest hexit
        refine ⟨1, by omega, ?_, ?_, ?_⟩
        · simp only [chunk_iterator.advance, hinc]
        · intro c hc
          simp only [chunk_iterator.produced, hinc, List.mem_singleton] at hc
          rw [hc, hcells]
          exact List.cons_ne_nil _ _
        · simp only [chunk_iterator.produced, hinc, List.flatMap_cons, List.flatMap_nil,
            hslots, List.append_nil]
          rw [hrun]
          simp [allSlots]
      | cons s after2 =>
        obtain ⟨base2, om2⟩ := s
        have hom2 : om2 ≠ [] := hne (base2, om2) (List.mem_cons_self _ _)
        cases om2 with
        | nil => exact absurd rfl hom2
        | cons first2 rest2 =>
          have hinc := increment_standingAt_next base pre first rest base2 first2 rest2
            after2 hexit
          rw [slotCount_cons] at hN
          simp only [List.length_cons] at hN
          obtain ⟨n, h1, h2, h3, h4⟩ := ih base2 [] first2 rest2 after2
            (fun s hs => hne s (List.mem_cons_of_mem _ hs)) (by omega)
          refine ⟨n + 1, ?_, ?_, ?_, ?_⟩
          · rw [slotCount_cons]
            simp only [List.length_cons]
            omega
          · simp only [chunk_iterator.advance, hinc]
            exact h2
          · intro c hc
            simp only [chunk_iterator.produced, hinc, List.mem_cons] at hc
            rcases hc with hc | hc
            · rw [hc, hcells]
              exact List.cons_ne_nil _ _
            · exact h3 c hc
          · simp only [chunk_iterator.produced, hinc, List.flatMap_cons, hslots, h4]
            rw [hrun, allSlots_cons]

theorem begin_partition {B TN : Type} [Inhabited B]
    (section_map : section_map_t B TN) (hne : ∀ s ∈ section_map, s.2 ≠ []) :
    ∃ start n, chunk_iterator.begin section_map = some start ∧
      n ≤ slotCount section_map ∧
      start.advance n = some chunk_iterator.sentinel ∧
      (∀ c ∈ start.produced n, c.cells ≠ []) ∧
      (start.produced n).flatMap Chunk.slots = allSlots section_map := by
  cases section_map with
  | nil =>
    exact ⟨chunk_iterator.sentinel, 0, rfl, Nat.le_refl _, rfl,
      fun c hc => by simp [chunk_iterator.produced] at hc, rfl⟩
  | cons s after =>
    obtain ⟨base, om⟩ := s
    have hom : om ≠ [] := hne (base, om) (List.mem_cons_self _ _)
    cases om with
    | nil => exact absurd rfl hom
    | cons first rest =>
      obtain ⟨n, h1, h2, h3, h4⟩ := walk_partition (rest.length + slotCount after + 1)
        base [] first rest after (fun s hs => hne s (List.mem_cons_of_mem _ hs))
        (Nat.lt_succ_self _)
      refine ⟨chunk_iterator.standingAt base [] first rest after, n, rfl, ?_, h2, h3, ?_⟩
      · rw [slotCount_cons]
        simp only [List.length_cons]
        omega
      · rw [h4, allSlots_cons]

/-- C17: for every section map in which every base has at least one offset, the
iterator started at the first offset of the first base reaches the sentinel
with the cleared chunk after `n` calls of `increment`, with `n` at most the
number of slots; none of the calls dereferences an end iterator; every chunk
produced is non-empty; the cells of the chunks, each with the base of its
chunk and in the order produced, are the slots of the map in map order; and
the chunks have as many cells together as the map has slots. -/
theorem chunk_iteration_partition {B TN : Type} [Inhabited B]
    (section_map : section_map_t B TN) (hne : ∀ s ∈ section_map, s.2 ≠ []) :
    ∃ start n, chunk_iterator.begin section_map = some start ∧
      n ≤ slotCount section_map ∧
      start.advance n = some chunk_iterator.sentinel ∧
      (∀ c ∈ start.produced n, c.cells ≠ []) ∧
      (start.produced n).flatMap Chunk.slots = allSlots section_map ∧
      ((start.produced n).map (fun c => c.cells.length)).sum = slotCount section_map := by
  obtain ⟨start, n, h1, h2, h3, h4, h5⟩ := begin_partition section_map hne
  refine ⟨start, n, h1, h2, h3, h4, h5, ?_⟩
  have hlen := congrArg List.length h5
  have hall : (allSlots section_map).length = slotCount section_map := by
    unfold allSlots slotCount
    rw [List.length_flatMap]
    congr 1
    apply List.map_congr_left
    intro s _
    simp
  rw [hall, List.length_flatMap] at hlen
  rw [← hlen]
  congr 1
  apply List.map_congr_left
  intro c _
  simp [Chunk.slots]

/-- Witness of C17: the section map with the offsets 0, 1, 3, 4 of one base. -/
theorem chunk_iteration_partition_witness :
    (∀ s ∈ sampleSections2, s.2 ≠ []) ∧
    ∃ start n, chunk_iterator.begin sampleSections2 = some start ∧
      n ≤ slotCount sampleSections2 ∧
      start.advance n = some chunk_iterator.sentinel ∧
      (∀ c ∈ start.produced n, c.cells ≠ []) ∧
      (start.produced n).flatMap Chunk.slots = allSlots sampleSections2 ∧
      ((start.produced n).map (fun c => c.cells.length)).sum =
        slotCount sampleSections2 :=
  ⟨by decide, chunk_iteration_partition sampleSections2 (by decide)⟩

theorem offsetsWellFormed_suffix {TN : Type} (pre offsets : offset_map_t TN)
    (h : offsetsWellFormed (pre ++ offsets)) : offsetsWellFormed offsets := by
  refine ⟨?_, fun c hc => h.2 c (List.mem_append_right _ hc)⟩
  have := h.1
  rw [List.map_append, List.pairwise_append] at this
  exact this.2.1

theorem offsetsWellFormed_cons {TN : Type} (first : Int × TN) (rest : offset_map_t TN)
    (h : offsetsWellFormed (first :: rest)) :
    INT64_MIN ≤ first.1 ∧ (∀ c ∈ rest, first.1 < c.1) ∧ offsetsWellFormed rest := by
  have h1 := h.1
  simp only [List.map_cons, List.pairwise_cons] at h1
  exact ⟨(h.2 first (List.mem_cons_self _ _)).1,
    fun c hc => h1.1 c.1 (List.mem_map_of_mem Prod.fst hc),
    h1.2, fun c hc => h.2 c (List.mem_cons_of_mem _ hc)⟩

theorem scanLoop_run {TN : Type} (rest : offset_map_t TN) :
    ∀ offset : Int, INT64_MIN ≤ offset → (∀ c ∈ rest, offset < c.1) →
      offsetsWellFormed rest →
      ∃ run, rest = run ++ (scanLoop offset rest).1 ∧
        List.Chain (fun a b : Int => b = a + 1) offset (run.map Prod.fst) ∧
        ∀ e ∈ (scanLoop offset rest).1, offset + 1 < e.1 ∧ ∀ c ∈ run, c.1 + 1 < e.1 := by
  induction rest with
  | nil =>
    intro offset _ _ _
    exact ⟨[], rfl, List.Chain.nil, fun e he => by simp [scanLoop] at he⟩
  | cons cell rest ih =>
    obtain ⟨key, value⟩ := cell
    intro offset hmin hlt hwf
    have hk : offset < key := hlt (key, value) (List.mem_cons_self _ _)
    have hkmax : key ≤ INT64_MAX := (hwf.2 (key, value) (List.mem_cons_self _ _)).2
    have hwrap : int64_wrap (offset + 1) = offset + 1 := by
      apply int64_wrap_of_inRange
      · exact le_trans hmin (by omega)
      · have := lt_of_lt_of_le hk hkmax
        omega
    obtain ⟨_, hrest, hwf2⟩ := offsetsWellFormed_cons (key, value) rest hwf
    unfold scanLoop
    by_cases hne : key ≠ int64_wrap (offset + 1)
    · rw [if_pos hne]
      refine ⟨[], rfl, List.Chain.nil, ?_⟩
      intro e he
      refine ⟨?_, fun c hc => by simp at hc⟩
      rw [hwrap] at hne
      simp only [List.mem_cons] at he
      rcases he with he | he
      · rw [he]
        simp only
        omega
      · have := hrest e he
        simp only at this
        omega
    · rw [if_neg hne]
      have hkey : key = offset + 1 := by
        rw [← hwrap]
        exact not_not.mp hne
      rw [hwrap]
      have hmin2 : INT64_MIN ≤ offset + 1 := by omega
      have hlt2 : ∀ c ∈ rest, offset + 1 < c.1 := by
        intro c hc
        have := hrest c hc
        simp only at this
        omega
      obtain ⟨run, h1, h2, h3⟩ := ih (offset + 1) hmin2 hlt2 hwf2
      refine ⟨(key, value) :: run, ?_, ?_, ?_⟩
      · simp only [List.cons_append]
        rw [← h1]
      · simp only [List.map_cons]
        rw [hkey]
        exact List.Chain.cons rfl h2
      · intro e he
        obtain ⟨h4, h5⟩ := h3 e he
        refine ⟨by omega, ?_⟩
        intro c hc
        simp only [List.mem_cons] at hc
        rcases hc with hc | hc
        · rw [hc]
          simp only
          omega
        · exact h5 c hc

theorem chain_succ_bounds (l : List Int) :
    ∀ a : Int, List.Chain (fun a b : Int => b = a + 1) a l →
      (∀ x ∈ l, a < x) ∧ (∀ x ∈ (a :: l).getLast?, ∀ y ∈ a :: l, y ≤ x) := by
  induction l with
  | nil =>
    intro a _
    refine ⟨fun x hx => by simp at hx, ?_⟩
    intro x hx y hy
    simp only [List.getLast?_singleton, Option.mem_def, Option.some.injEq] at hx
    simp only [List.mem_singleton] at hy
    omega
  | cons b l ih =>
    intro a h
    rw [List.chain_cons] at h
    obtain ⟨hb, hl⟩ := h
    obtain ⟨i1, i2⟩ := ih b hl
    constructor
    · intro x hx
      simp only [List.mem_cons] at hx
      rcases hx with hx | hx
      · omega
      · have := i1 x hx
        omega
    · intro x hx y hy
      rw [List.getLast?_cons_cons] at hx
      simp only [List.mem_cons] at hy
      rcases hy with hy | hy
      · have := i2 x hx b (List.mem_cons_self _ _)
        omega
      · exact i2 x hx y (by simpa using hy)

theorem standingAt_chunk_run {B TN : Type} (base : B) (pre : offset_map_t TN)
    (first : Int × TN) (rest : offset_map_t TN) (after : section_map_t B TN)
    (hwf : offsetsWellFormed (pre ++ first :: rest))
    (hgap : ∀ p ∈ pre, p.1 + 1 < first.1) :
    (chunk_iterator.standingAt base pre first rest after).chunk.cells ≠ [] ∧
    List.IsInfix (chunk_iterator.standingAt base pre first rest after).chunk.cells
      (pre ++ first :: rest) ∧
    List.Chain' (fun a b : Int => b = a + 1)
      ((chunk_iterator.standingAt base pre first rest after).chunk.cells.map Prod.fst) ∧
    (∀ c ∈ (chunk_iterator.standingAt base pre first rest after).chunk.cells.head?,
      c.1 - 1 ∉ (pre ++ first :: rest).map Prod.fst) ∧
    (∀ c ∈ (chunk_iterator.standingAt base pre first rest after).chunk.cells.getLast?,
      c.1 + 1 ∉ (pre ++ first :: rest).map Prod.fst) := by
  obtain ⟨hmin, hlt, hwf2⟩ := offsetsWellFormed_cons first rest
    (offsetsWellFormed_suffix pre _ hwf)
  obtain ⟨run, hrun, hchain, hexit⟩ := scanLoop_run rest first.1 hmin hlt hwf2
  obtain ⟨hcells, _⟩ := standingAt_chunk_cells base pre first rest run after hrun
  obtain ⟨hgt, hlast⟩ := chain_succ_bounds (run.map Prod.fst) first.1 hchain
  rw [hcells]
  have hkeys : ∀ k ∈ (pre ++ first :: rest).map Prod.fst,
      (∃ p ∈ pre, p.1 = k) ∨ k = first.1 ∨ (∃ c ∈ run, c.1 = k) ∨
        (∃ e ∈ (scanLoop first.1 rest).1, e.1 = k) := by
    intro k hk
    rw [hrun] at hk
    simp only [List.map_append, List.map_cons, List.mem_append, List.mem_cons,
      List.mem_map] at hk
    rcases hk with ⟨p, hp, rfl⟩ | rfl | ⟨c, hc, rfl⟩ | ⟨e, he, rfl⟩
    · exact Or.inl ⟨p, hp, rfl⟩
    · exact Or.inr (Or.inl rfl)
    · exact Or.inr (Or.inr (Or.inl ⟨c, hc, rfl⟩))
    · exact Or.inr (Or.inr (Or.inr ⟨e, he, rfl⟩))
  refine ⟨List.cons_ne_nil _ _, ?_, hchain, ?_, ?_⟩
  · refine ⟨pre, (scanLoop first.1 rest).1, ?_⟩
    rw [List.append_assoc, List.cons_append, ← hrun]
  · intro c hc hmem
    simp only [List.head?_cons, Option.mem_def, Option.some.injEq] at hc
    subst hc
    rcases hkeys _ hmem with ⟨p, hp, h⟩ | h | ⟨c, hc, h⟩ | ⟨e, he, h⟩
    · have := hgap p hp
      omega
    · omega
    · have := hgt c.1 (List.mem_map_of_mem Prod.fst hc)
      omega
    · have := (hexit e he).1
      omega
  · intro c hc hmem
    have hcmem : c ∈ first :: run := List.mem_of_mem_getLast? hc
    have hclast : c.1 ∈ (first.1 :: run.map Prod.fst).getLast? := by
      have : (first.1 :: run.map Prod.fst) = (first :: run).map Prod.fst := rfl
      rw [this, List.getLast?_map]
      simp only [Option.mem_def] at hc
      simp [hc]
    have hmax := hlast c.1 hclast
    rcases hkeys _ hmem with ⟨p, hp, h⟩ | h | ⟨c2, hc2, h⟩ | ⟨e, he, h⟩
    · have h1 := hgap p hp
      have h2 := hmax first.1 (List.mem_cons_self _ _)
      omega
    · have h2 := hmax first.1 (List.mem_cons_self _ _)
      omega
    · have h2 := hmax c2.1 (List.mem_cons_of_mem _ (List.mem_map_of_mem Prod.fst hc2))
      omega
    · simp only [List.mem_cons] at hcmem
      rcases hcmem with hcm | hcm
      · have := (hexit e he).1
        rw [hcm] at h
        omega
      · have := (hexit e he).2 c hcm
        omega

theorem increment_standingAt_empty {B TN : Type} [Inhabited B] (base : B)
    (pre : offset_map_t TN) (first : Int × TN) (rest : offset_map_t TN)
    (base2 : B) (after : section_map_t B TN)
    (hexit : (scanLoop first.1 rest).1 = []) :
    (chunk_iterator.standingAt base pre first rest ((base2, []) :: after)).increment =
      none := by
  unfold chunk_iterator.standingAt chunk_iterator.increment
  simp only [hexit]
  rfl

theorem advance_sentinel {B TN : Type} [Inhabited B] (n : Nat) (it : chunk_iterator B TN)
    (h : (chunk_iterator.sentinel : chunk_iterator B TN).advance n = some it) :
    it = chunk_iterator.sentinel := by
  cases n with
  | zero =>
    simp only [chunk_iterator.advance, Option.some.injEq] at h
    exact h.symm
  | succ n =>
    simp only [chunk_iterator.advance, increment_sentinel] at h
    exact Option.noConfusion h

theorem advance_standingAt {B TN : Type} [Inhabited B] (section_map : section_map_t B TN)
    (hwf : ∀ s ∈ section_map, offsetsWellFormed s.2) :
    ∀ (n : Nat) (base : B) (pre : offset_map_t TN) (first : Int × TN)
      (rest : offset_map_t TN) (after : section_map_t B TN) (it : chunk_iterator B TN),
      (∀ s ∈ (base, pre ++ first :: rest) :: after, s ∈ section_map) →
      (∀ p ∈ pre, p.1 + 1 < first.1) →
      (chunk_iterator.standingAt base pre first rest after).advance n = some it →
      it = chunk_iterator.sentinel ∨
        ∃ base2 pre2 first2 rest2 after2,
          it = chunk_iterator.standingAt base2 pre2 first2 rest2 after2 ∧
          (base2, pre2 ++ first2 :: rest2) ∈ section_map ∧
          ∀ p ∈ pre2, p.1 + 1 < first2.1 := by
  intro n
  induction n with
  | zero =>
    intro base pre first rest after it hmem hgap h
    simp only [chunk_iterator.advance, Option.some.injEq] at h
    exact Or.inr ⟨base, pre, first, rest, after, h.symm,
      hmem _ (List.mem_cons_self _ _), hgap⟩
  | succ n ih =>
    intro base pre first rest after it hmem hgap h
    have hsec := hwf _ (hmem _ (List.mem_cons_self _ _))
    simp only at hsec
    obtain ⟨hmin, hlt, hwf2⟩ := offsetsWellFormed_cons first rest
      (offsetsWellFormed_suffix pre _ hsec)
    obtain ⟨run, hrun, _, hexitb⟩ := scanLoop_run rest first.1 hmin hlt hwf2
    cases hexit : (scanLoop first.1 rest).1 with
    | cons next more =>
      rw [hexit] at hrun hexitb
      have hinc := increment_standingAt_inside base pre first rest run next more after
        hexit hrun
      simp only [chunk_iterator.advance, hinc] at h
      refine ih base (pre ++ first :: run) next more after it ?_ ?_ h
      · intro s hs
        apply hmem
        simp only [List.mem_cons] at hs ⊢
        rcases hs with hs | hs
        · left
          rw [hs, hrun]
          simp
        · exact Or.inr hs
      · intro p hp
        obtain ⟨h1, h2⟩ := hexitb next (List.mem_cons_self _ _)
        simp only [List.mem_append, List.mem_cons] at hp
        rcases hp with hp | hp | hp
        · have := hgap p hp
          omega
        · rw [hp]
          exact h1
        · exact h2 p hp
    | nil =>
      cases after with
      | nil =>
        have hinc := increment_standingAt_last (B := B) base pre first rest hexit
        simp only [chunk_iterator.advance, hinc] at h
        exact Or.inl (advance_sentinel n it h)
      | cons s after2 =>
        obtain ⟨base2, om2⟩ := s
        cases om2 with
        | nil =>
          have hinc := increment_standingAt_empty base pre first rest base2 after2 hexit
          simp only [chunk_iterator.advance, hinc] at h
          exact Option.noConfusion h
        | cons first2 rest2 =>
          have hinc := increment_standingAt_next base pre first rest base2 first2 rest2
            after2 hexit
          simp only [chunk_iterator.advance, hinc] at h
          refine ih base2 [] first2 rest2 after2 it ?_ ?_ h
          · intro s hs
            apply hmem
            exact List.mem_cons_of_mem _ (by simpa using hs)
          · intro p hp
            simp at hp

/-- C11: for a section map whose offset maps have strictly increasing `int64_t`
keys, every chunk the iterator stands for before it reaches the sentinel lies
in the section of its base, is non-empty, has strictly consecutive offsets
(each one greater than the previous), and is maximal: the offset just before
its first cell and the offset just after its last cell are not keys of that
section.  The slots 0, 1, 2, 3 of one base give one chunk of four cells, after
which the iterator is the sentinel; the slots 0, 1, 3, 4 give the chunk of 0
and 1, then the chunk of 3 and 4, then the sentinel. -/
theorem chunk_iteration_maximal_runs {B TN : Type} [Inhabited B]
    (section_map : section_map_t B TN)
    (hwf : ∀ s ∈ section_map, offsetsWellFormed s.2) :
    (∀ start n it, chunk_iterator.begin section_map = some start →
      start.advance n = some it → it ≠ chunk_iterator.sentinel →
      ∃ offsets, (it.chunk.symbolic, offsets) ∈ section_map ∧
        it.chunk.cells ≠ [] ∧
        List.IsInfix it.chunk.cells offsets ∧
        List.Chain' (fun a b : Int => b = a + 1) (it.chunk.cells.map Prod.fst) ∧
        (∀ c ∈ it.chunk.cells.head?, c.1 - 1 ∉ offsets.map Prod.fst) ∧
        (∀ c ∈ it.chunk.cells.getLast?, c.1 + 1 ∉ offsets.map Prod.fst)) ∧
    (∀ (base : B) (v0 v1 v2 v3 : TN), ∃ start,
      chunk_iterator.begin [(base, [(0, v0), (1, v1), (2, v2), (3, v3)])] = some start ∧
      start.chunk.cells = [(0, v0), (1, v1), (2, v2), (3, v3)] ∧
      start.increment = some chunk_iterator.sentinel) ∧
    (∀ (base : B) (v0 v1 v3 v4 : TN), ∃ start second,
      chunk_iterator.begin [(base, [(0, v0), (1, v1), (3, v3), (4, v4)])] = some start ∧
      start.chunk.cells = [(0, v0), (1, v1)] ∧
      start.increment = some second ∧
      second.chunk.cells = [(3, v3), (4, v4)] ∧
      second.increment = some chunk_iterator.sentinel) := by
  refine ⟨?_, ?_, ?_⟩
  · intro start n it hbegin hadv hns
    cases section_map with
    | nil =>
      rw [begin_nil] at hbegin
      cases hbegin
      exact absurd (advance_sentinel n it hadv) hns
    | cons s after =>
      obtain ⟨base, om⟩ := s
      cases om with
      | nil => exact Option.noConfusion hbegin
      | cons first rest =>
        rw [begin_cons] at hbegin
        cases hbegin
        rcases advance_standingAt _ hwf n base [] first rest after it
            (fun s hs => by simpa using hs) (fun p hp => by simp at hp) hadv with
          h | ⟨base2, pre2, first2, rest2, after2, h1, h2, h3⟩
        · exact absurd h hns
        · have hsec := hwf _ h2
          simp only at hsec
          obtain ⟨r1, r2, r3, r4, r5⟩ := standingAt_chunk_run base2 pre2 first2 rest2
            after2 hsec h3
          rw [h1]
          exact ⟨pre2 ++ first2 :: rest2, h2, r1, r2, r3, r4, r5⟩
  · intro base v0 v1 v2 v3
    exact ⟨_, rfl, rfl, rfl⟩
  · intro base v0 v1 v3 v4
    exact ⟨_, _, rfl, rfl, rfl, rfl, rfl⟩

/-- Witness of C11: in the section map with the offsets 0, 1, 3, 4 of the base 7
the iterator stands for the chunk of 3 and 4 after one call of `increment`. -/
theorem chunk_iteration_maximal_runs_witness :
    (∀ s ∈ sampleSections2, offsetsWellFormed s.2) ∧
    ∃ start it, chunk_iterator.begin sampleSections2 = some start ∧
      start.advance 1 = some it ∧ it.chunk.cells = [(3, 53), (4, 54)] ∧
      ∃ offsets, (it.chunk.symbolic, offsets) ∈ sampleSections2 ∧
        it.chunk.cells ≠ [] ∧
        List.IsInfix it.chunk.cells offsets ∧
        List.Chain' (fun a b : Int => b = a + 1) (it.chunk.cells.map Prod.fst) ∧
        (∀ c ∈ it.chunk.cells.head?, c.1 - 1 ∉ offsets.map Prod.fst) ∧
        (∀ c ∈ it.chunk.cells.getLast?, c.1 + 1 ∉ offsets.map Prod.fst) :=
  have hwf : ∀ s ∈ sampleSections2, offsetsWellFormed s.2 := by
    intro s hs
    simp only [sampleSections2, List.mem_singleton] at hs
    rw [hs]
    unfold offsetsWellFormed
    constructor
    · decide
    · decide
  ⟨hwf, _, _, rfl, rfl, rfl,
    (chunk_iteration_maximal_runs sampleSections2 hwf).1 _ 1 _ rfl rfl
      (fun h => by
        have := congrArg (fun it => it.section_iter.length) h
        revert this
        decide)⟩

/-! ## The constructor of the chunker: lemmas -/

theorem mapFind_mapInsert {K V : Type} [LinearOrder K] (key j : K) (value : V)
    (m : List (K × V)) :
    mapFind j (mapInsert key value m) = if j = key then some value else mapFind j m := by
  induction m with
  | nil =>
    by_cases h : j = key
    · simp [mapInsert, mapFind, h]
    · have h2 : key ≠ j := fun e => h e.symm
      simp [mapInsert, mapFind, h, h2]
  | cons kv rest ih =>
    obtain ⟨k, v⟩ := kv
    unfold mapInsert
    by_cases h1 : key < k
    · rw [if_pos h1]
      by_cases h : j = key
      · simp [mapFind, h]
      · have h2 : key ≠ j := fun e => h e.symm
        simp [mapFind, h, h2]
    · rw [if_neg h1]
      by_cases h2 : key = k
      · rw [if_pos h2]
        by_cases h : j = key
        · simp [mapFind, h]
        · have h3 : key ≠ j := fun e => h e.symm
          have h4 : k ≠ j := fun e => h3 (h2.trans e)
          simp [mapFind, h, h3, h4]
      · rw [if_neg h2]
        by_cases h : j = key
        · subst h
          have h3 : k ≠ j := fun e => h2 e.symm
          simp only [mapFind, h3, if_false, ih, if_true]
        · simp only [mapFind, ih, h, if_false]

theorem mem_mapInsert {K V : Type} [LinearOrder K] (key : K) (value : V)
    (m : List (K × V)) (kv : K × V) (h : kv ∈ mapInsert key value m) :
    kv = (key, value) ∨ kv ∈ m := by
  induction m with
  | nil => simpa [mapInsert] using h
  | cons kv0 rest ih =>
    obtain ⟨k, v⟩ := kv0
    unfold mapInsert at h
    by_cases h1 : key < k
    · rw [if_pos h1] at h
      simp only [List.mem_cons] at h ⊢
      rcases h with h | h | h
      · exact Or.inl h
      · exact Or.inr (Or.inl h)
      · exact Or.inr (Or.inr h)
    · rw [if_neg h1] at h
      by_cases h2 : key = k
      · rw [if_pos h2] at h
        simp only [List.mem_cons] at h ⊢
        rcases h with h | h
        · exact Or.inl h
        · exact Or.inr (Or.inr h)
      · rw [if_neg h2] at h
        simp only [List.mem_cons] at h ⊢
        rcases h with h | h
        · exact Or.inr (Or.inl h)
        · rcases ih h with h | h
          · exact Or.inl h
          · exact Or.inr (Or.inr h)

theorem mapInsert_ne_nil {K V : Type} [LinearOrder K] (key : K) (value : V)
    (m : List (K × V)) : mapInsert key value m ≠ [] := by
  cases m with
  | nil => simp [mapInsert]
  | cons kv rest =>
    obtain ⟨k, v⟩ := kv
    unfold mapInsert
    by_cases h1 : key < k
    · simp [h1]
    · by_cases h2 : key = k
      · simp [h1, h2]
      · simp [h1, h2]

theorem slotValue_insert {B TN : Type} [LinearOrder B] (section_map : section_map_t B TN)
    (var : B) (offset : Int) (value : TN) (var2 : B) (offset2 : Int) :
    slotValue
        (mapInsert var
          (mapInsert offset value
            (match mapFind var section_map with
              | some found => found
              | none => []))
          section_map) var2 offset2 =
      if var2 = var ∧ offset2 = offset then some value
      else slotValue section_map var2 offset2 := by
  unfold slotValue
  rw [mapFind_mapInsert]
  by_cases hv : var2 = var
  · subst hv
    simp only [if_true, true_and, mapFind_mapInsert]
    by_cases ho : offset2 = offset
    · simp [ho]
    · simp only [ho, if_false]
      cases mapFind var2 section_map <;> simp [mapFind]
  · simp [hv]

theorem storeSlot_of_none {SV TN B : Type} [LinearOrder B] (eng : ExprEngine SV TN B)
    (acc : CellMapChunks B TN) (var : B) (offset : Int) (value : TN)
    (hf : mapFind offset (match mapFind var acc.section_map with
        | some found => found
        | none => []) = none) :
    storeSlot eng acc var offset value =
      ⟨mapInsert var (mapInsert offset value (match mapFind var acc.section_map with
          | some found => found
          | none => [])) acc.section_map, acc.created⟩ := by
  simp only [storeSlot, hf]

theorem storeSlot_of_some {SV TN B : Type} [LinearOrder B] (eng : ExprEngine SV TN B)
    (acc : CellMapChunks B TN) (var : B) (offset : Int) (value last_value : TN)
    (hf : mapFind offset (match mapFind var acc.section_map with
        | some found => found
        | none => []) = some last_value) :
    storeSlot eng acc var offset value =
      ⟨mapInsert var
          (mapInsert offset
            (eng.create_ite (max (eng.nBits last_value) (eng.nBits value))
              (eng.createVariable 1 acc.created) value last_value)
            (match mapFind var acc.section_map with
              | some found => found
              | none => [])) acc.section_map,
        acc.created + 1⟩ := by
  simp only [storeSlot, hf]

theorem storeSlot_spec {SV TN B : Type} [LinearOrder B] (eng : ExprEngine SV TN B)
    (acc : CellMapChunks B TN) (var : B) (offset : Int) (value : TN) :
    (∀ prior, slotValue acc.section_map var offset = some prior →
      slotValue (storeSlot eng acc var offset value).section_map var offset =
        some (eng.create_ite (max (eng.nBits prior) (eng.nBits value))
          (eng.createVariable 1 acc.created) value prior) ∧
      (storeSlot eng acc var offset value).created = acc.created + 1) ∧
    (slotValue acc.section_map var offset = none →
      slotValue (storeSlot eng acc var offset value).section_map var offset = some value ∧
      (storeSlot eng acc var offset value).created = acc.created) ∧
    (∀ var2 offset2, ¬ (var2 = var ∧ offset2 = offset) →
      slotValue (storeSlot eng acc var offset value).section_map var2 offset2 =
        slotValue acc.section_map var2 offset2) ∧
    acc.created ≤ (storeSlot eng acc var offset value).created := by
  have hsv : slotValue acc.section_map var offset =
      mapFind offset (match mapFind var acc.section_map with
        | some found => found
        | none => []) := by
    unfold slotValue
    cases mapFind var acc.section_map <;> simp [mapFind]
  cases hf : mapFind offset (match mapFind var acc.section_map with
      | some found => found
      | none => []) with
  | none =>
    rw [hf] at hsv
    rw [storeSlot_of_none eng acc var offset value hf]
    refine ⟨?_, ?_, ?_, ?_⟩
    · intro prior hp
      rw [hsv] at hp
      exact Option.noConfusion hp
    · intro _
      simp only [slotValue_insert, and_self, if_true]
    · intro var2 offset2 hne
      simp only [slotValue_insert, hne, if_false]
    · exact Nat.le_refl _
  | some last_value =>
    rw [hf] at hsv
    rw [storeSlot_of_some eng acc var offset value last_value hf]
    refine ⟨?_, ?_, ?_, ?_⟩
    · intro prior hp
      rw [hsv] at hp
      cases hp
      simp only [slotValue_insert, and_self, if_true]
    · intro hn
      rw [hsv] at hn
      exact Option.noConfusion hn
    · intro var2 offset2 hne
      simp only [slotValue_insert, hne, if_false]
    · exact Nat.le_succ _

theorem slotBuilt_some {SV TN B : Type} (eng : ExprEngine SV TN B) (lo hi : Nat)
    (prior : TN) (vs : List TN) (after : Option TN) :
    SlotBuilt eng lo hi (some prior) vs after ↔
      ∃ ids : List Nat, ids.length = vs.length ∧ ids.Pairwise (fun a b => a < b) ∧
        (∀ id ∈ ids, lo ≤ id ∧ id < hi) ∧
        after = some (multiplexed eng prior (ids.zip vs)) := by
  cases vs <;> exact Iff.rfl

theorem slotBuilt_none_cons {SV TN B : Type} (eng : ExprEngine SV TN B) (lo hi : Nat)
    (v : TN) (more : List TN) (after : Option TN) :
    SlotBuilt eng lo hi none (v :: more) after ↔
      ∃ ids : List Nat, ids.length = more.length ∧ ids.Pairwise (fun a b => a < b) ∧
        (∀ id ∈ ids, lo ≤ id ∧ id < hi) ∧
        after = some (multiplexed eng v (ids.zip more)) := Iff.rfl

theorem slotBuilt_none_nil {SV TN B : Type} (eng : ExprEngine SV TN B) (lo hi : Nat)
    (after : Option TN) :
    SlotBuilt eng lo hi none [] after ↔ after = none := Iff.rfl

theorem multiplexed_append {SV TN B : Type} (eng : ExprEngine SV TN B)
    (l1 l2 : List (Nat × TN)) :
    ∀ prior, multiplexed eng prior (l1 ++ l2) =
      multiplexed eng (multiplexed eng prior l1) l2 := by
  induction l1 with
  | nil => intro prior; rfl
  | cons x l1 ih =>
    obtain ⟨id, value⟩ := x
    intro prior
    simp only [List.cons_append, multiplexed]
    exact ih _

theorem slotBuilt_refl {SV TN B : Type} (eng : ExprEngine SV TN B) (lo hi : Nat)
    (before : Option TN) : SlotBuilt eng lo hi before [] before := by
  cases before with
  | none => exact (slotBuilt_none_nil eng lo hi none).mpr rfl
  | some prior =>
    rw [slotBuilt_some]
    exact ⟨[], rfl, List.Pairwise.nil, fun id h => by simp at h, rfl⟩

theorem slotBuilt_some_append {SV TN B : Type} (eng : ExprEngine SV TN B)
    (lo mid hi : Nat) (hlo : lo ≤ mid) (hhi : mid ≤ hi) (start prior : TN)
    (ids1 : List Nat) (vs1 vs2 : List TN) (after : Option TN)
    (hlen : ids1.length = vs1.length) (hpw : ids1.Pairwise (fun a b => a < b))
    (hb : ∀ id ∈ ids1, lo ≤ id ∧ id < mid)
    (hprior : prior = multiplexed eng start (ids1.zip vs1))
    (h2 : SlotBuilt eng mid hi (some prior) vs2 after) :
    ∃ ids : List Nat, ids.length = (vs1 ++ vs2).length ∧
      ids.Pairwise (fun a b => a < b) ∧ (∀ id ∈ ids, lo ≤ id ∧ id < hi) ∧
      after = some (multiplexed eng start (ids.zip (vs1 ++ vs2))) := by
  rw [slotBuilt_some] at h2
  obtain ⟨ids2, l2, p2, b2, e2⟩ := h2
  refine ⟨ids1 ++ ids2, ?_, ?_, ?_, ?_⟩
  · simp [hlen, l2]
  · rw [List.pairwise_append]
    refine ⟨hpw, p2, ?_⟩
    intro a ha b hb2
    exact lt_of_lt_of_le (hb a ha).2 (b2 b hb2).1
  · intro id hid
    simp only [List.mem_append] at hid
    rcases hid with hid | hid
    · exact ⟨(hb id hid).1, lt_of_lt_of_le (hb id hid).2 hhi⟩
    · exact ⟨le_trans hlo (b2 id hid).1, (b2 id hid).2⟩
  · rw [List.zip_append hlen, multiplexed_append, ← hprior]
    exact e2

theorem slotBuilt_trans {SV TN B : Type} (eng : ExprEngine SV TN B)
    (lo mid hi : Nat) (hlo : lo ≤ mid) (hhi : mid ≤ hi)
    (a b c : Option TN) (s1 s2 : List TN)
    (h1 : SlotBuilt eng lo mid a s1 b) (h2 : SlotBuilt eng mid hi b s2 c) :
    SlotBuilt eng lo hi a (s1 ++ s2) c := by
  cases a with
  | none =>
    cases s1 with
    | nil =>
      rw [slotBuilt_none_nil] at h1
      subst h1
      simp only [List.nil_append]
      cases s2 with
      | nil => exact h2
      | cons v more =>
        rw [slotBuilt_none_cons] at h2 ⊢
        obtain ⟨ids, l, p, bd, e⟩ := h2
        exact ⟨ids, l, p, fun id hid => ⟨le_trans hlo (bd id hid).1, (bd id hid).2⟩, e⟩
    | cons v more =>
      rw [slotBuilt_none_cons] at h1
      obtain ⟨ids1, l1, p1, b1, e1⟩ := h1
      subst e1
      simp only [List.cons_append]
      rw [slotBuilt_none_cons]
      exact slotBuilt_some_append eng lo mid hi hlo hhi v _ ids1 more s2 c l1 p1 b1 rfl h2
  | some prior =>
    rw [slotBuilt_some] at h1
    obtain ⟨ids1, l1, p1, b1, e1⟩ := h1
    subst e1
    rw [slotBuilt_some]
    exact slotBuilt_some_append eng lo mid hi hlo hhi prior _ ids1 s1 s2 c l1 p1 b1 rfl h2

theorem storeSlot_slotBuilt {SV TN B : Type} [LinearOrder B] (eng : ExprEngine SV TN B)
    (acc : CellMapChunks B TN) (var : B) (offset : Int) (value : TN)
    (var2 : B) (offset2 : Int) :
    SlotBuilt eng acc.created (storeSlot eng acc var offset value).created
      (slotValue acc.section_map var2 offset2)
      (if var = var2 ∧ offset = offset2 then [value] else [])
      (slotValue (storeSlot eng acc var offset value).section_map var2 offset2) := by
  obtain ⟨h1, h2, h3, _⟩ := storeSlot_spec eng acc var offset value
  by_cases hit : var = var2 ∧ offset = offset2
  · obtain ⟨rfl, rfl⟩ := hit
    simp only [and_self, if_true]
    cases hs : slotValue acc.section_map var offset with
    | none =>
      rw [slotBuilt_none_cons]
      exact ⟨[], rfl, List.Pairwise.nil, fun id h => by simp at h, (h2 hs).1⟩
    | some prior =>
      rw [slotBuilt_some]
      obtain ⟨e1, e2⟩ := h1 prior hs
      refine ⟨[acc.created], rfl, List.pairwise_singleton _ _, ?_, ?_⟩
      · intro id hid
        simp only [List.mem_singleton] at hid
        rw [hid, e2]
        exact ⟨Nat.le_refl _, Nat.lt_succ_self _⟩
      · rw [e1]
        rfl
  · rw [if_neg hit]
    have hne : ¬ (var2 = var ∧ offset2 = offset) := fun h => hit ⟨h.1.symm, h.2.symm⟩
    rw [h3 var2 offset2 hne]
    exact slotBuilt_refl eng _ _ _

theorem storeCell_slotBuilt {SV TN B : Type} [LinearOrder B] (eng : ExprEngine SV TN B)
    (value : TN) (var : B) (offset : Int) (data : List (B × List Int)) :
    ∀ acc result : CellMapChunks B TN, storeCell eng value acc data = some result →
      acc.created ≤ result.created ∧
      SlotBuilt eng acc.created result.created (slotValue acc.section_map var offset)
        (cellStores var offset value data) (slotValue result.section_map var offset) := by
  induction data with
  | nil =>
    intro acc result h
    simp only [storeCell, Option.some.injEq] at h
    subst h
    exact ⟨Nat.le_refl _, slotBuilt_refl eng _ _ _⟩
  | cons alt more ih =>
    obtain ⟨v, offsets⟩ := alt
    intro acc result h
    cases offsets with
    | nil =>
      simp only [storeCell] at h
      exact Option.noConfusion h
    | cons o os =>
      simp only [storeCell] at h
      obtain ⟨hle, hbuilt⟩ := ih (storeSlot eng acc v o value) result h
      have hstep := storeSlot_slotBuilt eng acc v o value var offset
      have hle1 := (storeSlot_spec eng acc v o value).2.2.2
      refine ⟨le_trans hle1 hle, ?_⟩
      have hlist : cellStores var offset value ((v, o :: os) :: more) =
          (if v = var ∧ o = offset then [value] else []) ++
            cellStores var offset value more := by
        simp only [cellStores, List.head?_cons, Option.some.injEq]
        by_cases hit : v = var ∧ o = offset
        · simp [hit]
        · simp [hit]
      rw [hlist]
      exact slotBuilt_trans eng _ _ _ hle1 hle _ _ _ _ _ hstep hbuilt

theorem storeCells_slotBuilt {SV TN B : Type} [LinearOrder B] (eng : ExprEngine SV TN B)
    (df_tn : Option TN) (df_value : TN) (var : B) (offset : Int)
    (cells : List (MemoryCell SV)) :
    ∀ acc result : CellMapChunks B TN,
      storeCells eng df_tn df_value acc cells = some result →
      acc.created ≤ result.created ∧
      SlotBuilt eng acc.created result.created (slotValue acc.section_map var offset)
        (slotStores eng df_tn df_value var offset cells)
        (slotValue result.section_map var offset) := by
  induction cells with
  | nil =>
    intro acc result h
    simp only [storeCells, Option.some.injEq] at h
    subst h
    exact ⟨Nat.le_refl _, slotBuilt_refl eng _ _ _⟩
  | cons cell cells ih =>
    intro acc result h
    simp only [storeCells] at h
    cases hc : storeCell eng (eng.get_expression cell.value) acc
        (eng.get_data (chunkAddress eng df_tn df_value cell)) with
    | none =>
      rw [hc] at h
      exact Option.noConfusion h
    | some next =>
      rw [hc] at h
      obtain ⟨hle1, hb1⟩ := storeCell_slotBuilt eng _ var offset _ acc next hc
      obtain ⟨hle2, hb2⟩ := ih next result h
      refine ⟨le_trans hle1 hle2, ?_⟩
      simp only [slotStores]
      exact slotBuilt_trans eng _ _ _ hle1 hle2 _ _ _ _ _ hb1 hb2

theorem storeSlot_sections_nonempty {SV TN B : Type} [LinearOrder B]
    (eng : ExprEngine SV TN B) (acc : CellMapChunks B TN) (var : B) (offset : Int)
    (value : TN) (h : ∀ s ∈ acc.section_map, s.2 ≠ []) :
    ∀ s ∈ (storeSlot eng acc var offset value).section_map, s.2 ≠ [] := by
  intro s hs
  cases hf : mapFind offset (match mapFind var acc.section_map with
      | some found => found
      | none => []) with
  | none =>
    rw [storeSlot_of_none eng acc var offset value hf] at hs
    rcases mem_mapInsert _ _ _ s hs with hs | hs
    · rw [hs]
      exact mapInsert_ne_nil _ _ _
    · exact h s hs
  | some last_value =>
    rw [storeSlot_of_some eng acc var offset value last_value hf] at hs
    rcases mem_mapInsert _ _ _ s hs with hs | hs
    · rw [hs]
      exact mapInsert_ne_nil _ _ _
    · exact h s hs

theorem storeCell_total {SV TN B : Type} [LinearOrder B] (eng : ExprEngine SV TN B)
    (value : TN) (data : List (B × List Int)) (hdata : ∀ alt ∈ data, alt.2 ≠ []) :
    ∀ acc : CellMapChunks B TN, (∀ s ∈ acc.section_map, s.2 ≠ []) →
      ∃ result, storeCell eng value acc data = some result ∧
        ∀ s ∈ result.section_map, s.2 ≠ [] := by
  induction data with
  | nil =>
    intro acc h
    exact ⟨acc, rfl, h⟩
  | cons alt more ih =>
    obtain ⟨v, offsets⟩ := alt
    intro acc h
    have hne : offsets ≠ [] := hdata (v, offsets) (List.mem_cons_self _ _)
    cases offsets with
    | nil => exact absurd rfl hne
    | cons o os =>
      simp only [storeCell]
      exact ih (fun alt halt => hdata alt (List.mem_cons_of_mem _ halt)) _
        (storeSlot_sections_nonempty eng acc v o value h)

theorem storeCells_total {SV TN B : Type} [LinearOrder B] (eng : ExprEngine SV TN B)
    (df_tn : Option TN) (df_value : TN) (cells : List (MemoryCell SV))
    (hdata : ∀ cell ∈ cells,
      ∀ alt ∈ eng.get_data (chunkAddress eng df_tn df_value cell), alt.2 ≠ []) :
    ∀ acc : CellMapChunks B TN, (∀ s ∈ acc.section_map, s.2 ≠ []) →
      ∃ result, storeCells eng df_tn df_value acc cells = some result ∧
        ∀ s ∈ result.section_map, s.2 ≠ [] := by
  induction cells with
  | nil =>
    intro acc h
    exact ⟨acc, rfl, h⟩
  | cons cell cells ih =>
    intro acc h
    obtain ⟨next, h1, h2⟩ := storeCell_total eng (eng.get_expression cell.value)
      (eng.get_data (chunkAddress eng df_tn df_value cell))
      (hdata cell (List.mem_cons_self _ _)) acc h
    simp only [storeCells, h1]
    exact ih (fun c hc => hdata c (List.mem_cons_of_mem _ hc)) next h2

theorem advance_add {B TN : Type} [Inhabited B] (a b : Nat) :
    ∀ it : chunk_iterator B TN,
      it.advance (a + b) = (it.advance a).bind (chunk_iterator.advance b) := by
  induction a with
  | zero =>
    intro it
    simp [chunk_iterator.advance]
  | succ a ih =>
    intro it
    rw [Nat.succ_add]
    simp only [chunk_iterator.advance]
    cases it.increment with
    | none => rfl
    | some next => exact ih next

theorem increment_before_sentinel {B TN : Type} [Inhabited B] (start : chunk_iterator B TN)
    (n : Nat) (hend : start.advance n = some chunk_iterator.sentinel)
    (j : Nat) (it : chunk_iterator B TN) (hj : start.advance j = some it)
    (hns : it ≠ chunk_iterator.sentinel) : it.increment ≠ none := by
  rcases Nat.lt_or_ge j n with hlt | hge
  · obtain ⟨k, hk⟩ := Nat.exists_eq_add_of_lt hlt
    have h := advance_add j (k + 1) start
    rw [show j + (k + 1) = n by omega, hend, hj] at h
    simp only [Option.some_bind, chunk_iterator.advance] at h
    intro hnone
    rw [hnone] at h
    exact Option.noConfusion h
  · obtain ⟨k, hk⟩ := Nat.exists_eq_add_of_le hge
    have h := advance_add n k start
    rw [← hk, hj, hend] at h
    simp only [Option.some_bind] at h
    exact absurd (advance_sentinel k it h.symm) hns

/-! ## The constructor of the chunker: theorems -/

/-- C12: in the constructor of `CellMapChunks`, when a cell decomposes to a slot
that already holds a value `prior`, the value of the slot becomes the
conditional `ITE(c, value, prior)` of width `max(nBits(prior), nBits(value))`
with `c` a one-bit variable created then, and a slot without a value takes the
value of the cell.  After the constructor a slot to which no cell decomposed
has no value, and a slot to which the values `v, more` were stored in this order
holds the nested conditional with `v` innermost and every value of `more` as an
operand, the condition variables being created in increasing order during the
construction; a slot hit by a single cell holds the value of that cell. -/
theorem chunker_alias_multiplexing {SV TN B : Type} [LinearOrder B]
    (eng : ExprEngine SV TN B) (read_df : SymbolicState SV → Option SV) (created : Nat)
    (input output : SymbolicState SV) (df_flag : Bool) (result : CellMapChunks B TN)
    (h : CellMapChunks.create eng read_df created ⟨some input, some output⟩ df_flag =
      some result) :
    (∀ (acc : CellMapChunks B TN) var offset value prior,
      slotValue acc.section_map var offset = some prior →
      slotValue (storeSlot eng acc var offset value).section_map var offset =
        some (eng.create_ite (max (eng.nBits prior) (eng.nBits value))
          (eng.createVariable 1 acc.created) value prior) ∧
      (storeSlot eng acc var offset value).created = acc.created + 1) ∧
    (∀ (acc : CellMapChunks B TN) var offset value,
      slotValue acc.section_map var offset = none →
      slotValue (storeSlot eng acc var offset value).section_map var offset =
        some value) ∧
    (∀ var offset,
      slotStores eng (chunkFlag eng read_df input) (eng.createBoolean df_flag) var offset
          output.memory_state.allCells = [] →
      slotValue result.section_map var offset = none) ∧
    (∀ var offset v more,
      slotStores eng (chunkFlag eng read_df input) (eng.createBoolean df_flag) var offset
          output.memory_state.allCells = v :: more →
      ∃ ids : List Nat, ids.length = more.length ∧ ids.Pairwise (fun a b => a < b) ∧
        (∀ id ∈ ids, created ≤ id ∧ id < result.created) ∧
        slotValue result.section_map var offset =
          some (multiplexed eng v (ids.zip more))) ∧
    (∀ var offset v,
      slotStores eng (chunkFlag eng read_df input) (eng.createBoolean df_flag) var offset
          output.memory_state.allCells = [v] →
      slotValue result.section_map var offset = some v) := by
  have hbuilt : ∀ var offset,
      SlotBuilt eng created result.created none
        (slotStores eng (chunkFlag eng read_df input) (eng.createBoolean df_flag) var
          offset output.memory_state.allCells)
        (slotValue result.section_map var offset) := by
    intro var offset
    simp only [CellMapChunks.create] at h
    exact (storeCells_slotBuilt eng _ _ var offset _ ⟨[], created⟩ result h).2
  refine ⟨?_, ?_, ?_, ?_, ?_⟩
  · intro acc var offset value prior hp
    exact (storeSlot_spec eng acc var offset value).1 prior hp
  · intro acc var offset value hn
    exact ((storeSlot_spec eng acc var offset value).2.1 hn).1
  · intro var offset hs
    have := hbuilt var offset
    rw [hs] at this
    exact this
  · intro var offset v more hs
    have := hbuilt var offset
    rw [hs] at this
    exact this
  · intro var offset v hs
    have := hbuilt var offset
    rw [hs, slotBuilt_none_cons] at this
    obtain ⟨ids, hl, _, _, e⟩ := this
    rw [e]
    cases ids with
    | nil => rfl
    | cons a l => simp at hl

/-- Witness of C12: in the sample analysis the cells of the addresses 700 and 710
decompose to the slot of the base 7 and the offset 0, and the cell of the
address 701 to the slot of the offset 1. -/
theorem chunker_alias_multiplexing_witness :
    CellMapChunks.create sampleEngine (fun _ => none) 0 sampleUsedef false =
      some ⟨[(7, [(0, SampleNode.ite 8 (SampleNode.var 1 0) (SampleNode.leaf 8 9)
          (SampleNode.leaf 8 5)), (1, SampleNode.leaf 8 6)])], 1⟩ ∧
    slotStores sampleEngine (chunkFlag sampleEngine (fun _ => none) ⟨sampleRegs1, sampleB⟩)
        (sampleEngine.createBoolean false) 7 0
        [⟨700, 5, ∅, ∅⟩, ⟨701, 6, ∅, ∅⟩, ⟨710, 9, ∅, ∅⟩] =
      [SampleNode.leaf 8 5, SampleNode.leaf 8 9] ∧
    ∃ ids : List Nat, ids.length = [SampleNode.leaf 8 9].length ∧
      ids.Pairwise (fun a b => a < b) ∧ (∀ id ∈ ids, 0 ≤ id ∧ id < 1) ∧
      slotValue [(7, [(0, SampleNode.ite 8 (SampleNode.var 1 0) (SampleNode.leaf 8 9)
          (SampleNode.leaf 8 5)), (1, SampleNode.leaf 8 6)])] 7 0 =
        some (multiplexed sampleEngine (SampleNode.leaf 8 5)
          (ids.zip [SampleNode.leaf 8 9])) :=
  ⟨rfl, rfl,
    (chunker_alias_multiplexing sampleEngine (fun _ => none) 0 ⟨sampleRegs1, sampleB⟩
      ⟨sampleRegs1,
        ⟨[(700, ⟨700, 5, ∅, ∅⟩), (701, ⟨701, 6, ∅, ∅⟩), (710, ⟨710, 9, ∅, ∅⟩)], none⟩⟩
      false _ rfl).2.2.2.1 7 0 (SampleNode.leaf 8 5) [SampleNode.leaf 8 9] rfl⟩

/-- C19: when the input state and the output state are present and every
decomposition of a cell address gives a non-empty offset set for each of its
bases, the constructor of `CellMapChunks` completes and every base of its
section map has an offset map with at least one entry; the iterator started on
this map reaches the sentinel, and no call of `increment` on an iterator reached
before the sentinel dereferences an end iterator.  When the input state or the
output state is missing the section map is empty. -/
theorem chunker_sections_nonempty {SV TN B : Type} [LinearOrder B] [Inhabited B]
    (eng : ExprEngine SV TN B) (read_df : SymbolicState SV → Option SV) (created : Nat)
    (usedef : DUAnalysis SV) (df_flag : Bool) :
    (∀ input output, usedef.input_state = some input →
      usedef.output_state = some output →
      (∀ cell ∈ output.memory_state.allCells,
        ∀ alt ∈ eng.get_data (chunkAddress eng (chunkFlag eng read_df input)
          (eng.createBoolean df_flag) cell), alt.2 ≠ []) →
      ∃ result, CellMapChunks.create eng read_df created usedef df_flag = some result ∧
        (∀ s ∈ result.section_map, s.2 ≠ []) ∧
        ∃ start n, chunk_iterator.begin result.section_map = some start ∧
          start.advance n = some chunk_iterator.sentinel ∧
          ∀ j it, start.advance j = some it → it ≠ chunk_iterator.sentinel →
            it.increment ≠ none) ∧
    ((usedef.input_state = none ∨ usedef.output_state = none) →
      ∃ result, CellMapChunks.create eng read_df created usedef df_flag = some result ∧
        result.section_map = []) := by
  constructor
  · intro input output hin hout hdata
    obtain ⟨result, h1, h2⟩ := storeCells_total eng (chunkFlag eng read_df input)
      (eng.createBoolean df_flag) output.memory_state.allCells hdata ⟨[], created⟩
      (fun s hs => by simp at hs)
    refine ⟨result, ?_, h2, ?_⟩
    · simp only [CellMapChunks.create, hin, hout]
      exact h1
    · obtain ⟨start, n, b1, _, b3, _, _⟩ := begin_partition result.section_map h2
      exact ⟨start, n, b1, b3, increment_before_sentinel start n b3⟩
  · intro hmissing
    refine ⟨⟨[], created⟩, ?_, rfl⟩
    unfold CellMapChunks.create
    rcases hmissing with h | h
    · rw [h]
    · rw [h]
      cases usedef.input_state <;> rfl

/-- Witness of C19: the sample analysis, whose decompositions have one offset
each. -/
theorem chunker_sections_nonempty_witness :
    (∀ cell ∈ ([⟨700, 5, ∅, ∅⟩, ⟨701, 6, ∅, ∅⟩, ⟨710, 9, ∅, ∅⟩] : List (MemoryCell Nat)),
      ∀ alt ∈ sampleEngine.get_data (chunkAddress sampleEngine
        (chunkFlag sampleEngine (fun _ => none) ⟨sampleRegs1, sampleB⟩)
        (sampleEngine.createBoolean false) cell), alt.2 ≠ []) ∧
    ∃ result, CellMapChunks.create sampleEngine (fun _ => none) 0 sampleUsedef false =
        some result ∧
      (∀ s ∈ result.section_map, s.2 ≠ []) ∧
      ∃ start n, chunk_iterator.begin result.section_map = some start ∧
        start.advance n = some chunk_iterator.sentinel ∧
        ∀ j it, start.advance j = some it → it ≠ chunk_iterator.sentinel →
          it.increment ≠ none :=
  have hdata : ∀ cell ∈
      ([⟨700, 5, ∅, ∅⟩, ⟨701, 6, ∅, ∅⟩, ⟨710, 9, ∅, ∅⟩] : List (MemoryCell Nat)),
      ∀ alt ∈ sampleEngine.get_data (chunkAddress sampleEngine
        (chunkFlag sampleEngine (fun _ => none) ⟨sampleRegs1, sampleB⟩)
        (sampleEngine.createBoolean false) cell), alt.2 ≠ [] := by
    intro cell hcell alt halt
    simp only [List.mem_cons, List.mem_singleton, List.not_mem_nil, or_false] at hcell
    rcases hcell with rfl | rfl | rfl <;>
      · simp only [sampleEngine, chunkAddress, chunkFlag, List.mem_singleton] at halt
        rw [halt]
        exact List.cons_ne_nil _ _
  ⟨hdata,
    (chunker_sections_nonempty sampleEngine (fun _ => none) 0 sampleUsedef false).1
      ⟨sampleRegs1, sampleB⟩
      ⟨sampleRegs1,
        ⟨[(700, ⟨700, 5, ∅, ∅⟩), (701, ⟨701, 6, ∅, ∅⟩), (710, ⟨710, 9, ∅, ∅⟩)], none⟩⟩
      rfl rfl hdata⟩

/-! ## The difference of register states at a register absent from the other state -/

/-- C13 fails on the code: the state `other` stores `eax`, `ebx` and the
instruction pointer, has no slot for `ecx`, and its accesses create locations;
`this` stores `ecx` with the constant 9.  The call `other->inspect_register(ecx)`
of line 85 returns the default value 100 (and gives `other` a slot for `ecx`),
not the null pointer, so line 87 does not skip the register, the must-equal
test of line 92 fails, and `diff` reports `ecx`, a register absent from
`other`. -/
theorem diff_reports_absent_register :
    sampleRegs3.accessCreatesLocations_ = true ∧
    sampleRegs3.registers_.flatten.find? (fun rp => decide (rp.desc = sampleEcx)) = none ∧
    sampleRegs3.inspect_register_effect
        (SymbolicRegisterState.read_register sampleDefault) sampleEcx =
      (some 100, ⟨sampleRegs3.registers_ ++ [[⟨sampleEcx, 100⟩]], true⟩) ∧
    sampleRegs3.inspect_register
        (fun state rd => (SymbolicRegisterState.read_register sampleDefault state rd).1)
        sampleEcx = some 100 ∧
    sampleOps.must_equal 9 100 = false ∧
    sampleRegs4.diff sampleOps
        (fun state rd => (SymbolicRegisterState.read_register sampleDefault state rd).1)
        sampleEip sampleRegs3 = [sampleEcx] ∧
    sampleEcx ∈ sampleRegs4.diff sampleOps
        (fun state rd => (SymbolicRegisterState.read_register sampleDefault state rd).1)
        sampleEip sampleRegs3 := by
  have hdiff : sampleRegs4.diff sampleOps
      (fun state rd => (SymbolicRegisterState.read_register sampleDefault state rd).1)
      sampleEip sampleRegs3 = [sampleEcx] := by decide
  refine ⟨rfl, rfl, rfl, rfl, rfl, hdiff, ?_⟩
  rw [hdiff]
  exact List.mem_singleton.mpr rfl

end pharos
